import Mathlib

/-!
Shallow embedding of the in-memory block file system implemented in
`src/main.py` (classes `BlockStorage`, `FileDescriptor`, `FileSystem`),
together with proofs checking the natural-language specification against it.

Modelling conventions:
* Python byte strings are `List Nat`; Python lists are Lean lists.
* Python integer block indices (which use the sentinel `-1`) are `Int`;
  list accesses on such indices go through `pyGet` / `pySet`, which model
  Python indexing including negative indices counting from the end.
* Python exceptions are values of `Err`.  An operation that can both mutate
  state and raise returns the (possibly partially mutated) state next to an
  `Except Err` result, mirroring the fact that in Python the mutations done
  before a raise survive it.
* `FileSystem.read` in the source ends with `file_data.decode()`; the spec
  declares text decoding an external-collaborator concern, so the model
  returns the raw bytes that are decoded.
* Dictionaries (`directory`, `open_files`) are association lists with the
  insertion-order update discipline of Python dicts.
-/

set_option maxHeartbeats 2000000
set_option maxRecDepth 8000

namespace SPZ4

/-- Errors modelling the Python exceptions of `main.py`: `notFound`
(FileNotFoundError), `alreadyExists` (FileExistsError), `capacityExceeded`
(RuntimeError when the descriptor table is full), `noCapacity` (RuntimeError
raised by `add_block`), `outOfSpace` (RuntimeError raised by
`allocate_block`), `invalidArgument` (ValueError raised by `write_block`),
`indexError` (out-of-range Python list index), `zeroDivision` (integer
division by a zero block size), `attributeError` (attribute access on a
`None` descriptor slot). -/
inductive Err where
  | notFound
  | alreadyExists
  | capacityExceeded
  | noCapacity
  | outOfSpace
  | invalidArgument
  | indexError
  | zeroDivision
  | attributeError
deriving DecidableEq, Repr

/-- Decidable equality for `Except` results, used to evaluate the model on
concrete runs. -/
instance {ε α : Type} [DecidableEq ε] [DecidableEq α] : DecidableEq (Except ε α) := fun x y =>
  match x, y with
  | .error e1, .error e2 =>
    if h : e1 = e2 then isTrue (by rw [h]) else isFalse (fun hc => by cases hc; exact h rfl)
  | .ok a1, .ok a2 =>
    if h : a1 = a2 then isTrue (by rw [h]) else isFalse (fun hc => by cases hc; exact h rfl)
  | .error _, .ok _ => isFalse (fun hc => by cases hc)
  | .ok _, .error _ => isFalse (fun hc => by cases hc)

/-- Python list index resolution for a list of length `n`: a nonnegative
index below `n` is used as is, a negative index of magnitude at most `n`
counts from the end, anything else raises IndexError (`none`). -/
def pyIdx (n : Nat) (i : Int) : Option Nat :=
  if 0 ≤ i ∧ i < (n : Int) then some i.toNat
  else if -(n : Int) ≤ i ∧ i < 0 then some (i + (n : Int)).toNat
  else none

/-- Python `l[i]` (read). -/
def pyGet {α : Type} (l : List α) (i : Int) : Option α :=
  match pyIdx l.length i with
  | some j => l.get? j
  | none => none

/-- Python `l[i] = a` (write); out-of-range writes are left to the caller,
which checks `pyGet` first wherever the source could raise. -/
def pySet {α : Type} (l : List α) (i : Int) (a : α) : List α :=
  match pyIdx l.length i with
  | some j => l.set j a
  | none => l

/-- The class `BlockStorage` of `main.py`: `num_blocks` byte buffers of
`block_size` bytes each plus a parallel allocation bitmap of `0` / `1`. -/
structure BlockStorage where
  block_size : Nat
  num_blocks : Nat
  blocks : List (List Nat)
  bitmap : List Nat
deriving DecidableEq, Repr

/-- `BlockStorage.__init__`. -/
def BlockStorage.init (num_blocks block_size : Nat) : BlockStorage :=
  { block_size := block_size
    num_blocks := num_blocks
    blocks := List.replicate num_blocks (List.replicate block_size 0)
    bitmap := List.replicate num_blocks 0 }

/-- Index of the first `0` entry of the bitmap (linear first-fit scan of
`allocate_block`). -/
def firstFree : List Nat → Option Nat
  | [] => none
  | b :: rest => if b = 0 then some 0 else (firstFree rest).map (fun j => j + 1)

/-- `BlockStorage.allocate_block`: first-fit scan, mark used, return index;
RuntimeError (`outOfSpace`) if no free block exists. -/
def BlockStorage.allocate_block (st : BlockStorage) : Except Err (BlockStorage × Nat) :=
  match firstFree st.bitmap with
  | some i => .ok ({ st with bitmap := st.bitmap.set i 1 }, i)
  | none => .error .outOfSpace

/-- `BlockStorage.free_block`: no-op if the bit is not `1`; otherwise clear
the bit and zero-fill the buffer. -/
def BlockStorage.free_block (st : BlockStorage) (block_index : Int) : Except Err BlockStorage :=
  match pyGet st.bitmap block_index with
  | none => .error .indexError
  | some b =>
    if b = 1 then
      .ok { st with
              bitmap := pySet st.bitmap block_index 0
              blocks := pySet st.blocks block_index (List.replicate st.block_size 0) }
    else .ok st

/-- `BlockStorage.write_block`: ValueError when the data is longer than a
block; otherwise overwrite the leading `len data` bytes of the buffer,
keeping the trailing bytes. -/
def BlockStorage.write_block (st : BlockStorage) (block_index : Int) (data : List Nat) :
    Except Err BlockStorage :=
  if data.length > st.block_size then .error .invalidArgument
  else
    match pyGet st.blocks block_index with
    | none => .error .indexError
    | some blk => .ok { st with blocks := pySet st.blocks block_index (data ++ blk.drop data.length) }

/-- `BlockStorage.read_block`: return the whole buffer. -/
def BlockStorage.read_block (st : BlockStorage) (block_index : Int) : Except Err (List Nat) :=
  match pyGet st.blocks block_index with
  | none => .error .indexError
  | some blk => .ok blk

/-- The class `FileDescriptor` of `main.py`. -/
structure FileDescriptor where
  file_type : String
  hard_links : Int
  size : Nat
  direct_blocks : List Int
  indirect_block : Int
deriving DecidableEq, Repr

/-- `FileDescriptor.__init__` (the source calls it with the default
`max_direct_blocks = 10`). -/
def FileDescriptor.init (file_type : String) (max_direct_blocks : Nat) : FileDescriptor :=
  { file_type := file_type
    hard_links := 1
    size := 0
    direct_blocks := List.replicate max_direct_blocks (-1)
    indirect_block := -1 }

/-- `FileDescriptor.add_block`: store the index into the first `-1` slot,
RuntimeError (`noCapacity`) if none. -/
def FileDescriptor.add_block (fdo : FileDescriptor) (block_index : Int) :
    Except Err FileDescriptor :=
  match fdo.direct_blocks.findIdx? (fun b => b = -1) with
  | some j => .ok { fdo with direct_blocks := fdo.direct_blocks.set j block_index }
  | none => .error .noCapacity

/-- `FileDescriptor.get_blocks`: the occupied block indices in slot order. -/
def FileDescriptor.get_blocks (fdo : FileDescriptor) : List Int :=
  fdo.direct_blocks.filter (fun b => b ≠ -1)

/-- Lookup in a Python-dict association list keyed by strings. -/
def dirLookup (d : List (String × Nat)) (name : String) : Option Nat :=
  (d.find? (fun p => p.1 = name)).map (fun p => p.2)

/-- Lookup of an open-file entry: handle id to (descriptor index, offset). -/
def ofLookup (of : List (Nat × Nat × Nat)) (h : Nat) : Option (Nat × Nat) :=
  (of.find? (fun e => e.1 = h)).map (fun e => e.2)

/-- Python dict assignment `of[h] = v`: replace in place if the key exists,
append otherwise. -/
def ofSet (of : List (Nat × Nat × Nat)) (h : Nat) (v : Nat × Nat) : List (Nat × Nat × Nat) :=
  if of.any (fun e => e.1 = h) then
    of.map (fun e => if e.1 = h then (h, v) else e)
  else of ++ [(h, v)]

/-- Python `del of[h]` / `directory.pop(name)` (the bindings with the key
removed; the source only deletes keys it has checked are present). -/
def ofRemove (of : List (Nat × Nat × Nat)) (h : Nat) : List (Nat × Nat × Nat) :=
  of.filter (fun e => e.1 ≠ h)

/-- Removal of a name from the directory association list. -/
def dirRemove (d : List (String × Nat)) (name : String) : List (String × Nat) :=
  d.filter (fun p => p.1 ≠ name)

/-- The file type string passed by `FileSystem.create`. -/
def fileTypeRegular : String := "regular"

/-- Concrete file names used when evaluating the model on specific runs. -/
def nmA : String := "a"

def nmB : String := "b"

/-- The class `FileSystem` of `main.py`.  `open_files` maps a handle id to
the pair (descriptor index, cursor offset). -/
structure FileSystem where
  block_storage : BlockStorage
  max_files : Nat
  file_descriptors : List (Option FileDescriptor)
  directory : List (String × Nat)
  open_files : List (Nat × Nat × Nat)
  next_fd : Nat
deriving DecidableEq, Repr

/-- `FileSystem.__init__`. -/
def FileSystem.init (num_blocks block_size max_files : Nat) : FileSystem :=
  { block_storage := BlockStorage.init num_blocks block_size
    max_files := max_files
    file_descriptors := List.replicate max_files none
    directory := []
    open_files := []
    next_fd := 0 }

/-- `FileSystem.stat`: return the descriptor bound to the name. -/
def FileSystem.stat (s : FileSystem) (name : String) : Except Err FileDescriptor :=
  match dirLookup s.directory name with
  | none => .error .notFound
  | some fd_index =>
    match s.file_descriptors.get? fd_index with
    | none => .error .indexError
    | some none => .error .attributeError
    | some (some fdo) => .ok fdo

/-- `FileSystem.ls`: the directory mapping. -/
def FileSystem.ls (s : FileSystem) : List (String × Nat) :=
  s.directory

/-- `FileSystem.create`: AlreadyExists on a taken name, first-fit scan of the
descriptor table, CapacityExceeded when full; new descriptor with one hard
link, size 0 and the default ten direct slots, bound to the name. -/
def FileSystem.create (s : FileSystem) (name : String) : FileSystem × Except Err Unit :=
  if (dirLookup s.directory name).isSome then (s, .error .alreadyExists)
  else
    match s.file_descriptors.findIdx? (fun o => o.isNone) with
    | some i =>
      ({ s with
           file_descriptors := s.file_descriptors.set i (some (FileDescriptor.init fileTypeRegular 10))
           directory := s.directory ++ [(name, i)] },
       .ok ())
    | none => (s, .error .capacityExceeded)

/-- `FileSystem.open`: NotFound if the name is absent; otherwise a fresh
monotonically increasing handle id with cursor 0. -/
def FileSystem.openFile (s : FileSystem) (name : String) : FileSystem × Except Err Nat :=
  match dirLookup s.directory name with
  | none => (s, .error .notFound)
  | some fd_index =>
    ({ s with
         open_files := ofSet s.open_files s.next_fd (fd_index, 0)
         next_fd := s.next_fd + 1 },
     .ok s.next_fd)

/-- `FileSystem.close`: remove the handle entry, silently ignoring an
unknown handle. -/
def FileSystem.close (s : FileSystem) (fd : Nat) : FileSystem :=
  { s with open_files := ofRemove s.open_files fd }

/-- `FileSystem.seek`: set the cursor absolutely; NotFound on an unknown
handle. -/
def FileSystem.seek (s : FileSystem) (fd : Nat) (offset : Nat) : FileSystem × Except Err Unit :=
  match ofLookup s.open_files fd with
  | none => (s, .error .notFound)
  | some (fd_index, _) =>
    ({ s with open_files := ofSet s.open_files fd (fd_index, offset) }, .ok ())

/-- Outcome of one iteration of the `while size > 0` loop of
`FileSystem.read`: an exception, or a chunk of bytes together with the next
cursor and the remaining size. -/
inductive ReadStepRes where
  | halt (e : Err)
  | next (chunk : List Nat) (off : Nat) (sz : Nat)
deriving DecidableEq, Repr

/-- One iteration of the read loop (lines 109-115 of `main.py`), entered
with remaining size `sz > 0`. -/
def readStep (st : BlockStorage) (blocks : List Int) (off sz : Nat) : ReadStepRes :=
  if st.block_size = 0 then .halt .zeroDivision
  else
    let block_index := off / st.block_size
    let block_offset := off % st.block_size
    let bytes_to_read := min sz (st.block_size - block_offset)
    match blocks.get? block_index with
    | none => .halt .indexError
    | some b =>
      match st.read_block b with
      | .error e => .halt e
      | .ok block_data =>
        .next ((block_data.drop block_offset).take bytes_to_read)
          (off + bytes_to_read) (sz - bytes_to_read)

/-- Fuelled version of the read loop, returning the bytes collected and the
final cursor.  The fuel is only a termination device: each iteration
consumes at least one byte, so fuel `size` (supplied by `readLoop`) always
suffices and the out-of-fuel branch is unreachable. -/
def readLoopGo (st : BlockStorage) (blocks : List Int) :
    Nat → Nat → Nat → Except Err (List Nat × Nat)
  | _, off, 0 => .ok ([], off)
  | 0, _, _ + 1 => .error .zeroDivision
  | fuel + 1, off, sz + 1 =>
    match readStep st blocks off (sz + 1) with
    | .halt e => .error e
    | .next chunk off1 sz1 =>
      match readLoopGo st blocks fuel off1 sz1 with
      | .error e => .error e
      | .ok (rest, fin) => .ok (chunk ++ rest, fin)

/-- The read loop of `FileSystem.read` (lines 108-115 of `main.py`),
started with exactly enough fuel. -/
def readLoop (st : BlockStorage) (blocks : List Int) (off size : Nat) :
    Except Err (List Nat × Nat) :=
  readLoopGo st blocks size off size

/-- `FileSystem.read`: clamp the size against the descriptor size, walk the
blocks, advance the cursor; the trailing `.decode()` of the source is the
identity on the byte content and is dropped here. -/
def FileSystem.read (s : FileSystem) (fd : Nat) (size : Nat) :
    FileSystem × Except Err (List Nat) :=
  match ofLookup s.open_files fd with
  | none => (s, .error .notFound)
  | some (fd_index, offset) =>
    match s.file_descriptors.get? fd_index with
    | none => (s, .error .indexError)
    | some none => (s, .error .attributeError)
    | some (some fdo) =>
      let total_size := fdo.size
      let size1 := if offset + size > total_size then total_size - offset else size
      match readLoop s.block_storage fdo.get_blocks offset size1 with
      | .error e => (s, .error e)
      | .ok (file_data, current_offset) =>
        ({ s with open_files := ofSet s.open_files fd (fd_index, current_offset) }, .ok file_data)

/-- Outcome of one iteration of the `while data` loop of
`FileSystem.write`: an aborting exception (storage and descriptor keep
whatever mutations were already made, as in Python), or the updated storage,
descriptor, cursor and remaining data. -/
inductive WriteStepRes where
  | halt (st : BlockStorage) (fdo : FileDescriptor) (e : Err)
  | next (st : BlockStorage) (fdo : FileDescriptor) (cur : Nat) (rest : List Nat)
deriving DecidableEq, Repr

/-- One iteration of the write loop (lines 126-134 of `main.py`), entered
with nonempty remaining data `d :: ds` and cursor `cur`. -/
def writeStep (st : BlockStorage) (fdo : FileDescriptor) (cur : Nat) (d : Nat)
    (ds : List Nat) : WriteStepRes :=
  if st.block_size = 0 then .halt st fdo .zeroDivision
  else
    let block_index := cur / st.block_size
    let block_offset := cur % st.block_size
    let alloc : BlockStorage × FileDescriptor × Option Err :=
      if block_index ≥ fdo.direct_blocks.length ∨
          fdo.direct_blocks.get? block_index = some (-1) then
        match st.allocate_block with
        | .error e => (st, fdo, some e)
        | .ok (st1, nb) =>
          match fdo.add_block nb with
          | .error e => (st1, fdo, some e)
          | .ok fdo1 => (st1, fdo1, none)
      else (st, fdo, none)
    match alloc with
    | (st1, fdo1, some e) => .halt st1 fdo1 e
    | (st1, fdo1, none) =>
      let block_data := (d :: ds).take (st.block_size - block_offset)
      match fdo1.direct_blocks.get? block_index with
      | none => .halt st1 fdo1 .indexError
      | some bi =>
        match st1.write_block bi block_data with
        | .error e => .halt st1 fdo1 e
        | .ok st2 =>
          .next st2 fdo1 (cur + block_data.length) ((d :: ds).drop block_data.length)

/-- Fuelled version of the write loop.  Returns the storage, descriptor and
cursor after the loop, plus the exception that aborted it, if any.  Fuel
`data.length` (supplied by `writeLoop`) always suffices because each
iteration consumes at least one byte, so the out-of-fuel branch is
unreachable. -/
def writeLoopGo (st : BlockStorage) (fdo : FileDescriptor) (cur : Nat) :
    Nat → List Nat → BlockStorage × FileDescriptor × Nat × Option Err
  | _, [] => (st, fdo, cur, none)
  | 0, _ :: _ => (st, fdo, cur, some .zeroDivision)
  | fuel + 1, d :: ds =>
    match writeStep st fdo cur d ds with
    | .halt st1 fdo1 e => (st1, fdo1, cur, some e)
    | .next st1 fdo1 cur1 rest => writeLoopGo st1 fdo1 cur1 fuel rest

/-- The write loop of `FileSystem.write`, started with exactly enough
fuel. -/
def writeLoop (st : BlockStorage) (fdo : FileDescriptor) (cur : Nat) (data : List Nat) :
    BlockStorage × FileDescriptor × Nat × Option Err :=
  writeLoopGo st fdo cur data.length data

/-- `FileSystem.write`: block-wise write through the cursor; on success the
descriptor size becomes `max size cursor` and the cursor advances, on an
exception the storage and descriptor mutations made so far survive but size
and cursor are untouched (lines 135-136 run only after the loop). -/
def FileSystem.write (s : FileSystem) (fd : Nat) (data : List Nat) :
    FileSystem × Except Err Unit :=
  match ofLookup s.open_files fd with
  | none => (s, .error .notFound)
  | some (fd_index, offset) =>
    match s.file_descriptors.get? fd_index with
    | none => (s, .error .indexError)
    | some none => (s, .error .attributeError)
    | some (some fdo) =>
      match writeLoop s.block_storage fdo offset data with
      | (st1, fdo1, _, some e) =>
        ({ s with
             block_storage := st1
             file_descriptors := s.file_descriptors.set fd_index (some fdo1) },
         .error e)
      | (st1, fdo1, current_offset, none) =>
        ({ s with
             block_storage := st1
             file_descriptors :=
               s.file_descriptors.set fd_index
                 (some { fdo1 with size := max fdo1.size current_offset })
             open_files := ofSet s.open_files fd (fd_index, current_offset) },
         .ok ())

/-- `FileSystem.link`: NotFound if the source is absent, AlreadyExists if
the target is taken; otherwise bump the link count and add the binding. -/
def FileSystem.link (s : FileSystem) (name1 name2 : String) : FileSystem × Except Err Unit :=
  match dirLookup s.directory name1 with
  | none => (s, .error .notFound)
  | some fd_index =>
    if (dirLookup s.directory name2).isSome then (s, .error .alreadyExists)
    else
      match s.file_descriptors.get? fd_index with
      | none => (s, .error .indexError)
      | some none => (s, .error .attributeError)
      | some (some fdo) =>
        ({ s with
             file_descriptors :=
               s.file_descriptors.set fd_index (some { fdo with hard_links := fdo.hard_links + 1 })
             directory := s.directory ++ [(name2, fd_index)] },
         .ok ())

/-- The `for block in fd_obj.get_blocks(): free_block(block)` loops of
`unlink` and `truncate`; frees done before an exception survive it. -/
def freeBlocksLoop (st : BlockStorage) : List Int → BlockStorage × Option Err
  | [] => (st, none)
  | b :: rest =>
    match st.free_block b with
    | .error e => (st, some e)
    | .ok st1 => freeBlocksLoop st1 rest

/-- `FileSystem.unlink`: NotFound on an absent name; pop the binding and
decrement the link count; free the blocks and clear the slot exactly when
the count reaches 0 and no open handle references the index. -/
def FileSystem.unlink (s : FileSystem) (name : String) : FileSystem × Except Err Unit :=
  match dirLookup s.directory name with
  | none => (s, .error .notFound)
  | some fd_index =>
    let dir1 := dirRemove s.directory name
    match s.file_descriptors.get? fd_index with
    | none => ({ s with directory := dir1 }, .error .indexError)
    | some none => ({ s with directory := dir1 }, .error .attributeError)
    | some (some fdo) =>
      let fdo1 : FileDescriptor := { fdo with hard_links := fdo.hard_links - 1 }
      if fdo1.hard_links = 0 ∧ ¬ s.open_files.any (fun e => e.2.1 = fd_index) then
        match freeBlocksLoop s.block_storage fdo1.get_blocks with
        | (st1, some e) =>
          ({ s with
               directory := dir1
               block_storage := st1
               file_descriptors := s.file_descriptors.set fd_index (some fdo1) },
           .error e)
        | (st1, none) =>
          ({ s with
               directory := dir1
               block_storage := st1
               file_descriptors := s.file_descriptors.set fd_index none },
           .ok ())
      else
        ({ s with
             directory := dir1
             file_descriptors := s.file_descriptors.set fd_index (some fdo1) },
         .ok ())

/-- The `for _ in range(blocks_needed - current_blocks)` loop of the growing
branch of `truncate`; allocations done before an exception survive it. -/
def truncGrowLoop : Nat → BlockStorage → FileDescriptor →
    BlockStorage × FileDescriptor × Option Err
  | 0, st, fdo => (st, fdo, none)
  | n + 1, st, fdo =>
    match st.allocate_block with
    | .error e => (st, fdo, some e)
    | .ok (st1, nb) =>
      match fdo.add_block nb with
      | .error e => (st1, fdo, some e)
      | .ok fdo1 => truncGrowLoop n st1 fdo1

/-- `FileSystem.truncate`: NotFound on an absent name; growing allocates up
to `ceil(size / block_size)` blocks and sets the size, shrinking frees the
blocks beyond `ceil(size / block_size)`, cuts the slot list to that length
and sets the size, equal size does nothing. -/
def FileSystem.truncate (s : FileSystem) (name : String) (size : Nat) :
    FileSystem × Except Err Unit :=
  match dirLookup s.directory name with
  | none => (s, .error .notFound)
  | some fd_index =>
    match s.file_descriptors.get? fd_index with
    | none => (s, .error .indexError)
    | some none => (s, .error .attributeError)
    | some (some fdo) =>
      if size > fdo.size then
        if s.block_storage.block_size = 0 then (s, .error .zeroDivision)
        else
          let current_blocks := fdo.get_blocks.length
          let blocks_needed :=
            (size + s.block_storage.block_size - 1) / s.block_storage.block_size
          match truncGrowLoop (blocks_needed - current_blocks) s.block_storage fdo with
          | (st1, fdo1, some e) =>
            ({ s with
                 block_storage := st1
                 file_descriptors := s.file_descriptors.set fd_index (some fdo1) },
             .error e)
          | (st1, fdo1, none) =>
            ({ s with
                 block_storage := st1
                 file_descriptors :=
                   s.file_descriptors.set fd_index (some { fdo1 with size := size }) },
             .ok ())
      else if size < fdo.size then
        if s.block_storage.block_size = 0 then (s, .error .zeroDivision)
        else
          let blocks_to_keep :=
            (size + s.block_storage.block_size - 1) / s.block_storage.block_size
          match freeBlocksLoop s.block_storage (fdo.get_blocks.drop blocks_to_keep) with
          | (st1, some e) =>
            ({ s with block_storage := st1 }, .error e)
          | (st1, none) =>
            ({ s with
                 block_storage := st1
                 file_descriptors :=
                   s.file_descriptors.set fd_index
                     (some { fdo with
                               direct_blocks := fdo.direct_blocks.take blocks_to_keep
                               size := size }) },
             .ok ())
      else (s, .ok ())

/-- The operations of the FileSystem API surface (section 6 of the spec):
create, open, close, seek, read, write, link, unlink, truncate, stat, ls. -/
inductive Op where
  | create (name : String)
  | openF (name : String)
  | close (fd : Nat)
  | seek (fd : Nat) (offset : Nat)
  | read (fd : Nat) (size : Nat)
  | write (fd : Nat) (data : List Nat)
  | link (name1 name2 : String)
  | unlink (name : String)
  | truncate (name : String) (size : Nat)
  | stat (name : String)
  | ls
deriving DecidableEq, Repr

/-- The state reached after one API operation (errors leave whatever partial
mutations the Python code made before raising, exactly as the individual
operation functions return them). -/
def stepFS (s : FileSystem) : Op → FileSystem
  | .create name => (s.create name).1
  | .openF name => (s.openFile name).1
  | .close fd => s.close fd
  | .seek fd off => (s.seek fd off).1
  | .read fd sz => (s.read fd sz).1
  | .write fd data => (s.write fd data).1
  | .link n1 n2 => (s.link n1 n2).1
  | .unlink name => (s.unlink name).1
  | .truncate name sz => (s.truncate name sz).1
  | .stat _ => s
  | .ls => s

/-- The state reached after a sequence of API operations. -/
def runFS (s : FileSystem) (ops : List Op) : FileSystem :=
  ops.foldl stepFS s

/-! ### Basic lemmas about the indexing helpers -/

theorem pyIdx_natCast (n k : Nat) : pyIdx n (k : Int) = if k < n then some k else none := by
  unfold pyIdx
  by_cases h : k < n
  · rw [if_pos ⟨Int.natCast_nonneg k, by exact_mod_cast h⟩, if_pos h]
    simp
  · rw [if_neg, if_neg, if_neg h]
    · intro hc
      omega
    · intro hc
      exact h (by exact_mod_cast hc.2)

theorem pyGet_natCast {α : Type} (l : List α) (k : Nat) : pyGet l (k : Int) = l.get? k := by
  unfold pyGet
  rw [pyIdx_natCast]
  by_cases h : k < l.length
  · rw [if_pos h]
  · rw [if_neg h]
    rw [List.get?_eq_getElem?, List.getElem?_eq_none (Nat.le_of_not_lt h)]

theorem pySet_natCast {α : Type} (l : List α) (k : Nat) (a : α) :
    pySet l (k : Int) a = l.set k a := by
  unfold pySet
  rw [pyIdx_natCast]
  by_cases h : k < l.length
  · rw [if_pos h]
  · rw [if_neg h, List.set_eq_of_length_le (Nat.le_of_not_lt h)]

theorem pyGet_eq_some_natCast {α : Type} {l : List α} {i : Int} {a : α}
    (hi : 0 ≤ i) (h : pyGet l i = some a) : l.get? i.toNat = some a := by
  rcases Int.eq_ofNat_of_zero_le hi with ⟨k, rfl⟩
  rw [pyGet_natCast] at h
  simpa using h

theorem pyGet_nonneg_of_valid {α : Type} {l : List α} {i : Int} {a : α}
    (hi : 0 ≤ i) (h : pyGet l i = some a) : i.toNat < l.length := by
  have h1 := pyGet_eq_some_natCast hi h
  rw [List.get?_eq_getElem?] at h1
  exact (List.getElem?_eq_some_iff.mp h1).1

/-! ### Loop recurrence lemmas -/

theorem readStep_next_size {st : BlockStorage} {blocks : List Int} {off sz : Nat}
    {chunk : List Nat} {off1 sz1 : Nat} (hsz : 0 < sz)
    (h : readStep st blocks off sz = .next chunk off1 sz1) : sz1 < sz := by
  unfold readStep at h
  split at h
  · cases h
  next hbs =>
    simp only at h
    split at h
    · cases h
    · split at h
      · cases h
      · injection h with h1 h2 h3
        subst h3
        have hmod : off % st.block_size < st.block_size :=
          Nat.mod_lt _ (Nat.pos_of_ne_zero hbs)
        omega

theorem readLoopGo_fuel {st : BlockStorage} {blocks : List Int} :
    ∀ fuel1 fuel2 off sz, sz ≤ fuel1 → sz ≤ fuel2 →
      readLoopGo st blocks fuel1 off sz = readLoopGo st blocks fuel2 off sz := by
  intro fuel1
  induction fuel1 with
  | zero =>
    intro fuel2 off sz h1 _
    interval_cases sz
    cases fuel2 <;> rfl
  | succ n ih =>
    intro fuel2 off sz h1 h2
    match sz, fuel2 with
    | 0, fuel2 => cases fuel2 <;> rfl
    | sz + 1, fuel2 + 1 =>
      show readLoopGo st blocks (n + 1) off (sz + 1) =
        readLoopGo st blocks (fuel2 + 1) off (sz + 1)
      rw [readLoopGo, readLoopGo]
      rcases hstep : readStep st blocks off (sz + 1) with e | ⟨chunk, off1, sz1⟩
      · rfl
      · have hlt := readStep_next_size (Nat.succ_pos sz) hstep
        dsimp only
        rw [ih fuel2 off1 sz1 (by omega) (by omega)]

theorem readLoop_zero (st : BlockStorage) (blocks : List Int) (off : Nat) :
    readLoop st blocks off 0 = .ok ([], off) := rfl

theorem readLoop_succ (st : BlockStorage) (blocks : List Int) (off sz : Nat) :
    readLoop st blocks off (sz + 1) =
      match readStep st blocks off (sz + 1) with
      | .halt e => .error e
      | .next chunk off1 sz1 =>
        match readLoop st blocks off1 sz1 with
        | .error e => .error e
        | .ok (rest, fin) => .ok (chunk ++ rest, fin) := by
  show readLoopGo st blocks (sz + 1) off (sz + 1) = _
  rw [readLoopGo]
  rcases hstep : readStep st blocks off (sz + 1) with e | ⟨chunk, off1, sz1⟩
  · rfl
  · have hlt := readStep_next_size (Nat.succ_pos sz) hstep
    dsimp only
    rw [readLoopGo_fuel sz sz1 off1 sz1 (by omega) (by omega)]
    rfl

theorem writeStep_next_length {st : BlockStorage} {fdo : FileDescriptor} {cur : Nat}
    {d : Nat} {ds : List Nat} {st1 : BlockStorage} {fdo1 : FileDescriptor}
    {cur1 : Nat} {rest : List Nat}
    (h : writeStep st fdo cur d ds = .next st1 fdo1 cur1 rest) : rest.length ≤ ds.length := by
  unfold writeStep at h
  split at h
  · cases h
  next hbs =>
    simp only at h
    split at h
    · cases h
    · split at h
      · cases h
      · split at h
        · cases h
        · injection h with h1 h2 h3 h4
          subst h4
          have hmod : cur % st.block_size < st.block_size :=
            Nat.mod_lt _ (Nat.pos_of_ne_zero hbs)
          simp only [List.length_drop, List.length_take, List.length_cons]
          omega

theorem writeLoopGo_fuel :
    ∀ fuel1 fuel2 (st : BlockStorage) (fdo : FileDescriptor) (cur : Nat) (data : List Nat),
      data.length ≤ fuel1 → data.length ≤ fuel2 →
      writeLoopGo st fdo cur fuel1 data = writeLoopGo st fdo cur fuel2 data := by
  intro fuel1
  induction fuel1 with
  | zero =>
    intro fuel2 st fdo cur data h1 _
    have : data = [] := List.eq_nil_of_length_eq_zero (by omega)
    subst this
    cases fuel2 <;> rfl
  | succ n ih =>
    intro fuel2 st fdo cur data h1 h2
    match data, fuel2 with
    | [], fuel2 => cases fuel2 <;> rfl
    | d :: ds, fuel2 + 1 =>
      show writeLoopGo st fdo cur (n + 1) (d :: ds) =
        writeLoopGo st fdo cur (fuel2 + 1) (d :: ds)
      rw [writeLoopGo, writeLoopGo]
      rcases hstep : writeStep st fdo cur d ds with ⟨st1, fdo1, e⟩ | ⟨st1, fdo1, cur1, rest⟩
      · rfl
      · have hle := writeStep_next_length hstep
        simp only [List.length_cons] at h1 h2
        dsimp only
        exact ih fuel2 st1 fdo1 cur1 rest (by omega) (by omega)

theorem writeLoop_nil (st : BlockStorage) (fdo : FileDescriptor) (cur : Nat) :
    writeLoop st fdo cur [] = (st, fdo, cur, none) := rfl

/-! ### Properties of the first-fit scan -/

theorem firstFree_spec : ∀ (l : List Nat) (j : Nat), firstFree l = some j →
    j < l.length ∧ l.get? j = some 0 := by
  intro l
  induction l with
  | nil =>
    intro j h
    cases h
  | cons b rest ih =>
    intro j h
    rw [firstFree] at h
    by_cases hb : b = 0
    · rw [if_pos hb] at h
      injection h with h
      subst h
      subst hb
      exact ⟨Nat.succ_pos _, rfl⟩
    · rw [if_neg hb] at h
      rcases hr : firstFree rest with _ | j0 <;> rw [hr] at h
      · cases h
      · injection h with h
        subst h
        rcases ih j0 hr with ⟨h1, h2⟩
        exact ⟨by simpa using h1, by simpa using h2⟩

theorem firstFree_none : ∀ (l : List Nat), firstFree l = none → (0 : Nat) ∉ l := by
  intro l
  induction l with
  | nil =>
    intro _ h
    simp at h
  | cons b rest ih =>
    intro h
    rw [firstFree] at h
    by_cases hb : b = 0
    · rw [if_pos hb] at h
      cases h
    · rw [if_neg hb] at h
      intro hmem
      rcases List.mem_cons.mp hmem with h0 | h0
      · exact hb h0.symm
      · rcases hr : firstFree rest with _ | j0 <;> rw [hr] at h
        · exact ih hr h0
        · cases h

theorem count_zero_set_one : ∀ (l : List Nat) (j : Nat), l.get? j = some 0 →
    (l.set j 1).count 0 + 1 = l.count 0 := by
  intro l
  induction l with
  | nil =>
    intro j h
    simp at h
  | cons b rest ih =>
    intro j h
    cases j with
    | zero =>
      injection h with h
      subst h
      simp [List.count_cons]
    | succ j0 =>
      have h0 : rest.get? j0 = some 0 := by simpa using h
      have := ih j0 h0
      simp only [List.set_cons_succ, List.count_cons]
      simp only [List.count_cons] at this ⊢
      omega

theorem writeLoop_cons (st : BlockStorage) (fdo : FileDescriptor) (cur : Nat)
    (d : Nat) (ds : List Nat) :
    writeLoop st fdo cur (d :: ds) =
      match writeStep st fdo cur d ds with
      | .halt st1 fdo1 e => (st1, fdo1, cur, some e)
      | .next st1 fdo1 cur1 rest => writeLoop st1 fdo1 cur1 rest := by
  show writeLoopGo st fdo cur (ds.length + 1) (d :: ds) = _
  rw [writeLoopGo]
  rcases hstep : writeStep st fdo cur d ds with ⟨st1, fdo1, e⟩ | ⟨st1, fdo1, cur1, rest⟩
  · rfl
  · have hle := writeStep_next_length hstep
    dsimp only
    exact writeLoopGo_fuel ds.length rest.length st1 fdo1 cur1 rest (by omega) (by omega)

/-! ### Python index helpers, continued -/

theorem pyIdx_lt {n : Nat} {i : Int} {j : Nat} (h : pyIdx n i = some j) : j < n := by
  unfold pyIdx at h
  split_ifs at h with h1 h2
  · injection h with h
    omega
  · injection h with h
    omega

theorem pyGet_some_pyIdx {α : Type} {l : List α} {i : Int} {a : α}
    (h : pyGet l i = some a) :
    ∃ j : Nat, pyIdx l.length i = some j ∧ j < l.length ∧ l.get? j = some a := by
  unfold pyGet at h
  rcases hi : pyIdx l.length i with _ | j <;> rw [hi] at h
  · cases h
  · exact ⟨j, rfl, pyIdx_lt hi, h⟩

theorem pySet_of_pyIdx {α : Type} {l : List α} {i : Int} {j : Nat} (a : α)
    (h : pyIdx l.length i = some j) : pySet l i a = l.set j a := by
  unfold pySet
  rw [h]

/-! ### C9: allocate/free sequences keep free blocks zero-filled -/

/-- An `allocate_block` or `free_block` call, for stating properties of
arbitrary sequences of allocator operations. -/
inductive BsOp where
  | alloc
  | free (block_index : Int)
deriving DecidableEq, Repr

/-- The storage after one allocator operation (an operation that raises
leaves the storage as it was, which is what the Python code does: both
methods check before mutating). -/
def stepBS (st : BlockStorage) : BsOp → BlockStorage
  | .alloc =>
    match st.allocate_block with
    | .ok (st1, _) => st1
    | .error _ => st
  | .free i =>
    match st.free_block i with
    | .ok st1 => st1
    | .error _ => st

/-- The storage after a sequence of allocator operations. -/
def runBS (st : BlockStorage) (ops : List BsOp) : BlockStorage :=
  ops.foldl stepBS st

/-- Every block whose bitmap bit is `0` holds exactly `block_size` zero
bytes; the bitmap and the block list stay parallel to `num_blocks`. -/
def BsInv (st : BlockStorage) : Prop :=
  st.bitmap.length = st.num_blocks ∧ st.blocks.length = st.num_blocks ∧
  ∀ j : Nat, st.bitmap.get? j = some 0 →
    st.blocks.get? j = some (List.replicate st.block_size 0)

theorem BsInv_init (num_blocks block_size : Nat) :
    BsInv (BlockStorage.init num_blocks block_size) := by
  refine ⟨by simp [BlockStorage.init], by simp [BlockStorage.init], ?_⟩
  intro j h
  simp only [BlockStorage.init] at h ⊢
  rw [List.get?_eq_getElem?, List.getElem?_replicate] at h ⊢
  split at h
  · rw [if_pos (by assumption)]
  · cases h

theorem BsInv_alloc {st st1 : BlockStorage} {i : Nat} (hinv : BsInv st)
    (h : st.allocate_block = .ok (st1, i)) :
    BsInv st1 ∧ st1.block_size = st.block_size ∧ st1.blocks = st.blocks := by
  unfold BlockStorage.allocate_block at h
  rcases hf : firstFree st.bitmap with _ | j <;> rw [hf] at h
  · cases h
  · injection h with h
    injection h with h h2
    subst h
    rcases firstFree_spec st.bitmap j hf with ⟨hjlt, hj0⟩
    rcases hinv with ⟨hlen1, hlen2, hzero⟩
    refine ⟨⟨by simpa using hlen1, hlen2, ?_⟩, rfl, rfl⟩
    intro k hk
    simp only [List.get?_eq_getElem?] at hk ⊢
    by_cases hkj : k = j
    · subst hkj
      rw [List.getElem?_set_self (by simpa using hjlt)] at hk
      cases hk
    · rw [List.getElem?_set_ne (fun hc => hkj hc.symm)] at hk
      have := hzero k (by simpa using hk)
      simpa using this

theorem free_block_one {st : BlockStorage} {i : Int} (hg : pyGet st.bitmap i = some 1) :
    st.free_block i =
      .ok { st with bitmap := pySet st.bitmap i 0,
                    blocks := pySet st.blocks i (List.replicate st.block_size 0) } := by
  unfold BlockStorage.free_block
  rw [hg]
  rfl

theorem BsInv_free {st st1 : BlockStorage} {i : Int} (hinv : BsInv st)
    (h : st.free_block i = .ok st1) :
    BsInv st1 ∧ st1.block_size = st.block_size := by
  rcases hinv with ⟨hlen1, hlen2, hzero⟩
  unfold BlockStorage.free_block at h
  split at h
  · cases h
  · rename_i b hg
    split at h
    · rename_i hb
      injection h with h
      subst h
      rcases pyGet_some_pyIdx hg with ⟨j, hidx, hjlt, hjget⟩
      have hidx2 : pyIdx st.blocks.length i = some j := by
        rw [hlen2, ← hlen1]
        exact hidx
      refine ⟨⟨?_, ?_, ?_⟩, rfl⟩
      · simp only [pySet_of_pyIdx 0 hidx]
        simpa using hlen1
      · simp only [pySet_of_pyIdx (List.replicate st.block_size 0) hidx2]
        simpa using hlen2
      · intro k hk
        simp only [pySet_of_pyIdx 0 hidx, pySet_of_pyIdx (List.replicate st.block_size 0) hidx2,
          List.get?_eq_getElem?] at hk ⊢
        by_cases hkj : k = j
        · subst hkj
          rw [List.getElem?_set_self (by rw [hlen2, ← hlen1]; exact hjlt)]
        · rw [List.getElem?_set_ne (fun hc => hkj hc.symm)] at hk
          rw [List.getElem?_set_ne (fun hc => hkj hc.symm)]
          have := hzero k (by simpa using hk)
          simpa using this
    · injection h with h
      subst h
      exact ⟨⟨hlen1, hlen2, hzero⟩, rfl⟩

theorem BsInv_run {st : BlockStorage} (ops : List BsOp) (hinv : BsInv st) :
    BsInv (runBS st ops) ∧ (runBS st ops).block_size = st.block_size := by
  induction ops generalizing st with
  | nil => exact ⟨hinv, rfl⟩
  | cons op rest ih =>
    have hstep : BsInv (stepBS st op) ∧ (stepBS st op).block_size = st.block_size := by
      cases op with
      | alloc =>
        rcases ha : st.allocate_block with e | ⟨st1, i⟩
        · simp only [stepBS, ha]
          exact ⟨hinv, trivial⟩
        · simp only [stepBS, ha]
          rcases BsInv_alloc hinv ha with ⟨h1, h2, _⟩
          exact ⟨h1, h2⟩
      | free i =>
        rcases hfr : st.free_block i with e | st1
        · simp only [stepBS, hfr]
          exact ⟨hinv, trivial⟩
        · simp only [stepBS, hfr]
          exact BsInv_free hinv hfr
    rcases ih hstep.1 with ⟨h1, h2⟩
    refine ⟨h1, ?_⟩
    show (runBS (stepBS st op) rest).block_size = st.block_size
    rw [h2, hstep.2]

/-- C9: `free_block` is a no-op on an already-free block; on a used block it
clears the bitmap bit and zero-fills the buffer; consequently, after any
sequence of allocate/free operations on a fresh storage, every block whose
bit is clear reads back as `block_size` zero bytes. -/
theorem C9_free_block_zero_fill :
    (∀ (st : BlockStorage) (i : Int), pyGet st.bitmap i = some 0 →
      st.free_block i = .ok st) ∧
    (∀ (st st1 : BlockStorage) (i : Int),
      st.blocks.length = st.bitmap.length → pyGet st.bitmap i = some 1 →
      st.free_block i = .ok st1 →
      pyGet st1.bitmap i = some 0 ∧
      st1.read_block i = .ok (List.replicate st.block_size 0)) ∧
    (∀ (num_blocks block_size : Nat) (ops : List BsOp) (j : Nat),
      (runBS (BlockStorage.init num_blocks block_size) ops).bitmap.get? j = some 0 →
      (runBS (BlockStorage.init num_blocks block_size) ops).read_block (j : Int) =
        .ok (List.replicate block_size 0)) := by
  refine ⟨?_, ?_, ?_⟩
  · intro st i h
    unfold BlockStorage.free_block
    rw [h]
    rfl
  · intro st st1 i hlen h hfree
    rw [free_block_one h] at hfree
    injection hfree with hfree
    subst hfree
    rcases pyGet_some_pyIdx h with ⟨j, hidx, hjlt, hjget⟩
    have hidx2 : pyIdx st.blocks.length i = some j := by
      rw [hlen]
      exact hidx
    constructor
    · show pyGet (pySet st.bitmap i 0) i = some 0
      rw [pySet_of_pyIdx 0 hidx]
      unfold pyGet
      rw [List.length_set, hidx]
      show (st.bitmap.set j 0).get? j = some 0
      rw [List.get?_eq_getElem?, List.getElem?_set_self hjlt]
    · show BlockStorage.read_block _ i = _
      unfold BlockStorage.read_block
      have : pyGet (pySet st.blocks i (List.replicate st.block_size 0)) i =
          some (List.replicate st.block_size 0) := by
        rw [pySet_of_pyIdx (List.replicate st.block_size 0) hidx2]
        unfold pyGet
        rw [List.length_set, hidx2]
        show (st.blocks.set j (List.replicate st.block_size 0)).get? j =
          some (List.replicate st.block_size 0)
        rw [List.get?_eq_getElem?,
          List.getElem?_set_self (by rw [← hlen] at hjlt; exact hjlt)]
      rw [this]
  · intro num_blocks block_size ops j h
    rcases BsInv_run ops (BsInv_init num_blocks block_size) with ⟨⟨hlen1, hlen2, hzero⟩, hbs⟩
    have hblk := hzero j h
    unfold BlockStorage.read_block
    rw [pyGet_natCast, hblk, hbs]
    rfl

/-- C9 witness: the three parts of `C9_free_block_zero_fill` exercised on a
two-block storage of block size 3: freeing the untouched block 1 is a no-op,
freeing the allocated block 0 clears its bit and zero-fills it, and after
the run alloc-then-free every clear bit reads back as three zero bytes. -/
theorem C9_witness :
    ((runBS (BlockStorage.init 2 3) [BsOp.alloc]).free_block 1 =
      .ok (runBS (BlockStorage.init 2 3) [BsOp.alloc])) ∧
    (pyGet (stepBS (runBS (BlockStorage.init 2 3) [BsOp.alloc]) (BsOp.free 0)).bitmap 0 =
        some 0 ∧
      (stepBS (runBS (BlockStorage.init 2 3) [BsOp.alloc]) (BsOp.free 0)).read_block 0 =
        .ok (List.replicate 3 0)) ∧
    ((runBS (BlockStorage.init 2 3) [BsOp.alloc, BsOp.free 0]).read_block ((0 : Nat) : Int) =
      .ok (List.replicate 3 0)) := by
  refine ⟨?_, ?_, ?_⟩
  · exact C9_free_block_zero_fill.1 (runBS (BlockStorage.init 2 3) [BsOp.alloc]) 1 (by decide)
  · have := C9_free_block_zero_fill.2.1 (runBS (BlockStorage.init 2 3) [BsOp.alloc])
      (stepBS (runBS (BlockStorage.init 2 3) [BsOp.alloc]) (BsOp.free 0)) 0
      (by decide) (by decide) (by decide)
    exact this
  · exact C9_free_block_zero_fill.2.2 2 3 [BsOp.alloc, BsOp.free 0] 0 (by decide)

/-! ### C5: unlink semantics -/

theorem pyIdx_nonneg {n : Nat} {i : Int} (h0 : 0 ≤ i) (hlt : i.toNat < n) :
    pyIdx n i = some i.toNat := by
  unfold pyIdx
  rw [if_pos ⟨h0, by omega⟩]

theorem pyGet_nonneg {α : Type} (l : List α) {i : Int} (h0 : 0 ≤ i) :
    pyGet l i = l.get? i.toNat := by
  rcases Int.eq_ofNat_of_zero_le h0 with ⟨k, rfl⟩
  rw [pyGet_natCast]
  simp

/-- Every bitmap entry is `0` or `1` (true in every state the program can
build, since entries are only ever assigned those two literals). -/
def BitsBinary (st : BlockStorage) : Prop :=
  ∀ j : Nat, j < st.bitmap.length →
    st.bitmap.get? j = some 0 ∨ st.bitmap.get? j = some 1

instance (st : BlockStorage) : Decidable (BitsBinary st) := by
  unfold BitsBinary
  infer_instance

theorem free_block_zero {st : BlockStorage} {i : Int} (hg : pyGet st.bitmap i = some 0) :
    st.free_block i = .ok st := by
  unfold BlockStorage.free_block
  rw [hg]
  rfl

/-- Effect of freeing a list of valid block indices: the loop completes, the
listed bits all end clear, everything else (and all the lengths) is
untouched. -/
theorem freeBlocksLoop_spec :
    ∀ (L : List Int) (st : BlockStorage),
      BitsBinary st →
      st.blocks.length = st.bitmap.length →
      (∀ b ∈ L, 0 ≤ b ∧ b.toNat < st.bitmap.length) →
      (freeBlocksLoop st L).2 = none ∧
      (freeBlocksLoop st L).1.bitmap.length = st.bitmap.length ∧
      (freeBlocksLoop st L).1.blocks.length = st.blocks.length ∧
      (freeBlocksLoop st L).1.block_size = st.block_size ∧
      (freeBlocksLoop st L).1.num_blocks = st.num_blocks ∧
      BitsBinary (freeBlocksLoop st L).1 ∧
      (∀ b ∈ L, (freeBlocksLoop st L).1.bitmap.get? b.toNat = some 0) ∧
      (∀ j : Nat, (∀ b ∈ L, b.toNat ≠ j) →
        (freeBlocksLoop st L).1.bitmap.get? j = st.bitmap.get? j ∧
        (freeBlocksLoop st L).1.blocks.get? j = st.blocks.get? j) := by
  intro L
  induction L with
  | nil =>
    intro st hbin hlen hval
    refine ⟨rfl, rfl, rfl, rfl, rfl, hbin, ?_, ?_⟩
    · intro x hx
      cases hx
    · intro j _
      exact ⟨rfl, rfl⟩
  | cons b rest ih =>
    intro st hbin hlen hval
    rcases hval b (List.mem_cons_self b rest) with ⟨hb0, hblt⟩
    have hgetb : pyGet st.bitmap b = st.bitmap.get? b.toNat := pyGet_nonneg _ hb0
    rcases hbin b.toNat hblt with hbit | hbit
    · -- the bit is already clear: free_block is a no-op
      have hfree : st.free_block b = .ok st := free_block_zero (by rw [hgetb, hbit])
      have hrec := ih st hbin hlen (fun x hx => hval x (List.mem_cons_of_mem b hx))
      have hloop : freeBlocksLoop st (b :: rest) = freeBlocksLoop st rest := by
        simp only [freeBlocksLoop, hfree]
      rw [hloop]
      rcases hrec with ⟨h1, h2, h3, h4, h5, h6, h7, h8⟩
      refine ⟨h1, h2, h3, h4, h5, h6, ?_, ?_⟩
      · intro x hx
        rcases List.mem_cons.mp hx with hxb | hxr
        · subst hxb
          by_cases hxin : ∀ y ∈ rest, y.toNat ≠ x.toNat
          · rw [(h8 x.toNat hxin).1, hbit]
          · push_neg at hxin
            rcases hxin with ⟨y, hy, hyx⟩
            rw [← hyx]
            exact h7 y hy
        · exact h7 x hxr
      · intro j hj
        exact h8 j (fun y hy => hj y (List.mem_cons_of_mem b hy))
    · -- the bit is set: free_block clears it and zero-fills
      have hidx : pyIdx st.bitmap.length b = some b.toNat := pyIdx_nonneg hb0 hblt
      have hidx2 : pyIdx st.blocks.length b = some b.toNat := by
        rw [hlen]
        exact hidx
      have hfree := free_block_one (by rw [hgetb, hbit])
      set st1 : BlockStorage :=
        { st with bitmap := pySet st.bitmap b 0,
                  blocks := pySet st.blocks b (List.replicate st.block_size 0) } with hst1
      have hbm1 : st1.bitmap = st.bitmap.set b.toNat 0 := by
        rw [hst1]
        exact pySet_of_pyIdx 0 hidx
      have hbl1 : st1.blocks = st.blocks.set b.toNat (List.replicate st.block_size 0) := by
        rw [hst1]
        exact pySet_of_pyIdx _ hidx2
      have hlen1 : st1.bitmap.length = st.bitmap.length := by rw [hbm1, List.length_set]
      have hlen2 : st1.blocks.length = st.blocks.length := by rw [hbl1, List.length_set]
      have hbin1 : BitsBinary st1 := by
        intro j hjlt
        rw [hlen1] at hjlt
        by_cases hjb : j = b.toNat
        · subst hjb
          left
          rw [hbm1, List.get?_eq_getElem?, List.getElem?_set_self hjlt]
        · rw [hbm1, List.get?_eq_getElem?, List.getElem?_set_ne (fun hc => hjb hc.symm)]
          have := hbin j hjlt
          simpa using this
      have hrec := ih st1 hbin1 (by rw [hlen1, hlen2, hlen])
        (fun x hx => by
          rcases hval x (List.mem_cons_of_mem b hx) with ⟨h1, h2⟩
          exact ⟨h1, by rw [hlen1]; exact h2⟩)
      have hloop : freeBlocksLoop st (b :: rest) = freeBlocksLoop st1 rest := by
        simp only [freeBlocksLoop, hfree]
      rw [hloop]
      rcases hrec with ⟨h1, h2, h3, h4, h5, h6, h7, h8⟩
      refine ⟨h1, by rw [h2, hlen1], by rw [h3, hlen2], h4, h5, h6, ?_, ?_⟩
      · intro x hx
        rcases List.mem_cons.mp hx with hxb | hxr
        · subst hxb
          by_cases hxin : ∀ y ∈ rest, y.toNat ≠ x.toNat
          · rw [(h8 x.toNat hxin).1, hbm1, List.get?_eq_getElem?,
              List.getElem?_set_self hblt]
          · push_neg at hxin
            rcases hxin with ⟨y, hy, hyx⟩
            rw [← hyx]
            exact h7 y hy
        · exact h7 x hxr
      · intro j hj
        have hbj : b.toNat ≠ j := hj b (List.mem_cons_self b rest)
        have hrest := h8 j (fun y hy => hj y (List.mem_cons_of_mem b hy))
        constructor
        · rw [hrest.1, hbm1, List.get?_eq_getElem?, List.getElem?_set_ne hbj,
            ← List.get?_eq_getElem?]
        · rw [hrest.2, hbl1, List.get?_eq_getElem?, List.getElem?_set_ne hbj,
            ← List.get?_eq_getElem?]

/-- C5: `unlink` fails with `NotFound` when the name is absent; otherwise it
removes the directory binding and decrements `hard_links`, and it frees all
of the descriptor's blocks and clears its table slot if and only if the
decremented count is 0 and no currently open handle references the
descriptor index; in particular, unlinking the last name while a handle is
open leaves the descriptor (with its block list) and the block storage
intact. -/
theorem C5_unlink_semantics (s : FileSystem) (name : String)
    (hbin : BitsBinary s.block_storage)
    (hlen : s.block_storage.blocks.length = s.block_storage.bitmap.length) :
    (dirLookup s.directory name = none → s.unlink name = (s, .error .notFound)) ∧
    (∀ fd_index fdo,
      dirLookup s.directory name = some fd_index →
      s.file_descriptors.get? fd_index = some (some fdo) →
      (∀ b ∈ fdo.get_blocks, 0 ≤ b ∧ b.toNat < s.block_storage.bitmap.length) →
      if fdo.hard_links - 1 = 0 ∧ ¬ s.open_files.any (fun e => e.2.1 = fd_index) then
        (s.unlink name).2 = .ok () ∧
        (s.unlink name).1.directory = dirRemove s.directory name ∧
        (s.unlink name).1.file_descriptors = s.file_descriptors.set fd_index none ∧
        (∀ b ∈ fdo.get_blocks,
          (s.unlink name).1.block_storage.bitmap.get? b.toNat = some 0) ∧
        (s.unlink name).1.open_files = s.open_files
      else
        (s.unlink name).2 = .ok () ∧
        (s.unlink name).1.directory = dirRemove s.directory name ∧
        (s.unlink name).1.file_descriptors =
          s.file_descriptors.set fd_index
            (some { fdo with hard_links := fdo.hard_links - 1 }) ∧
        (s.unlink name).1.block_storage = s.block_storage ∧
        (s.unlink name).1.open_files = s.open_files) := by
  constructor
  · intro h
    unfold FileSystem.unlink
    rw [h]
  · intro fd_index fdo hdir hslot hval
    have hgb : FileDescriptor.get_blocks { fdo with hard_links := fdo.hard_links - 1 } =
        fdo.get_blocks := rfl
    by_cases hc : fdo.hard_links - 1 = 0 ∧ ¬ s.open_files.any (fun e => e.2.1 = fd_index)
    · rw [if_pos hc]
      rcases freeBlocksLoop_spec fdo.get_blocks s.block_storage hbin hlen hval with
        ⟨h1, _, _, _, _, _, h7, _⟩
      rcases hfbl : freeBlocksLoop s.block_storage fdo.get_blocks with ⟨st1, oe⟩
      rw [hfbl] at h1 h7
      simp only at h1
      subst h1
      have hrun : s.unlink name =
          ({ s with
               directory := dirRemove s.directory name
               block_storage := st1
               file_descriptors := s.file_descriptors.set fd_index none },
           .ok ()) := by
        unfold FileSystem.unlink
        simp only [hdir, hslot]
        dsimp only
        rw [if_pos hc, hgb, hfbl]
      rw [hrun]
      exact ⟨rfl, rfl, rfl, fun b hb => h7 b hb, rfl⟩
    · rw [if_neg hc]
      have hrun : s.unlink name =
          ({ s with
               directory := dirRemove s.directory name
               file_descriptors :=
                 s.file_descriptors.set fd_index
                   (some { fdo with hard_links := fdo.hard_links - 1 }) },
           .ok ()) := by
        unfold FileSystem.unlink
        simp only [hdir, hslot]
        dsimp only
        rw [if_neg hc]
      rw [hrun]
      exact ⟨rfl, rfl, rfl, rfl, rfl⟩

/-- C5 witness: on a fresh system, create `a`, open it (handle 0), write
three bytes; unlinking `a` while handle 0 is open takes the keep branch of
`C5_unlink_semantics`: the binding disappears, the slot keeps the descriptor
with `hard_links` 0, and the storage is untouched. -/
theorem C5_witness :
    (FileSystem.unlink
        ((FileSystem.write ((FileSystem.openFile ((FileSystem.create
          (FileSystem.init 8 2 4) nmA).1) nmA).1) 0 [9, 9, 9]).1) nmA).2 = .ok () ∧
    (FileSystem.unlink
        ((FileSystem.write ((FileSystem.openFile ((FileSystem.create
          (FileSystem.init 8 2 4) nmA).1) nmA).1) 0 [9, 9, 9]).1) nmA).1.block_storage =
      ((FileSystem.write ((FileSystem.openFile ((FileSystem.create
          (FileSystem.init 8 2 4) nmA).1) nmA).1) 0 [9, 9, 9]).1).block_storage := by
  have h := (C5_unlink_semantics
    ((FileSystem.write ((FileSystem.openFile ((FileSystem.create
      (FileSystem.init 8 2 4) nmA).1) nmA).1) 0 [9, 9, 9]).1) nmA
    (by decide) (by decide)).2 0
    { file_type := fileTypeRegular, hard_links := 1, size := 3,
      direct_blocks := [0, 1, -1, -1, -1, -1, -1, -1, -1, -1], indirect_block := -1 }
    (by decide) (by decide) (by decide)
  rw [if_neg (by decide)] at h
  exact ⟨h.1, h.2.2.2.1⟩

/-! ### C7: read semantics -/

theorem readStep_next_spec {st : BlockStorage} {blocks : List Int} {off sz : Nat}
    {chunk : List Nat} {off1 sz1 : Nat}
    (h : readStep st blocks off sz = .next chunk off1 sz1) :
    st.block_size ≠ 0 ∧
    ∃ b blk, blocks.get? (off / st.block_size) = some b ∧ st.read_block b = .ok blk ∧
      chunk = (blk.drop (off % st.block_size)).take
        (min sz (st.block_size - off % st.block_size)) ∧
      off1 = off + min sz (st.block_size - off % st.block_size) ∧
      sz1 = sz - min sz (st.block_size - off % st.block_size) := by
  unfold readStep at h
  split at h
  · cases h
  next hbs =>
    simp only at h
    split at h
    · cases h
    next b hb =>
      split at h
      · cases h
      next blk hblk =>
        injection h with h1 h2 h3
        exact ⟨hbs, b, blk, hb, hblk, h1.symm, h2.symm, h3.symm⟩

/-- When the read loop succeeds and every block buffer has exactly
`block_size` bytes, it returns exactly the requested number of bytes and
moves the cursor by that amount. -/
theorem readLoop_ok_length :
    ∀ (sz : Nat) (st : BlockStorage) (blocks : List Int) (off : Nat) (out : List Nat)
      (fin : Nat),
      (∀ blk ∈ st.blocks, blk.length = st.block_size) →
      readLoop st blocks off sz = .ok (out, fin) →
      out.length = sz ∧ fin = off + sz := by
  intro sz
  induction sz using Nat.strong_induction_on with
  | _ sz ih =>
    intro st blocks off out fin hblk h
    match sz with
    | 0 =>
      rw [readLoop_zero] at h
      injection h with h
      injection h with h1 h2
      subst h1
      subst h2
      exact ⟨rfl, by omega⟩
    | sz + 1 =>
      rw [readLoop_succ] at h
      rcases hstep : readStep st blocks off (sz + 1) with e | ⟨chunk, off1, sz1⟩ <;>
        rw [hstep] at h
      · cases h
      · dsimp only at h
        rcases hrl : readLoop st blocks off1 sz1 with e | ⟨rest, fin1⟩ <;> rw [hrl] at h
        · cases h
        · dsimp only at h
          injection h with h
          injection h with h1 h2
          subst h1
          subst h2
          rcases readStep_next_spec hstep with ⟨hbs, b, blk, hb, hblk1, hchunk, hoff1, hsz1⟩
          have hblen : blk.length = st.block_size := by
            apply hblk
            unfold BlockStorage.read_block at hblk1
            rcases hg : pyGet st.blocks b with _ | blk2 <;> rw [hg] at hblk1
            · cases hblk1
            · injection hblk1 with hblk1
              subst hblk1
              rcases pyGet_some_pyIdx hg with ⟨j, _, _, hjget⟩
              exact List.get?_mem hjget
          have hmod : off % st.block_size < st.block_size :=
            Nat.mod_lt _ (Nat.pos_of_ne_zero hbs)
          have hsz1lt : sz1 < sz + 1 := by omega
          rcases ih sz1 hsz1lt st blocks off1 rest fin1 hblk hrl with ⟨hlen, hfin⟩
          constructor
          · rw [List.length_append, hlen, hchunk]
            simp only [List.length_take, List.length_drop, hblen]
            omega
          · rw [hfin, hoff1]
            omega

theorem ofLookup_ofSet (of : List (Nat × Nat × Nat)) (fd : Nat) (v : Nat × Nat) :
    ofLookup (ofSet of fd v) fd = some v := by
  unfold ofSet
  by_cases hany : of.any (fun e => e.1 = fd)
  · rw [if_pos hany]
    induction of with
    | nil => simp at hany
    | cons e rest ih =>
      by_cases he : e.1 = fd
      · unfold ofLookup
        rw [List.map_cons, List.find?_cons_of_pos _ (by simp [he])]
        simp [he]
      · have hrest : rest.any (fun e => e.1 = fd) := by
          simp only [List.any_cons] at hany
          rcases Bool.or_eq_true_iff.mp hany with h1 | h1
          · exact absurd (by simpa using h1) he
          · exact h1
        have hih := ih hrest
        unfold ofLookup at hih ⊢
        rw [List.map_cons, List.find?_cons_of_neg _ (by simp [he])]
        exact hih
  · rw [if_neg hany]
    induction of with
    | nil =>
      unfold ofLookup
      rw [List.nil_append, List.find?_cons_of_pos _ (by simp)]
      rfl
    | cons e rest ih =>
      have he : ¬ e.1 = fd := by
        simp only [List.any_cons] at hany
        intro hc
        exact hany (Bool.or_eq_true_iff.mpr (Or.inl (by simpa using hc)))
      have hrest : ¬ rest.any (fun e => e.1 = fd) := by
        simp only [List.any_cons] at hany
        intro hc
        exact hany (Bool.or_eq_true_iff.mpr (Or.inr hc))
      have hih := ih hrest
      unfold ofLookup at hih ⊢
      rw [List.cons_append, List.find?_cons_of_neg _ (by simp [he])]
      exact hih

/-- C7: `read` fails with `NotFound` on an unknown handle; with a cursor at
or past the file size it returns empty bytes (cursor re-stored unchanged);
any successful read returns exactly `min size (file size - cursor)` bytes
(the clamp), advances the cursor by exactly that count, and a cursor within
the file never moves past the file size. -/
theorem C7_read_clamp (s : FileSystem) (fd size : Nat) :
    (ofLookup s.open_files fd = none → s.read fd size = (s, .error .notFound)) ∧
    (∀ i off fdo, ofLookup s.open_files fd = some (i, off) →
      s.file_descriptors.get? i = some (some fdo) →
      (off ≥ fdo.size →
        s.read fd size = ({ s with open_files := ofSet s.open_files fd (i, off) }, .ok [])) ∧
      (∀ s1 out, s.read fd size = (s1, .ok out) →
        (∀ blk ∈ s.block_storage.blocks, blk.length = s.block_storage.block_size) →
        out.length = min size (fdo.size - off) ∧
        ofLookup s1.open_files fd = some (i, off + out.length) ∧
        (off ≤ fdo.size → off + out.length ≤ fdo.size))) := by
  constructor
  · intro h
    unfold FileSystem.read
    rw [h]
  · intro i off fdo hof hslot
    have hsz1 : (if off + size > fdo.size then fdo.size - off else size) =
        min size (fdo.size - off) := by
      split <;> omega
    constructor
    · intro hpast
      have h0 : (if off + size > fdo.size then fdo.size - off else size) = 0 := by
        rw [hsz1]
        omega
      unfold FileSystem.read
      simp only [hof, hslot]
      rw [h0, readLoop_zero]
    · intro s1 out hread hblk
      unfold FileSystem.read at hread
      simp only [hof, hslot] at hread
      rw [hsz1] at hread
      rcases hrl : readLoop s.block_storage fdo.get_blocks off (min size (fdo.size - off))
        with e | ⟨l, fin⟩ <;> rw [hrl] at hread
      · injection hread with h1 h2
        cases h2
      · dsimp only at hread
        injection hread with h1 h2
        injection h2 with h2
        subst h2
        subst h1
        rcases readLoop_ok_length _ s.block_storage fdo.get_blocks off l fin hblk hrl with
          ⟨hlen, hfin⟩
        refine ⟨hlen, ?_, by omega⟩
        rw [hlen, ← hfin]
        exact ofLookup_ofSet s.open_files fd (i, fin)

/-- C7 witness: on a file of size 3 (bytes 9, 9, 9, block size 2) with the
cursor at 1, reading 7 bytes returns the 2 remaining bytes and leaves the
cursor at 3; a read at cursor 5 (past the size) returns empty bytes;
reading on the unknown handle 1 fails with `NotFound`. -/
theorem C7_witness :
    ((FileSystem.write ((FileSystem.openFile ((FileSystem.create
        (FileSystem.init 8 2 4) nmA).1) nmA).1) 0 [9, 9, 9]).1.read 1 7 =
      ((FileSystem.write ((FileSystem.openFile ((FileSystem.create
        (FileSystem.init 8 2 4) nmA).1) nmA).1) 0 [9, 9, 9]).1, .error .notFound)) ∧
    (∀ s1 out,
      FileSystem.read ((FileSystem.seek ((FileSystem.write ((FileSystem.openFile
          ((FileSystem.create (FileSystem.init 8 2 4) nmA).1) nmA).1) 0
          [9, 9, 9]).1) 0 1).1) 0 7 = (s1, .ok out) →
      out.length = 2 ∧ ofLookup s1.open_files 0 = some (0, 3)) := by
  constructor
  · exact (C7_read_clamp ((FileSystem.write ((FileSystem.openFile ((FileSystem.create
      (FileSystem.init 8 2 4) nmA).1) nmA).1) 0 [9, 9, 9]).1) 1 7).1 (by decide)
  · intro s1 out hread
    have h := ((C7_read_clamp ((FileSystem.seek ((FileSystem.write ((FileSystem.openFile
        ((FileSystem.create (FileSystem.init 8 2 4) nmA).1) nmA).1) 0
        [9, 9, 9]).1) 0 1).1) 0 7).2 0 1
      { file_type := fileTypeRegular, hard_links := 1, size := 3,
        direct_blocks := [0, 1, -1, -1, -1, -1, -1, -1, -1, -1], indirect_block := -1 }
      (by decide) (by decide)).2 s1 out hread (by decide)
    exact ⟨h.1, by rw [h.2.1, h.1]; decide⟩

/-! ### C10: empty write after a far seek -/

/-- C10: a `write` of empty bytes on a live handle allocates nothing and
leaves the block list alone, but still sets the descriptor size to
`max size cursor`; concretely, on a fresh file (block size 2) after
`seek 5`, an empty write reports size 5 with no backing blocks, and a
subsequent `read` of 3 bytes from offset 0 dies indexing past the end of the
(empty) block list — modelled as `indexError`, the uncaught Python
IndexError — rather than returning data or one of the API errors. -/
theorem C10_empty_write_grows_size :
    (∀ (s : FileSystem) (fd : Nat) (i off : Nat) (fdo : FileDescriptor),
      ofLookup s.open_files fd = some (i, off) →
      s.file_descriptors.get? i = some (some fdo) →
      s.write fd [] =
        ({ s with
             file_descriptors :=
               s.file_descriptors.set i (some { fdo with size := max fdo.size off })
             open_files := ofSet s.open_files fd (i, off) },
         .ok ())) ∧
    (FileSystem.stat ((FileSystem.write ((FileSystem.seek ((FileSystem.openFile
        ((FileSystem.create (FileSystem.init 4 2 2) nmA).1) nmA).1) 0 5).1) 0 []).1) nmA =
      .ok { file_type := fileTypeRegular, hard_links := 1, size := 5,
            direct_blocks := List.replicate 10 (-1), indirect_block := -1 }) ∧
    ((FileSystem.read ((FileSystem.seek ((FileSystem.write ((FileSystem.seek
        ((FileSystem.openFile ((FileSystem.create (FileSystem.init 4 2 2) nmA).1)
          nmA).1) 0 5).1) 0 []).1) 0 0).1) 0 3).2 = .error .indexError) := by
  refine ⟨?_, by decide, by decide⟩
  intro s fd i off fdo hof hslot
  unfold FileSystem.write
  simp only [hof, hslot, writeLoop_nil]

/-- C10 witness: the universal part of `C10_empty_write_grows_size` applied
to the concrete scenario (fresh file, cursor seeked to 5, empty write). -/
theorem C10_witness :
    FileSystem.write ((FileSystem.seek ((FileSystem.openFile ((FileSystem.create
        (FileSystem.init 4 2 2) nmA).1) nmA).1) 0 5).1) 0 [] =
      ({ (FileSystem.seek ((FileSystem.openFile ((FileSystem.create
            (FileSystem.init 4 2 2) nmA).1) nmA).1) 0 5).1 with
           file_descriptors :=
             ((FileSystem.seek ((FileSystem.openFile ((FileSystem.create
                 (FileSystem.init 4 2 2) nmA).1) nmA).1) 0 5).1).file_descriptors.set 0
               (some { file_type := fileTypeRegular, hard_links := 1, size := max 0 5,
                       direct_blocks := List.replicate 10 (-1), indirect_block := -1 })
           open_files :=
             ofSet ((FileSystem.seek ((FileSystem.openFile ((FileSystem.create
                 (FileSystem.init 4 2 2) nmA).1) nmA).1) 0 5).1).open_files 0 (0, 5) },
       .ok ()) := by
  exact C10_empty_write_grows_size.1
    ((FileSystem.seek ((FileSystem.openFile ((FileSystem.create
      (FileSystem.init 4 2 2) nmA).1) nmA).1) 0 5).1) 0 0 5
    { file_type := fileTypeRegular, hard_links := 1, size := 0,
      direct_blocks := List.replicate 10 (-1), indirect_block := -1 }
    (by decide) (by decide)

/-! ### Descriptor-shape lemmas about one write iteration -/

theorem add_block_ok {fdo : FileDescriptor} {bi : Int} {fdo1 : FileDescriptor}
    (h : fdo.add_block bi = .ok fdo1) :
    ∃ j, fdo.direct_blocks.findIdx? (fun b => b = -1) = some j ∧
      fdo1 = { fdo with direct_blocks := fdo.direct_blocks.set j bi } := by
  unfold FileDescriptor.add_block at h
  split at h
  next j hj =>
    injection h with h
    exact ⟨j, hj, h.symm⟩
  · cases h

/-- In any outcome of the branch of a write iteration that may allocate, the
resulting descriptor is the input one or an `add_block` success on it, and
the resulting storage is the input one or an `allocate_block` success on
it. -/
theorem allocTriple_cases {st : BlockStorage} {fdo : FileDescriptor} {c : Prop}
    [Decidable c] {stA : BlockStorage} {fdoA : FileDescriptor} {oe : Option Err}
    (heq : (if c then
              match st.allocate_block with
              | .error e => (st, fdo, some e)
              | .ok (st1, nb) =>
                match fdo.add_block (nb : Int) with
                | .error e => (st1, fdo, some e)
                | .ok fdo1 => (st1, fdo1, none)
            else (st, fdo, none)) = (stA, fdoA, oe)) :
    (fdoA = fdo ∨ ∃ bi : Int, fdo.add_block bi = .ok fdoA) ∧
    (stA = st ∨ ∃ i : Nat, st.allocate_block = .ok (stA, i)) := by
  split at heq
  · split at heq
    · injection heq with h1 h2
      injection h2 with h2 h3
      exact ⟨Or.inl h2.symm, Or.inl h1.symm⟩
    next st1 nb hok =>
      split at heq
      · injection heq with h1 h2
        injection h2 with h2 h3
        subst h1
        exact ⟨Or.inl h2.symm, Or.inr ⟨nb, hok⟩⟩
      next fdoB hadd =>
        injection heq with h1 h2
        injection h2 with h2 h3
        subst h1
        subst h2
        exact ⟨Or.inr ⟨(nb : Int), hadd⟩, Or.inr ⟨nb, hok⟩⟩
  · injection heq with h1 h2
    injection h2 with h2 h3
    exact ⟨Or.inl h2.symm, Or.inl h1.symm⟩

theorem writeStep_fdo_cases {st : BlockStorage} {fdo : FileDescriptor} {cur d : Nat}
    {ds : List Nat} (P : FileDescriptor → Prop)
    (hrefl : P fdo) (hadd : ∀ (bi : Int) (fdo1 : FileDescriptor),
      fdo.add_block bi = .ok fdo1 → P fdo1) :
    (∀ st1 fdo1 e, writeStep st fdo cur d ds = .halt st1 fdo1 e → P fdo1) ∧
    (∀ st1 fdo1 cur1 rest, writeStep st fdo cur d ds = .next st1 fdo1 cur1 rest → P fdo1) := by
  have key : ∀ {fdoA : FileDescriptor},
      (fdoA = fdo ∨ ∃ bi : Int, fdo.add_block bi = .ok fdoA) → P fdoA := by
    intro fdoA hc
    rcases hc with rfl | ⟨bi, hbi⟩
    · exact hrefl
    · exact hadd bi fdoA hbi
  constructor
  · intro st1 fdo1 e h
    unfold writeStep at h
    split at h
    · injection h with h1 h2 h3
      subst h2
      exact hrefl
    · simp only at h
      split at h
      next stA fdoA oe heq =>
        rename_i e1
        injection h with h1 h2 h3
        subst h2
        exact key (allocTriple_cases heq).1
      next stA fdoA heq =>
        split at h
        · injection h with h1 h2 h3
          subst h2
          exact key (allocTriple_cases heq).1
        · split at h
          · injection h with h1 h2 h3
            subst h2
            exact key (allocTriple_cases heq).1
          · cases h
  · intro st1 fdo1 cur1 rest h
    unfold writeStep at h
    split at h
    · cases h
    · simp only at h
      split at h
      next stA fdoA oe heq =>
        cases h
      next stA fdoA heq =>
        split at h
        · cases h
        · split at h
          · cases h
          · injection h with h1 h2 h3 h4
            subst h2
            exact key (allocTriple_cases heq).1

/-- Along the whole write loop the descriptor only changes through
`add_block` successes, so any property preserved by those (size, link
count, type, slot-list length, ...) is preserved by the loop. -/
theorem writeLoop_fdo_cases (P : FileDescriptor → Prop)
    (hstep : ∀ (fdo : FileDescriptor) (bi : Int) (fdo1 : FileDescriptor),
      P fdo → fdo.add_block bi = .ok fdo1 → P fdo1) :
    ∀ (n : Nat) (data : List Nat) (st : BlockStorage) (fdo : FileDescriptor) (cur : Nat),
      data.length ≤ n → P fdo → P (writeLoop st fdo cur data).2.1 := by
  intro n
  induction n with
  | zero =>
    intro data st fdo cur hlen hP
    have : data = [] := List.eq_nil_of_length_eq_zero (by omega)
    subst this
    rw [writeLoop_nil]
    exact hP
  | succ n ih =>
    intro data st fdo cur hlen hP
    match data with
    | [] =>
      rw [writeLoop_nil]
      exact hP
    | d :: ds =>
      rw [writeLoop_cons]
      rcases hstep2 : writeStep st fdo cur d ds with ⟨st1, fdo1, e⟩ | ⟨st1, fdo1, cur1, rest⟩
      · exact (writeStep_fdo_cases P hP (fun bi f h => hstep fdo bi f hP h)).1 _ _ _ hstep2
      · have hP1 : P fdo1 :=
          (writeStep_fdo_cases P hP (fun bi f h => hstep fdo bi f hP h)).2 _ _ _ _ hstep2
        have hle := writeStep_next_length hstep2
        simp only [List.length_cons] at hlen
        exact ih rest st1 fdo1 cur1 (by omega) hP1

/-! ### C4: a write that fails partway -/

/-- C4 amended: when `write` raises partway through its loop, the blocks and
descriptor slots already written keep their new content (the returned state
is the partially mutated one), but the handle cursor, the directory, and
every descriptor's `size` are exactly as before the call: the size and
cursor updates run only after the loop, so they are never "partially
advanced". -/
theorem C4_failed_write_state (s : FileSystem) (fd : Nat) (data : List Nat)
    (s1 : FileSystem) (e : Err) (h : s.write fd data = (s1, .error e)) :
    s1.open_files = s.open_files ∧
    s1.directory = s.directory ∧
    s1.next_fd = s.next_fd ∧
    (∀ i : Nat, (s1.file_descriptors.get? i).map (Option.map FileDescriptor.size) =
      (s.file_descriptors.get? i).map (Option.map FileDescriptor.size)) := by
  unfold FileSystem.write at h
  rcases hof : ofLookup s.open_files fd with _ | ⟨i, off⟩ <;> simp only [hof] at h
  · injection h with h1 h2
    subst h1
    exact ⟨rfl, rfl, rfl, fun k => rfl⟩
  · rcases hslot : s.file_descriptors.get? i with _ | fdoo <;> simp only [hslot] at h
    · injection h with h1 h2
      subst h1
      exact ⟨rfl, rfl, rfl, fun k => rfl⟩
    · rcases fdoo with _ | fdo <;> simp only at h
      · injection h with h1 h2
        subst h1
        exact ⟨rfl, rfl, rfl, fun k => rfl⟩
      · rcases hwl : writeLoop s.block_storage fdo off data with ⟨st1, fdo1, cur1, oe⟩
        rcases oe with _ | e1 <;> simp only [hwl] at h
        · injection h with h1 h2
          cases h2
        · injection h with h1 h2
          subst h1
          refine ⟨rfl, rfl, rfl, ?_⟩
          have hsize : fdo1.size = fdo.size := by
            have hall := writeLoop_fdo_cases (fun f => f.size = fdo.size)
              (fun f bi f1 hPf hab => by
                rcases add_block_ok hab with ⟨j, _, rfl⟩
                exact hPf)
              data.length data s.block_storage fdo off (Nat.le_refl _) rfl
            rw [hwl] at hall
            exact hall
          intro k
          by_cases hk : k = i
          · subst hk
            rw [List.get?_eq_getElem?] at hslot
            have hklt : k < s.file_descriptors.length :=
              (List.getElem?_eq_some_iff.mp hslot).1
            rw [List.get?_eq_getElem?, List.get?_eq_getElem?,
              List.getElem?_set_self hklt, hslot]
            simp [hsize]
          · rw [List.get?_eq_getElem?, List.get?_eq_getElem?,
              List.getElem?_set_ne (fun hc => hk hc.symm)]

/-- C4 counterexample: with block size 1, writing 11 bytes through handle 0
on a fresh file stores 10 bytes into blocks 0-9 and then raises
`NoCapacity`; afterwards the cursor is still `(0, 0)` (not the partially
advanced 10 the claim asserts), the size is still 0, while block 0 really
does hold the written byte. -/
theorem C4_counterexample :
    ((FileSystem.write ((FileSystem.openFile ((FileSystem.create
        (FileSystem.init 20 1 4) nmA).1) nmA).1) 0 (List.replicate 11 5)).2 =
      .error .noCapacity) ∧
    (ofLookup (FileSystem.write ((FileSystem.openFile ((FileSystem.create
        (FileSystem.init 20 1 4) nmA).1) nmA).1) 0 (List.replicate 11 5)).1.open_files 0 =
      some (0, 0)) ∧
    ¬ (ofLookup (FileSystem.write ((FileSystem.openFile ((FileSystem.create
        (FileSystem.init 20 1 4) nmA).1) nmA).1) 0 (List.replicate 11 5)).1.open_files 0 =
      some (0, 10)) ∧
    (FileSystem.stat (FileSystem.write ((FileSystem.openFile ((FileSystem.create
        (FileSystem.init 20 1 4) nmA).1) nmA).1) 0 (List.replicate 11 5)).1 nmA =
      .ok { file_type := fileTypeRegular, hard_links := 1, size := 0,
            direct_blocks := [0, 1, 2, 3, 4, 5, 6, 7, 8, 9], indirect_block := -1 }) ∧
    (pyGet (FileSystem.write ((FileSystem.openFile ((FileSystem.create
        (FileSystem.init 20 1 4) nmA).1) nmA).1) 0
        (List.replicate 11 5)).1.block_storage.blocks 0 = some [5]) := by
  refine ⟨by decide, by decide, by decide, by decide, by decide⟩

/-- C4 witness: `C4_failed_write_state` applied to the concrete failing
write of the counterexample scenario. -/
theorem C4_witness :
    (FileSystem.write ((FileSystem.openFile ((FileSystem.create
        (FileSystem.init 20 1 4) nmA).1) nmA).1) 0
        (List.replicate 11 5)).1.open_files =
      ((FileSystem.openFile ((FileSystem.create
        (FileSystem.init 20 1 4) nmA).1) nmA).1).open_files := by
  exact (C4_failed_write_state
    ((FileSystem.openFile ((FileSystem.create (FileSystem.init 20 1 4) nmA).1) nmA).1) 0
    (List.replicate 11 5)
    (FileSystem.write ((FileSystem.openFile ((FileSystem.create
      (FileSystem.init 20 1 4) nmA).1) nmA).1) 0 (List.replicate 11 5)).1
    .noCapacity (by decide)).1

/-! ### C3: the direct-block list length under the API operations -/

theorem slots_set_preserve {fds : List (Option FileDescriptor)} {idx : Nat}
    {v : Option FileDescriptor}
    (hP : ∀ i fdo, fds.get? i = some (some fdo) → fdo.direct_blocks.length = 10)
    (hv : ∀ fdo1, v = some fdo1 → fdo1.direct_blocks.length = 10) :
    ∀ i fdo1, (fds.set idx v).get? i = some (some fdo1) → fdo1.direct_blocks.length = 10 := by
  intro i fdo1 h
  rw [List.get?_eq_getElem?, List.getElem?_set] at h
  split at h
  · split at h
    · injection h with h
      exact hv fdo1 h
    · cases h
  · rw [← List.get?_eq_getElem?] at h
    exact hP i fdo1 h

theorem add_block_length {fdo : FileDescriptor} {bi : Int} {fdo1 : FileDescriptor}
    (h : fdo.add_block bi = .ok fdo1) :
    fdo1.direct_blocks.length = fdo.direct_blocks.length := by
  rcases add_block_ok h with ⟨j, _, rfl⟩
  exact List.length_set fdo.direct_blocks j bi

/-- Along the growing loop of `truncate` the descriptor changes only through
`add_block` successes. -/
theorem truncGrowLoop_fdo_cases (P : FileDescriptor → Prop)
    (hstep : ∀ (fdo : FileDescriptor) (bi : Int) (fdo1 : FileDescriptor),
      P fdo → fdo.add_block bi = .ok fdo1 → P fdo1) :
    ∀ (n : Nat) (st : BlockStorage) (fdo : FileDescriptor),
      P fdo → P (truncGrowLoop n st fdo).2.1 := by
  intro n
  induction n with
  | zero =>
    intro st fdo hP
    exact hP
  | succ n ih =>
    intro st fdo hP
    show P (truncGrowLoop (n + 1) st fdo).2.1
    rcases ha : st.allocate_block with e | ⟨st1, nb⟩ <;> simp only [truncGrowLoop, ha]
    · exact hP
    · rcases hab : fdo.add_block (nb : Int) with e | fdo1 <;> simp only [hab]
      · exact hP
      · exact ih st1 fdo1 (hstep fdo nb fdo1 hP hab)

/-- Bridge from a decidable per-element check to the slot-wise capacity
hypothesis of `C3_direct_blocks_capacity`. -/
theorem P10_of_all (fds : List (Option FileDescriptor))
    (h : fds.all (fun o => match o with
      | none => true
      | some fdo => fdo.direct_blocks.length = 10) = true) :
    ∀ i fdo, fds.get? i = some (some fdo) → fdo.direct_blocks.length = 10 := by
  intro i fdo hget
  have hmem : (some fdo) ∈ fds := List.get?_mem hget
  have := (List.all_eq_true.mp h) (some fdo) hmem
  simpa using this

theorem read_fds (s : FileSystem) (fd n : Nat) :
    ((s.read fd n).1).file_descriptors = s.file_descriptors := by
  unfold FileSystem.read
  rcases hof : ofLookup s.open_files fd with _ | ⟨i, off⟩ <;> simp only [hof]
  rcases hslot : s.file_descriptors.get? i with _ | (_ | fdo) <;> simp only [hslot]
  rcases hrl : readLoop s.block_storage fdo.get_blocks off
      (if off + n > fdo.size then fdo.size - off else n) with e | ⟨l, fin⟩ <;>
    simp only [hrl]

/-- C3 amended: every live descriptor's `direct_blocks` list has length 10
(the `max_direct_blocks` used by `create`), and every API operation
preserves this — except a shrinking `truncate`, which cuts the target
descriptor's list to `ceil(new_size / block_size)` entries; precisely, after
one operation each live descriptor has length 10 unless the operation was a
`truncate` of that descriptor's name to a size below its current size, in
which case its length is `min (ceil(new_size / block_size)) 10`. -/
theorem C3_direct_blocks_capacity (s : FileSystem) (op : Op)
    (hP : ∀ i fdo, s.file_descriptors.get? i = some (some fdo) →
      fdo.direct_blocks.length = 10) :
    ∀ i fdo1, (stepFS s op).file_descriptors.get? i = some (some fdo1) →
      fdo1.direct_blocks.length = 10 ∨
      (∃ name ns fdo, op = Op.truncate name ns ∧
        dirLookup s.directory name = some i ∧
        s.file_descriptors.get? i = some (some fdo) ∧ ns < fdo.size ∧
        fdo1.direct_blocks.length =
          min ((ns + s.block_storage.block_size - 1) / s.block_storage.block_size) 10) := by
  cases op with
  | create name =>
    intro i fdo1 h
    left
    have h2 : ((s.create name).1).file_descriptors.get? i = some (some fdo1) := h
    unfold FileSystem.create at h2
    by_cases hd : (dirLookup s.directory name).isSome
    · rw [if_pos hd] at h2
      exact hP i fdo1 h2
    · rw [if_neg hd] at h2
      rcases hf : s.file_descriptors.findIdx? (fun o => o.isNone) with _ | idx <;>
        simp only [hf] at h2
      · exact hP i fdo1 h2
      · refine slots_set_preserve hP ?_ i fdo1 h2
        intro fdo2 hv
        injection hv with hv
        subst hv
        simp [FileDescriptor.init]
  | openF name =>
    intro i fdo1 h
    left
    apply hP i fdo1
    have h2 : ((s.openFile name).1).file_descriptors.get? i = some (some fdo1) := h
    unfold FileSystem.openFile at h2
    rcases hd : dirLookup s.directory name with _ | idx <;> simp only [hd] at h2 <;>
      exact h2
  | close fd =>
    intro i fdo1 h
    exact Or.inl (hP i fdo1 h)
  | seek fd off =>
    intro i fdo1 h
    left
    apply hP i fdo1
    have h2 : ((s.seek fd off).1).file_descriptors.get? i = some (some fdo1) := h
    unfold FileSystem.seek at h2
    rcases hof : ofLookup s.open_files fd with _ | ⟨idx, o⟩ <;> simp only [hof] at h2 <;>
      exact h2
  | read fd n =>
    intro i fdo1 h
    left
    apply hP i fdo1
    have h2 : ((s.read fd n).1).file_descriptors.get? i = some (some fdo1) := h
    rw [read_fds] at h2
    exact h2
  | write fd data =>
    intro i fdo1 h
    left
    have h2 : ((s.write fd data).1).file_descriptors.get? i = some (some fdo1) := h
    unfold FileSystem.write at h2
    rcases hof : ofLookup s.open_files fd with _ | ⟨idx, off⟩ <;> simp only [hof] at h2
    · exact hP i fdo1 h2
    · rcases hslot : s.file_descriptors.get? idx with _ | (_ | fdo) <;>
        simp only [hslot] at h2
      · exact hP i fdo1 h2
      · exact hP i fdo1 h2
      · have hlen10 : fdo.direct_blocks.length = 10 := hP idx fdo hslot
        rcases hwl : writeLoop s.block_storage fdo off data with ⟨st1, fdoW, cur1, oe⟩
        have hWlen : fdoW.direct_blocks.length = 10 := by
          have hall := writeLoop_fdo_cases
            (fun f => f.direct_blocks.length = 10)
            (fun f bi f1 hPf hab => by
              show f1.direct_blocks.length = 10
              rw [add_block_length hab]
              exact hPf)
            data.length data s.block_storage fdo off (Nat.le_refl _) hlen10
          rw [hwl] at hall
          exact hall
        rcases oe with _ | e1 <;> simp only [hwl] at h2
        · refine slots_set_preserve hP ?_ i fdo1 h2
          intro fdo2 hv
          injection hv with hv
          subst hv
          exact hWlen
        · refine slots_set_preserve hP ?_ i fdo1 h2
          intro fdo2 hv
          injection hv with hv
          subst hv
          exact hWlen
  | link n1 n2 =>
    intro i fdo1 h
    left
    have h2 : ((s.link n1 n2).1).file_descriptors.get? i = some (some fdo1) := h
    unfold FileSystem.link at h2
    rcases hd : dirLookup s.directory n1 with _ | idx <;> simp only [hd] at h2
    · exact hP i fdo1 h2
    · by_cases hd2 : (dirLookup s.directory n2).isSome
      · rw [if_pos hd2] at h2
        exact hP i fdo1 h2
      · rw [if_neg hd2] at h2
        rcases hslot : s.file_descriptors.get? idx with _ | (_ | fdo) <;>
          simp only [hslot] at h2
        · exact hP i fdo1 h2
        · exact hP i fdo1 h2
        · refine slots_set_preserve hP ?_ i fdo1 h2
          intro fdo2 hv
          injection hv with hv
          subst hv
          exact hP idx fdo hslot
  | unlink name =>
    intro i fdo1 h
    left
    have h2 : ((s.unlink name).1).file_descriptors.get? i = some (some fdo1) := h
    unfold FileSystem.unlink at h2
    rcases hd : dirLookup s.directory name with _ | idx <;> simp only [hd] at h2
    · exact hP i fdo1 h2
    · rcases hslot : s.file_descriptors.get? idx with _ | (_ | fdo) <;>
        simp only [hslot] at h2
      · exact hP i fdo1 h2
      · exact hP i fdo1 h2
      · split at h2
        · rcases hfl : freeBlocksLoop s.block_storage
            (FileDescriptor.get_blocks { fdo with hard_links := fdo.hard_links - 1 })
            with ⟨st1, oe⟩
          rcases oe with _ | e1 <;> simp only [hfl] at h2
          · refine slots_set_preserve hP ?_ i fdo1 h2
            intro fdo2 hv
            cases hv
          · refine slots_set_preserve hP ?_ i fdo1 h2
            intro fdo2 hv
            injection hv with hv
            subst hv
            exact hP idx fdo hslot
        · refine slots_set_preserve hP ?_ i fdo1 h2
          intro fdo2 hv
          injection hv with hv
          subst hv
          exact hP idx fdo hslot
  | truncate name ns =>
    intro i fdo1 h
    have h2 : ((s.truncate name ns).1).file_descriptors.get? i = some (some fdo1) := h
    unfold FileSystem.truncate at h2
    rcases hd : dirLookup s.directory name with _ | idx <;> simp only [hd] at h2
    · exact Or.inl (hP i fdo1 h2)
    · rcases hslot : s.file_descriptors.get? idx with _ | (_ | fdo) <;>
        simp only [hslot] at h2
      · exact Or.inl (hP i fdo1 h2)
      · exact Or.inl (hP i fdo1 h2)
      · have hlen10 : fdo.direct_blocks.length = 10 := hP idx fdo hslot
        by_cases hgrow : ns > fdo.size
        · rw [if_pos hgrow] at h2
          by_cases hbs : s.block_storage.block_size = 0
          · rw [if_pos hbs] at h2
            exact Or.inl (hP i fdo1 h2)
          · rw [if_neg hbs] at h2
            rcases hgl : truncGrowLoop
                ((ns + s.block_storage.block_size - 1) / s.block_storage.block_size -
                  fdo.get_blocks.length) s.block_storage fdo with ⟨st1, fdoG, oe⟩
            have hGlen : fdoG.direct_blocks.length = 10 := by
              have hall := truncGrowLoop_fdo_cases
                (fun f => f.direct_blocks.length = 10)
                (fun f bi f1 hPf hab => by
                  show f1.direct_blocks.length = 10
                  rw [add_block_length hab]
                  exact hPf)
                ((ns + s.block_storage.block_size - 1) / s.block_storage.block_size -
                  fdo.get_blocks.length) s.block_storage fdo hlen10
              rw [hgl] at hall
              exact hall
            rcases oe with _ | e1 <;> simp only [hgl] at h2
            · refine Or.inl (slots_set_preserve hP ?_ i fdo1 h2)
              intro fdo2 hv
              injection hv with hv
              subst hv
              exact hGlen
            · refine Or.inl (slots_set_preserve hP ?_ i fdo1 h2)
              intro fdo2 hv
              injection hv with hv
              subst hv
              exact hGlen
        · rw [if_neg hgrow] at h2
          by_cases hshrink : ns < fdo.size
          · rw [if_pos hshrink] at h2
            by_cases hbs : s.block_storage.block_size = 0
            · rw [if_pos hbs] at h2
              exact Or.inl (hP i fdo1 h2)
            · rw [if_neg hbs] at h2
              rcases hfl : freeBlocksLoop s.block_storage
                  (fdo.get_blocks.drop
                    ((ns + s.block_storage.block_size - 1) / s.block_storage.block_size))
                  with ⟨st1, oe⟩
              rcases oe with _ | e1 <;> simp only [hfl] at h2
              · by_cases hki : i = idx
                · subst hki
                  rw [List.get?_eq_getElem?, List.getElem?_set] at h2
                  rw [if_pos rfl] at h2
                  split at h2
                  · injection h2 with h2
                    injection h2 with h2
                    subst h2
                    right
                    refine ⟨name, ns, fdo, rfl, hd, hslot, hshrink, ?_⟩
                    simp only [List.length_take, hlen10]
                  · cases h2
                · left
                  rw [List.get?_eq_getElem?,
                    List.getElem?_set_ne (fun hc => hki hc.symm),
                    ← List.get?_eq_getElem?] at h2
                  exact hP i fdo1 h2
              · exact Or.inl (hP i fdo1 h2)
          · rw [if_neg hshrink] at h2
            exact Or.inl (hP i fdo1 h2)
  | stat name =>
    intro i fdo1 h
    exact Or.inl (hP i fdo1 h)
  | ls =>
    intro i fdo1 h
    exact Or.inl (hP i fdo1 h)

/-- C3 counterexample: with block size 1, writing two bytes to a fresh file
and truncating it to 1 byte leaves the descriptor's `direct_blocks` with a
single entry, not the fixed capacity 10 the claim asserts. -/
theorem C3_counterexample :
    (FileSystem.stat (FileSystem.truncate ((FileSystem.write ((FileSystem.openFile
        ((FileSystem.create (FileSystem.init 8 1 4) nmA).1) nmA).1) 0 [7, 7]).1)
        nmA 1).1 nmA =
      .ok { file_type := fileTypeRegular, hard_links := 1, size := 1,
            direct_blocks := [0], indirect_block := -1 }) ∧
    ([(0 : Int)].length = 1 ∧ (1 : Nat) ≠ 10) := by
  exact ⟨by decide, by decide, by decide⟩

/-- The state the C3 counterexample starts from: block size 1, a file with
two bytes written occupying blocks 0 and 1. -/
def c3State : FileSystem :=
  (FileSystem.write ((FileSystem.openFile ((FileSystem.create
    (FileSystem.init 8 1 4) nmA).1) nmA).1) 0 [7, 7]).1

/-- The descriptor left in slot 0 after truncating that file to one byte:
its slot list was cut to a single entry. -/
def c3Fdo1 : FileDescriptor :=
  { file_type := fileTypeRegular
    hard_links := 1
    size := 1
    direct_blocks := [0]
    indirect_block := -1 }

/-- C3 witness: the amended statement applied to the shrinking truncate of
the counterexample scenario, yielding the `min keep 10` branch. -/
theorem C3_witness :
    ((stepFS c3State (Op.truncate nmA 1)).file_descriptors.get? 0 =
      some (some c3Fdo1)) ∧
    (c3Fdo1.direct_blocks.length = 10 ∨
      (∃ name ns fdo, Op.truncate nmA 1 = Op.truncate name ns ∧
        dirLookup c3State.directory name = some 0 ∧
        c3State.file_descriptors.get? 0 = some (some fdo) ∧ ns < fdo.size ∧
        c3Fdo1.direct_blocks.length =
          min ((ns + c3State.block_storage.block_size - 1) /
            c3State.block_storage.block_size) 10)) :=
  ⟨by decide,
    C3_direct_blocks_capacity c3State (Op.truncate nmA 1)
      (P10_of_all _ (by decide)) 0 c3Fdo1 (by decide)⟩

/-! ### Byte-level view of a block chain, and arithmetic helpers -/

/-- The byte a read at file position `pos` resolves to: block
`pos / block_size` of the chain, offset `pos % block_size` inside it. -/
def blockByte (st : BlockStorage) (chain : List Int) (pos : Nat) : Option Nat :=
  (chain.get? (pos / st.block_size)).bind fun b =>
    (pyGet st.blocks b).bind fun blk => blk.get? (pos % st.block_size)

theorem div_mod_add_small {bs : Nat} (off m : Nat) (hbs : bs ≠ 0)
    (h : off % bs + m < bs) :
    (off + m) / bs = off / bs ∧ (off + m) % bs = off % bs + m := by
  have hpos : 0 < bs := Nat.pos_of_ne_zero hbs
  have hsplit : off + m = (off % bs + m) + bs * (off / bs) := by
    have := Nat.div_add_mod off bs
    omega
  constructor
  · rw [hsplit, Nat.add_mul_div_left _ _ hpos, Nat.div_eq_of_lt h]
    omega
  · rw [hsplit, Nat.add_mul_mod_self_left, Nat.mod_eq_of_lt h]

theorem aligned_div_mod {bs : Nat} (q m : Nat) (hbs : bs ≠ 0) (hm : m < bs) :
    (q * bs + m) / bs = q ∧ (q * bs + m) % bs = m := by
  have h1 : (q * bs) % bs = 0 := Nat.mul_mod_left q bs
  have h2 : (q * bs) / bs = q := Nat.mul_div_cancel q (Nat.pos_of_ne_zero hbs)
  have := div_mod_add_small (q * bs) m hbs (by omega : q * bs % bs + m < bs)
  rcases this with ⟨ha, hb⟩
  rw [h1] at hb
  rw [h2] at ha
  exact ⟨ha, by simpa using hb⟩

theorem ceilDiv_le {bs m len : Nat} (hbs : 0 < bs) (h : len ≤ m * bs) :
    (len + bs - 1) / bs ≤ m := by
  rcases Nat.eq_zero_or_pos len with h0 | h0
  · subst h0
    have : (0 + bs - 1) / bs = 0 := Nat.div_eq_of_lt (by omega)
    omega
  · have hmul : bs * (m + 1) = m * bs + bs := by ring
    have hlt : len + bs - 1 < bs * (m + 1) := by omega
    have := Nat.div_lt_of_lt_mul hlt
    omega

theorem ceilDiv_one {bs len : Nat} (hbs : 0 < bs) (h1 : 1 ≤ len) (h2 : len ≤ bs) :
    (len + bs - 1) / bs = 1 := by
  have hle : bs ≤ len + bs - 1 := by omega
  have hlt : len + bs - 1 < 2 * bs := by omega
  have hlow : 1 ≤ (len + bs - 1) / bs := by
    have hdd : bs / bs ≤ (len + bs - 1) / bs := Nat.div_le_div_right hle
    rw [Nat.div_self hbs] at hdd
    omega
  have hhigh : (len + bs - 1) / bs < 2 := Nat.div_lt_of_lt_mul (by omega : len + bs - 1 < bs * 2)
  omega

theorem ceilDiv_step {bs len : Nat} (hbs : 0 < bs) (h : bs < len) :
    (len + bs - 1) / bs = (len - bs + bs - 1) / bs + 1 := by
  have : len + bs - 1 = (len - bs + bs - 1) + bs := by omega
  rw [this, Nat.add_div_right _ hbs]

theorem ceilDiv_pos {bs len : Nat} (hbs : 0 < bs) (h : 1 ≤ len) :
    1 ≤ (len + bs - 1) / bs := by
  have hle : bs ≤ len + bs - 1 := by omega
  have hdd : bs / bs ≤ (len + bs - 1) / bs := Nat.div_le_div_right hle
  rw [Nat.div_self hbs] at hdd
  omega

/-! ### Layout lemmas: a block list followed by empty sentinels -/

theorem get_blocks_layout (bl : List Int) (k : Nat) (h : ∀ b ∈ bl, b ≠ -1) :
    (List.filter (fun b => b ≠ -1) (bl ++ List.replicate k (-1))) = bl := by
  rw [List.filter_append]
  have h1 : List.filter (fun b => b ≠ -1) bl = bl :=
    List.filter_eq_self.mpr (fun a ha => by simpa using h a ha)
  have h2 : List.filter (fun b : Int => b ≠ -1) (List.replicate k (-1)) = [] :=
    List.filter_replicate_of_neg (by simp)
  rw [h1, h2, List.append_nil]

theorem layout_get_lt (bl : List Int) (k q : Nat) (hq : q < bl.length) :
    (bl ++ List.replicate k (-1)).get? q = bl.get? q := by
  rw [List.get?_eq_getElem?, List.get?_eq_getElem?, List.getElem?_append_left hq]

theorem layout_get_eq (bl : List Int) (k : Nat) (hk : 0 < k) :
    (bl ++ List.replicate k (-1)).get? bl.length = some (-1) := by
  rw [List.get?_eq_getElem?, List.getElem?_append_right (Nat.le_refl _)]
  simp [List.getElem?_replicate, hk]

theorem layout_set_eq (bl : List Int) (k : Nat) (x : Int) :
    (bl ++ List.replicate (k + 1) (-1)).set bl.length x =
      (bl ++ [x]) ++ List.replicate k (-1) := by
  induction bl with
  | nil => simp [List.replicate_succ]
  | cons b rest ih =>
    simp only [List.cons_append, List.length_cons, List.set_cons_succ, ih]

theorem findIdx_layout_aux (k : Nat) :
    ∀ (bl : List Int) (start : Nat), (∀ b ∈ bl, b ≠ -1) →
      (bl ++ List.replicate (k + 1) (-1)).findIdx? (fun b => b = -1) start =
        some (start + bl.length) := by
  intro bl
  induction bl with
  | nil =>
    intro start _
    rw [List.nil_append, List.replicate_succ, List.findIdx?_cons]
    simp
  | cons b rest ih =>
    intro start hne
    rw [List.cons_append, List.findIdx?_cons]
    rw [if_neg (by simpa using hne b (List.mem_cons_self b rest))]
    rw [ih (start + 1) (fun x hx => hne x (List.mem_cons_of_mem b hx))]
    simp only [List.length_cons]
    congr 1
    omega

theorem findIdx_layout (bl : List Int) (k : Nat) (h : ∀ b ∈ bl, b ≠ -1) :
    (bl ++ List.replicate (k + 1) (-1)).findIdx? (fun b => b = -1) = some bl.length := by
  have := findIdx_layout_aux k bl 0 h
  simpa using this

theorem firstFree_of_count_pos {l : List Nat} (h : 0 < l.count 0) :
    ∃ i, firstFree l = some i ∧ i < l.length ∧ l.get? i = some 0 := by
  rcases hf : firstFree l with _ | i
  · have := firstFree_none l hf
    rw [List.count_eq_zero.mpr this] at h
    omega
  · rcases firstFree_spec l i hf with ⟨h1, h2⟩
    exact ⟨i, rfl, h1, h2⟩

/-! ### The read loop returns exactly the bytes of the chain -/

theorem readLoop_spec :
    ∀ (sz : Nat) (st : BlockStorage) (chain : List Int) (off : Nat),
      st.block_size ≠ 0 →
      (∀ m, m < sz → (blockByte st chain (off + m)).isSome) →
      ∃ l, readLoop st chain off sz = .ok (l, off + sz) ∧ l.length = sz ∧
        (∀ m, m < sz → l.get? m = blockByte st chain (off + m)) := by
  intro sz
  induction sz using Nat.strong_induction_on with
  | _ sz ih =>
    intro st chain off hbs hdef
    match sz with
    | 0 =>
      exact ⟨[], readLoop_zero st chain off, rfl, fun m hm => absurd hm (by omega)⟩
    | sz + 1 =>
      have h0 := hdef 0 (by omega)
      rw [Nat.add_zero] at h0
      unfold blockByte at h0
      rcases hb : chain.get? (off / st.block_size) with _ | b <;> rw [hb] at h0
      · simp at h0
      · simp only [Option.some_bind] at h0
        rcases hblk : pyGet st.blocks b with _ | blk <;> rw [hblk] at h0
        · simp at h0
        · simp only [Option.some_bind] at h0
          have hbo : off % st.block_size < st.block_size :=
            Nat.mod_lt _ (Nat.pos_of_ne_zero hbs)
          set k := min (sz + 1) (st.block_size - off % st.block_size) with hk
          have hk1 : 1 ≤ k := by omega
          have hkbs : off % st.block_size + k ≤ st.block_size := by omega
          -- every byte of the chunk is inside the block buffer
          have hblen : off % st.block_size + k ≤ blk.length := by
            have hlast := hdef (k - 1) (by omega)
            unfold blockByte at hlast
            have harith := div_mod_add_small off (k - 1) hbs (by omega : off % st.block_size + (k - 1) < st.block_size)
            rw [harith.1, harith.2, hb] at hlast
            simp only [Option.some_bind] at hlast
            rw [hblk] at hlast
            simp only [Option.some_bind] at hlast
            rw [List.get?_eq_getElem?] at hlast
            rcases Option.isSome_iff_exists.mp hlast with ⟨v, hv⟩
            have := (List.getElem?_eq_some_iff.mp hv).1
            omega
          have hstep : readStep st chain off (sz + 1) =
              .next ((blk.drop (off % st.block_size)).take k) (off + k) (sz + 1 - k) := by
            unfold readStep
            rw [if_neg hbs]
            simp only [hb]
            unfold BlockStorage.read_block
            rw [hblk]
          rcases ih (sz + 1 - k) (by omega) st chain (off + k) hbs
            (fun m hm => by
              have := hdef (k + m) (by omega)
              rw [← Nat.add_assoc] at this
              exact this) with ⟨rest, hrest, hrlen, hrpt⟩
          refine ⟨(blk.drop (off % st.block_size)).take k ++ rest, ?_, ?_, ?_⟩
          · rw [readLoop_succ, hstep]
            dsimp only
            rw [hrest]
            have : off + k + (sz + 1 - k) = off + (sz + 1) := by omega
            rw [this]
          · rw [List.length_append, hrlen]
            simp only [List.length_take, List.length_drop]
            omega
          · intro m hm
            have hchunklen : ((blk.drop (off % st.block_size)).take k).length = k := by
              simp only [List.length_take, List.length_drop]
              omega
            by_cases hmk : m < k
            · rw [List.get?_eq_getElem?,
                List.getElem?_append_left (by rw [hchunklen]; exact hmk),
                List.getElem?_take_of_lt hmk, List.getElem?_drop]
              unfold blockByte
              have harith := div_mod_add_small off m hbs (by omega : off % st.block_size + m < st.block_size)
              rw [harith.1, harith.2, hb]
              simp only [Option.some_bind]
              rw [hblk]
              simp only [Option.some_bind]
              rw [List.get?_eq_getElem?]
            · rw [List.get?_eq_getElem?,
                List.getElem?_append_right (by rw [hchunklen]; omega)]
              rw [hchunklen, ← List.get?_eq_getElem?]
              have := hrpt (m - k) (by omega)
              rw [show off + k + (m - k) = off + m by omega] at this
              exact this

/-! ### One aligned write iteration -/

theorem write_block_ok {st : BlockStorage} {b : Int} {blk : List Nat} (data : List Nat)
    (hlen : data.length ≤ st.block_size) (hblk : pyGet st.blocks b = some blk) :
    st.write_block b data =
      .ok { st with blocks := pySet st.blocks b (data ++ blk.drop data.length) } := by
  unfold BlockStorage.write_block
  rw [if_neg (by omega), hblk]

/-- One write iteration at an aligned cursor whose block already exists: no
allocation, the chunk is copied to the leading bytes of that block. -/
theorem writeStep_aligned_hit (st : BlockStorage) (fdo : FileDescriptor) (q d : Nat)
    (ds : List Nat) (b : Int) (blk : List Nat)
    (hbs : st.block_size ≠ 0)
    (hlen : q < fdo.direct_blocks.length)
    (hgetq : fdo.direct_blocks.get? q = some b) (hbne : b ≠ -1)
    (hblk : pyGet st.blocks b = some blk) :
    writeStep st fdo (q * st.block_size) d ds =
      .next { st with
                blocks := pySet st.blocks b
                  ((d :: ds).take st.block_size ++
                    blk.drop ((d :: ds).take st.block_size).length) }
        fdo (q * st.block_size + ((d :: ds).take st.block_size).length)
        ((d :: ds).drop ((d :: ds).take st.block_size).length) := by
  have hdiv : q * st.block_size / st.block_size = q :=
    Nat.mul_div_cancel q (Nat.pos_of_ne_zero hbs)
  have hmod : q * st.block_size % st.block_size = 0 := Nat.mul_mod_left q st.block_size
  have hcond : ¬(q * st.block_size / st.block_size ≥ fdo.direct_blocks.length ∨
      fdo.direct_blocks.get? (q * st.block_size / st.block_size) = some (-1)) := by
    rw [hdiv]
    push_neg
    refine ⟨hlen, ?_⟩
    rw [hgetq]
    simp [hbne]
  have hchunk : ((d :: ds).take st.block_size).length ≤ st.block_size := by
    simp only [List.length_take]
    omega
  unfold writeStep
  rw [if_neg hbs]
  simp only [if_neg hcond]
  rw [hdiv, hmod, Nat.sub_zero, hgetq]
  dsimp only
  rw [write_block_ok _ hchunk hblk]

/-- One write iteration at an aligned cursor whose slot is still the empty
sentinel: a fresh block is allocated, registered, and the chunk is copied to
its leading bytes. -/
theorem writeStep_aligned_alloc (st : BlockStorage) (fdo : FileDescriptor) (q d : Nat)
    (ds : List Nat) (st1 : BlockStorage) (nb : Nat) (fdoA : FileDescriptor) (blk : List Nat)
    (hbs : st.block_size ≠ 0)
    (hgetq : fdo.direct_blocks.get? q = some (-1))
    (halloc : st.allocate_block = .ok (st1, nb))
    (hadd : fdo.add_block (nb : Int) = .ok fdoA)
    (hgetq2 : fdoA.direct_blocks.get? q = some (nb : Int))
    (hblk : pyGet st1.blocks (nb : Int) = some blk) :
    writeStep st fdo (q * st.block_size) d ds =
      .next { st1 with
                blocks := pySet st1.blocks (nb : Int)
                  ((d :: ds).take st.block_size ++
                    blk.drop ((d :: ds).take st.block_size).length) }
        fdoA (q * st.block_size + ((d :: ds).take st.block_size).length)
        ((d :: ds).drop ((d :: ds).take st.block_size).length) := by
  have hdiv : q * st.block_size / st.block_size = q :=
    Nat.mul_div_cancel q (Nat.pos_of_ne_zero hbs)
  have hmod : q * st.block_size % st.block_size = 0 := Nat.mul_mod_left q st.block_size
  have hcond : (q * st.block_size / st.block_size ≥ fdo.direct_blocks.length ∨
      fdo.direct_blocks.get? (q * st.block_size / st.block_size) = some (-1)) := by
    rw [hdiv]
    exact Or.inr hgetq
  have hchunk : ((d :: ds).take st.block_size).length ≤ st.block_size := by
    simp only [List.length_take]
    omega
  have hst1bs : st1.block_size = st.block_size := by
    unfold BlockStorage.allocate_block at halloc
    rcases hf : firstFree st.bitmap with _ | i <;> rw [hf] at halloc
    · cases halloc
    · injection halloc with halloc
      injection halloc with h1 h2
      rw [← h1]
  unfold writeStep
  rw [if_neg hbs]
  simp only [if_pos hcond, halloc, hadd]
  rw [hdiv, hmod, Nat.sub_zero, hgetq2]
  dsimp only
  rw [write_block_ok _ (by rw [hst1bs]; exact hchunk) hblk]

theorem nodup_get_not_mem_drop {l : List Int} (hnd : l.Nodup) {q : Nat} {b : Int}
    (hq : l.get? q = some b) : b ∉ l.drop (q + 1) := by
  intro hmem
  rw [List.get?_eq_getElem?] at hq
  rcases List.mem_iff_getElem?.mp hmem with ⟨m, hm⟩
  rw [List.getElem?_drop] at hm
  have hlt : q + 1 + m < l.length := by
    rcases List.getElem?_eq_some_iff.mp hm with ⟨h2, _⟩
    exact h2
  exact (List.nodup_iff_getElem?_ne_getElem?.mp hnd q (q + 1 + m) (by omega) hlt)
    (hq.trans hm.symm)

/-- Main characterization of the write loop started at a block-aligned
cursor on a descriptor whose slot list is a block prefix followed by empty
sentinels: the loop succeeds, appends exactly the missing blocks, and
afterwards the chain holds the written bytes at the written positions while
every other used block keeps its old content. -/
theorem writeLoop_aligned_spec :
    ∀ (n : Nat) (data : List Nat) (st : BlockStorage) (fdo : FileDescriptor)
      (bl : List Int) (k q : Nat),
      data.length ≤ n →
      st.block_size ≠ 0 →
      st.bitmap.length = st.num_blocks →
      st.blocks.length = st.num_blocks →
      fdo.direct_blocks = bl ++ List.replicate k (-1) →
      (∀ b ∈ bl, 0 ≤ b ∧ b.toNat < st.num_blocks ∧ st.bitmap.get? b.toNat = some 1) →
      bl.Nodup →
      q ≤ bl.length →
      q + (data.length + st.block_size - 1) / st.block_size ≤ bl.length + k →
      q + (data.length + st.block_size - 1) / st.block_size ≤
        bl.length + st.bitmap.count 0 →
      ∃ st1 fdo1 nbl,
        writeLoop st fdo (q * st.block_size) data =
          (st1, fdo1, q * st.block_size + data.length, none) ∧
        fdo1.direct_blocks =
          (bl ++ nbl) ++
            List.replicate (bl.length + k - (bl.length + nbl.length)) (-1) ∧
        bl.length + nbl.length =
          max bl.length (q + (data.length + st.block_size - 1) / st.block_size) ∧
        fdo1.size = fdo.size ∧
        st1.block_size = st.block_size ∧ st1.num_blocks = st.num_blocks ∧
        st1.bitmap.length = st.bitmap.length ∧ st1.blocks.length = st.blocks.length ∧
        (∀ b ∈ bl ++ nbl, 0 ≤ b ∧ b.toNat < st.num_blocks ∧
          st1.bitmap.get? b.toNat = some 1) ∧
        (bl ++ nbl).Nodup ∧
        (∀ j : Nat, st.bitmap.get? j = some 1 → st1.bitmap.get? j = some 1) ∧
        (∀ b : Int, 0 ≤ b → b.toNat < st.num_blocks →
          st.bitmap.get? b.toNat = some 1 → b ∉ bl.drop q →
          st1.blocks.get? b.toNat = st.blocks.get? b.toNat) ∧
        (∀ m, m < data.length →
          blockByte st1 (bl ++ nbl) (q * st.block_size + m) = data.get? m) := by
  intro n
  induction n with
  | zero =>
    intro data st fdo bl k q hn hbs hbm hbk hdb hblv hnd hq hcap hfree
    have hdata : data = [] := List.eq_nil_of_length_eq_zero (by omega)
    subst hdata
    refine ⟨st, fdo, [], ?_, ?_, ?_, rfl, rfl, rfl, rfl, rfl, ?_, ?_, ?_, ?_, ?_⟩
    · rw [writeLoop_nil]
      simp
    · simpa using hdb
    · have : ((0 : Nat) + st.block_size - 1) / st.block_size = 0 :=
        Nat.div_eq_of_lt (by omega)
      simp only [List.length_nil, this]
      omega
    · simpa using hblv
    · simpa using hnd
    · intro j h
      exact h
    · intro b _ _ _ _
      rfl
    · intro m hm
      simp at hm
  | succ n ih =>
    intro data st fdo bl k q hn hbs hbm hbk hdb hblv hnd hq hcap hfree
    match data with
    | [] =>
      refine ⟨st, fdo, [], ?_, ?_, ?_, rfl, rfl, rfl, rfl, rfl, ?_, ?_, ?_, ?_, ?_⟩
      · rw [writeLoop_nil]
        simp
      · simpa using hdb
      · have : ((0 : Nat) + st.block_size - 1) / st.block_size = 0 :=
          Nat.div_eq_of_lt (by omega)
        simp only [List.length_nil, this]
        omega
      · simpa using hblv
      · simpa using hnd
      · intro j h
        exact h
      · intro b _ _ _ _
        rfl
      · intro m hm
        simp at hm
    | d :: ds =>
      have hbspos : 0 < st.block_size := Nat.pos_of_ne_zero hbs
      have hlen1 : 1 ≤ (d :: ds).length := by simp
      have hT1 : 1 ≤ ((d :: ds).length + st.block_size - 1) / st.block_size :=
        ceilDiv_pos hbspos hlen1
      have hchunklen : ((d :: ds).take st.block_size).length =
          min st.block_size (d :: ds).length := List.length_take _ _
      rcases Nat.lt_or_ge (d :: ds).length (st.block_size + 1) with hsmall | hbig
      · -- the data fits in a single block
        have hchfull : (d :: ds).take st.block_size = d :: ds :=
          List.take_of_length_le (by omega)
        have hrestnil : (d :: ds).drop ((d :: ds).take st.block_size).length = [] := by
          rw [hchfull]
          exact List.drop_length _
        have hTone : ((d :: ds).length + st.block_size - 1) / st.block_size = 1 :=
          ceilDiv_one hbspos hlen1 (by omega)
        rcases Nat.eq_or_lt_of_le hq with hqeq | hqlt
        · -- q = bl.length : allocate one block and finish
          obtain ⟨k0, rfl⟩ : ∃ k0, k = k0 + 1 := ⟨k - 1, by omega⟩
          have hcount : 0 < st.bitmap.count 0 := by omega
          rcases firstFree_of_count_pos hcount with ⟨nb, hff, hnblt, hnb0⟩
          have halloc : st.allocate_block =
              .ok ({ st with bitmap := st.bitmap.set nb 1 }, nb) := by
            unfold BlockStorage.allocate_block
            rw [hff]
          have hbne : ∀ b ∈ bl, b ≠ -1 := by
            intro b hb hc
            rcases hblv b hb with ⟨h0, _, _⟩
            rw [hc] at h0
            omega
          have hadd : fdo.add_block (nb : Int) =
              .ok { fdo with direct_blocks :=
                (fdo.direct_blocks).set bl.length (nb : Int) } := by
            unfold FileDescriptor.add_block
            rw [hdb, findIdx_layout bl k0 hbne, ← hdb]
          have hsetlay : (fdo.direct_blocks).set bl.length (nb : Int) =
              (bl ++ [(nb : Int)]) ++ List.replicate k0 (-1) := by
            rw [hdb]
            exact layout_set_eq bl k0 (nb : Int)
          have hget2 : ({ fdo with direct_blocks :=
              (fdo.direct_blocks).set bl.length (nb : Int) } :
                FileDescriptor).direct_blocks.get? q = some (nb : Int) := by
            show ((fdo.direct_blocks).set bl.length (nb : Int)).get? q = some (nb : Int)
            rw [hsetlay, hqeq, List.get?_eq_getElem?,
              List.getElem?_append_left (by simp), List.getElem?_append_right (by simp)]
            simp
          have hnbblk : nb < st.blocks.length := by omega
          rcases hblkval : st.blocks.get? nb with _ | blk
          · rw [List.get?_eq_getElem?, List.getElem?_eq_none_iff] at hblkval
            omega
          have hpyblk : pyGet ({ st with bitmap := st.bitmap.set nb 1 } :
              BlockStorage).blocks (nb : Int) = some blk := by
            show pyGet st.blocks (nb : Int) = some blk
            rw [pyGet_natCast]
            exact hblkval
          have hgetq : fdo.direct_blocks.get? q = some (-1) := by
            rw [hdb, hqeq]
            exact layout_get_eq bl (k0 + 1) (by omega)
          have hstep := writeStep_aligned_alloc st fdo q d ds
            ({ st with bitmap := st.bitmap.set nb 1 }) nb
            ({ fdo with direct_blocks := (fdo.direct_blocks).set bl.length (nb : Int) })
            blk hbs hgetq halloc hadd hget2 hpyblk
          have hnbnotbl : (nb : Int) ∉ bl := by
            intro hmem
            rcases hblv _ hmem with ⟨_, _, hbit⟩
            rw [Int.toNat_natCast] at hbit
            rw [hnb0] at hbit
            cases hbit
          set newblk := (d :: ds).take st.block_size ++
            blk.drop ((d :: ds).take st.block_size).length with hnewblk
          set st2 : BlockStorage := { st with
            bitmap := st.bitmap.set nb 1
            blocks := st.blocks.set nb newblk } with hst2
          have hpyset : pySet st.blocks (nb : Int) newblk = st.blocks.set nb newblk :=
            pySet_natCast st.blocks nb newblk
          refine ⟨st2, { fdo with direct_blocks :=
            (fdo.direct_blocks).set bl.length (nb : Int) }, [(nb : Int)],
            ?_, ?_, ?_, rfl, rfl, rfl, ?_, ?_, ?_, ?_, ?_, ?_, ?_⟩
          · rw [writeLoop_cons, hstep]
            dsimp only
            rw [hrestnil, writeLoop_nil, hpyset]
            rw [hchfull]
          · rw [hsetlay]
            simp only [List.length_append, List.length_cons, List.length_nil]
            congr 2
            omega
          · rw [hTone]
            simp only [List.length_cons, List.length_nil]
            omega
          · show (st.bitmap.set nb 1).length = st.bitmap.length
            exact List.length_set _ _ _
          · show (st.blocks.set nb newblk).length = st.blocks.length
            exact List.length_set _ _ _
          · intro b hb
            rcases List.mem_append.mp hb with hbl | hnbm
            · rcases hblv b hbl with ⟨h0, h1, h2⟩
              refine ⟨h0, h1, ?_⟩
              show (st.bitmap.set nb 1).get? b.toNat = some 1
              have hne : nb ≠ b.toNat := by
                intro hc
                apply hnbnotbl
                have : b = (nb : Int) := by omega
                rw [← this]
                exact hbl
              rw [List.get?_eq_getElem?, List.getElem?_set_ne hne, ← List.get?_eq_getElem?]
              exact h2
            · have hbnb : b = (nb : Int) := by simpa using hnbm
              subst hbnb
              refine ⟨by omega, by simpa using hnblt.trans_le (le_of_eq hbm), ?_⟩
              show (st.bitmap.set nb 1).get? (Int.toNat nb) = some 1
              rw [Int.toNat_natCast, List.get?_eq_getElem?,
                List.getElem?_set_self (by omega)]
          · simp [List.nodup_append, hnd, hnbnotbl]
          · intro j hj
            show (st.bitmap.set nb 1).get? j = some 1
            by_cases hjnb : nb = j
            · subst hjnb
              rw [List.get?_eq_getElem?, List.getElem?_set_self (by omega)]
            · rw [List.get?_eq_getElem?, List.getElem?_set_ne hjnb, ← List.get?_eq_getElem?]
              exact hj
          · intro b hb0 hblt2 hbbit _
            show (st.blocks.set nb newblk).get? b.toNat = st.blocks.get? b.toNat
            have hne : nb ≠ b.toNat := by
              intro hc
              rw [← hc] at hbbit
              rw [hnb0] at hbbit
              cases hbbit
            rw [List.get?_eq_getElem?, List.getElem?_set_ne hne, ← List.get?_eq_getElem?]
          · intro m hm
            simp only [List.length_cons] at hm
            have hdm := aligned_div_mod q m hbs
              (by simp only [List.length_cons] at hsmall; omega)
            unfold blockByte
            rw [hdm.1, hdm.2]
            have hchain : (bl ++ [(nb : Int)]).get? q = some (nb : Int) := by
              rw [hqeq, List.get?_eq_getElem?, List.getElem?_append_right (Nat.le_refl _)]
              simp
            rw [hchain]
            simp only [Option.some_bind]
            have hpy2 : pyGet st2.blocks (nb : Int) = some newblk := by
              show pyGet (st.blocks.set nb newblk) (nb : Int) = some newblk
              rw [pyGet_natCast, List.get?_eq_getElem?,
                List.getElem?_set_self hnbblk]
            rw [hpy2]
            simp only [Option.some_bind]
            rw [hnewblk, hchfull]
            rw [List.get?_eq_getElem?, List.getElem?_append_left (by simp; omega),
              ← List.get?_eq_getElem?]
        · -- q < bl.length : overwrite the existing block and finish
          rcases hbq : bl.get? q with _ | b
          · rw [List.get?_eq_getElem?, List.getElem?_eq_none_iff] at hbq
            omega
          have hbmem : b ∈ bl := List.get?_mem hbq
          rcases hblv b hbmem with ⟨hb0, hblt, hbbit⟩
          have hbne : b ≠ -1 := by
            intro hc
            rw [hc] at hb0
            omega
          rcases hblkval : st.blocks.get? b.toNat with _ | blk
          · rw [List.get?_eq_getElem?, List.getElem?_eq_none_iff] at hblkval
            omega
          have hpyblk : pyGet st.blocks b = some blk := by
            rw [pyGet_nonneg _ hb0]
            exact hblkval
          have hstep := writeStep_aligned_hit st fdo q d ds b blk hbs
            (by rw [hdb, List.length_append, List.length_replicate]; omega)
            (by rw [hdb]; rw [layout_get_lt bl k q hqlt]; exact hbq) hbne hpyblk
          set newblk := (d :: ds).take st.block_size ++
            blk.drop ((d :: ds).take st.block_size).length with hnewblk
          set st2 : BlockStorage := { st with blocks := st.blocks.set b.toNat newblk }
            with hst2
          have hpyset : pySet st.blocks b newblk = st.blocks.set b.toNat newblk :=
            pySet_of_pyIdx _ (pyIdx_nonneg hb0 (by omega))
          have hbindrop : b ∈ bl.drop q := by
            have := List.drop_eq_getElem_cons hqlt
            rw [this]
            rw [List.get?_eq_getElem?] at hbq
            rcases List.getElem?_eq_some_iff.mp hbq with ⟨hh, hhe⟩
            rw [hhe]
            exact List.mem_cons_self _ _
          refine ⟨st2, fdo, [], ?_, ?_, ?_, rfl, rfl, rfl, rfl, ?_, ?_, ?_, ?_, ?_, ?_⟩
          · rw [writeLoop_cons, hstep]
            dsimp only
            rw [hrestnil, writeLoop_nil, hpyset]
            rw [hchfull]
          · simpa using hdb
          · rw [hTone]
            simp only [List.length_nil]
            omega
          · show (st.blocks.set b.toNat newblk).length = st.blocks.length
            exact List.length_set _ _ _
          · intro x hx
            rcases List.mem_append.mp hx with hxl | hxe
            · exact hblv x hxl
            · simp at hxe
          · simpa using hnd
          · intro j hj
            exact hj
          · intro x hx0 hxlt hxbit hxdrop
            show (st.blocks.set b.toNat newblk).get? x.toNat = st.blocks.get? x.toNat
            have hne : b.toNat ≠ x.toNat := by
              intro hc
              apply hxdrop
              have : x = b := by omega
              rw [this]
              exact hbindrop
            rw [List.get?_eq_getElem?, List.getElem?_set_ne hne, ← List.get?_eq_getElem?]
          · intro m hm
            simp only [List.length_cons] at hm
            have hdm := aligned_div_mod q m hbs
              (by simp only [List.length_cons] at hsmall; omega)
            unfold blockByte
            rw [hdm.1, hdm.2]
            have hchain : (bl ++ ([] : List Int)).get? q = some b := by
              rw [List.append_nil]
              exact hbq
            rw [hchain]
            simp only [Option.some_bind]
            have hpy2 : pyGet st2.blocks b = some newblk := by
              show pyGet (st.blocks.set b.toNat newblk) b = some newblk
              rw [pyGet_nonneg _ hb0, List.get?_eq_getElem?,
                List.getElem?_set_self (by omega)]
            rw [hpy2]
            simp only [Option.some_bind]
            rw [hnewblk, hchfull]
            rw [List.get?_eq_getElem?, List.getElem?_append_left (by simp; omega),
              ← List.get?_eq_getElem?]
      · -- the data spills past the current block: recurse
        have hlencons : (d :: ds).length = ds.length + 1 := List.length_cons d ds
        have hchlen : ((d :: ds).take st.block_size).length = st.block_size := by
          rw [hchunklen]
          omega
        have hrestlen : ((d :: ds).drop ((d :: ds).take st.block_size).length).length =
            (d :: ds).length - st.block_size := by
          rw [hchlen, List.length_drop]
        have hTstep : ((d :: ds).length + st.block_size - 1) / st.block_size =
            (((d :: ds).length - st.block_size) + st.block_size - 1) / st.block_size + 1 :=
          ceilDiv_step hbspos (by omega)
        have hmul : (q + 1) * st.block_size = q * st.block_size + st.block_size := by ring
        rcases Nat.eq_or_lt_of_le hq with hqeq | hqlt
        · -- q = bl.length : allocate a fresh block, then recurse past it
          obtain ⟨k0, rfl⟩ : ∃ k0, k = k0 + 1 := ⟨k - 1, by omega⟩
          have hcount : 0 < st.bitmap.count 0 := by omega
          rcases firstFree_of_count_pos hcount with ⟨nb, hff, hnblt, hnb0⟩
          have halloc : st.allocate_block =
              .ok ({ st with bitmap := st.bitmap.set nb 1 }, nb) := by
            unfold BlockStorage.allocate_block
            rw [hff]
          have hbne : ∀ b ∈ bl, b ≠ -1 := by
            intro b hb hc
            rcases hblv b hb with ⟨h0, _, _⟩
            rw [hc] at h0
            omega
          have hadd : fdo.add_block (nb : Int) =
              .ok { fdo with direct_blocks :=
                (fdo.direct_blocks).set bl.length (nb : Int) } := by
            unfold FileDescriptor.add_block
            rw [hdb, findIdx_layout bl k0 hbne, ← hdb]
          have hsetlay : (fdo.direct_blocks).set bl.length (nb : Int) =
              (bl ++ [(nb : Int)]) ++ List.replicate k0 (-1) := by
            rw [hdb]
            exact layout_set_eq bl k0 (nb : Int)
          have hget2 : ({ fdo with direct_blocks :=
              (fdo.direct_blocks).set bl.length (nb : Int) } :
                FileDescriptor).direct_blocks.get? q = some (nb : Int) := by
            show ((fdo.direct_blocks).set bl.length (nb : Int)).get? q = some (nb : Int)
            rw [hsetlay, hqeq, List.get?_eq_getElem?,
              List.getElem?_append_left (by simp), List.getElem?_append_right (by simp)]
            simp
          have hnbblk : nb < st.blocks.length := by omega
          rcases hblkval : st.blocks.get? nb with _ | blk
          · rw [List.get?_eq_getElem?, List.getElem?_eq_none_iff] at hblkval
            omega
          have hpyblk : pyGet ({ st with bitmap := st.bitmap.set nb 1 } :
              BlockStorage).blocks (nb : Int) = some blk := by
            show pyGet st.blocks (nb : Int) = some blk
            rw [pyGet_natCast]
            exact hblkval
          have hgetq : fdo.direct_blocks.get? q = some (-1) := by
            rw [hdb, hqeq]
            exact layout_get_eq bl (k0 + 1) (by omega)
          have hstep := writeStep_aligned_alloc st fdo q d ds
            ({ st with bitmap := st.bitmap.set nb 1 }) nb
            ({ fdo with direct_blocks := (fdo.direct_blocks).set bl.length (nb : Int) })
            blk hbs hgetq halloc hadd hget2 hpyblk
          have hnbnotbl : (nb : Int) ∉ bl := by
            intro hmem
            rcases hblv _ hmem with ⟨_, _, hbit⟩
            rw [Int.toNat_natCast] at hbit
            rw [hnb0] at hbit
            cases hbit
          set newblk := (d :: ds).take st.block_size ++
            blk.drop ((d :: ds).take st.block_size).length with hnewblk
          set st2 : BlockStorage := { st with
            bitmap := st.bitmap.set nb 1
            blocks := st.blocks.set nb newblk } with hst2
          set fdoA : FileDescriptor := { fdo with direct_blocks := (fdo.direct_blocks).set bl.length (nb : Int) } with hfdoA
          have hpyset : pySet st.blocks (nb : Int) newblk = st.blocks.set nb newblk :=
            pySet_natCast st.blocks nb newblk
          have hbl2 : ∀ b ∈ bl ++ [(nb : Int)], 0 ≤ b ∧ b.toNat < st2.num_blocks ∧
              st2.bitmap.get? b.toNat = some 1 := by
            intro b hb
            rcases List.mem_append.mp hb with hbl | hnbm
            · rcases hblv b hbl with ⟨h0, h1, h2⟩
              refine ⟨h0, h1, ?_⟩
              show (st.bitmap.set nb 1).get? b.toNat = some 1
              have hne : nb ≠ b.toNat := by
                intro hc
                apply hnbnotbl
                have : b = (nb : Int) := by omega
                rw [← this]
                exact hbl
              rw [List.get?_eq_getElem?, List.getElem?_set_ne hne,
                ← List.get?_eq_getElem?]
              exact h2
            · have hbnb : b = (nb : Int) := by simpa using hnbm
              subst hbnb
              refine ⟨by omega, by simp; omega, ?_⟩
              show (st.bitmap.set nb 1).get? (Int.toNat nb) = some 1
              rw [Int.toNat_natCast, List.get?_eq_getElem?,
                List.getElem?_set_self (by omega)]
          have hcount2 : (st.bitmap.set nb 1).count 0 + 1 = st.bitmap.count 0 :=
            count_zero_set_one st.bitmap nb hnb0
          rcases ih ((d :: ds).drop ((d :: ds).take st.block_size).length) st2 fdoA
            (bl ++ [(nb : Int)]) k0 (q + 1)
            (by rw [hrestlen]; omega)
            hbs
            (by show (st.bitmap.set nb 1).length = st.num_blocks; rw [List.length_set, hbm])
            (by show (st.blocks.set nb newblk).length = st.num_blocks
                rw [List.length_set, hbk])
            (by show (fdo.direct_blocks).set bl.length (nb : Int) = _; exact hsetlay)
            hbl2
            (by simp [List.nodup_append, hnd, hnbnotbl])
            (by simp only [List.length_append, List.length_singleton]; omega)
            (by show q + 1 + (((d :: ds).drop ((d :: ds).take st.block_size).length).length +
                  st.block_size - 1) / st.block_size ≤ (bl ++ [(nb : Int)]).length + k0
                rw [hrestlen, List.length_append]
                simp only [List.length_singleton]
                omega)
            (by show q + 1 + (((d :: ds).drop ((d :: ds).take st.block_size).length).length +
                  st.block_size - 1) / st.block_size ≤
                  (bl ++ [(nb : Int)]).length + (st.bitmap.set nb 1).count 0
                rw [hrestlen, List.length_append]
                simp only [List.length_singleton]
                omega)
            with ⟨st1, fdo1, nbl1, e1, e2, e3, e4, e5, e6, e7, e8, e9, e10, e11, e12, e13⟩
          have hdropnil : (bl ++ [(nb : Int)]).drop (q + 1) = [] :=
            List.drop_eq_nil_of_le (by simp; omega)
          refine ⟨st1, fdo1, (nb : Int) :: nbl1, ?_, ?_, ?_, ?_, ?_, ?_, ?_, ?_, ?_, ?_,
            ?_, ?_, ?_⟩
          · have e1b : writeLoop st2 fdoA ((q + 1) * st.block_size)
                ((d :: ds).drop st.block_size) =
                (st1, fdo1, (q + 1) * st.block_size +
                  ((d :: ds).drop st.block_size).length, none) := by
              rw [show (d :: ds).drop st.block_size =
                  (d :: ds).drop ((d :: ds).take st.block_size).length from by
                rw [hchlen]]
              exact e1
            rw [writeLoop_cons, hstep]
            dsimp only
            rw [hpyset, ← hst2, hchlen]
            rw [show q * st.block_size + st.block_size = (q + 1) * st.block_size from
              by ring]
            rw [e1b]
            have hofs : (q + 1) * st.block_size + ((d :: ds).drop st.block_size).length =
                q * st.block_size + (d :: ds).length := by
              rw [List.length_drop]
              omega
            rw [hofs]
          · rw [e2]
            have hcnt : (bl ++ [(nb : Int)]).length + k0 -
                ((bl ++ [(nb : Int)]).length + nbl1.length) =
                bl.length + (k0 + 1) - (bl.length + ((nb : Int) :: nbl1).length) := by
              simp only [List.length_append, List.length_cons, List.length_nil]
              omega
            rw [hcnt]
            simp [List.append_assoc]
          · have he3 : (bl ++ [(nb : Int)]).length + nbl1.length =
                max (bl ++ [(nb : Int)]).length ((q + 1) +
                  (((d :: ds).drop ((d :: ds).take st.block_size).length).length +
                    st.block_size - 1) / st.block_size) := e3
            have hA : (bl ++ [(nb : Int)]).length = bl.length + 1 := by simp
            have hc1 : ((nb : Int) :: nbl1).length = nbl1.length + 1 :=
              List.length_cons _ _
            have hTT : (((d :: ds).drop ((d :: ds).take st.block_size).length).length +
                st.block_size - 1) / st.block_size =
                (((d :: ds).length - st.block_size) + st.block_size - 1) /
                  st.block_size := by
              rw [hrestlen]
            omega
          · exact e4
          · exact e5
          · exact e6
          · exact e7.trans (List.length_set _ _ _)
          · exact e8.trans (List.length_set _ _ _)
          · intro b hb
            have hb2 : b ∈ (bl ++ [(nb : Int)]) ++ nbl1 := by
              simpa [List.append_assoc] using hb
            exact e9 b hb2
          · have := e10
            simpa [List.append_assoc] using this
          · intro j hj
            apply e11
            show (st.bitmap.set nb 1).get? j = some 1
            by_cases hjnb : nb = j
            · subst hjnb
              rw [List.get?_eq_getElem?, List.getElem?_set_self (by omega)]
            · rw [List.get?_eq_getElem?, List.getElem?_set_ne hjnb,
                ← List.get?_eq_getElem?]
              exact hj
          · intro b hb0 hblt2 hbbit _
            have hne : nb ≠ b.toNat := by
              intro hc
              rw [← hc] at hbbit
              rw [hnb0] at hbbit
              cases hbbit
            have h12 := e12 b hb0 hblt2
              (by show (st.bitmap.set nb 1).get? b.toNat = some 1
                  rw [List.get?_eq_getElem?, List.getElem?_set_ne hne,
                    ← List.get?_eq_getElem?]
                  exact hbbit)
              (by rw [hdropnil]; exact List.not_mem_nil b)
            rw [h12]
            show (st.blocks.set nb newblk).get? b.toNat = st.blocks.get? b.toNat
            rw [List.get?_eq_getElem?, List.getElem?_set_ne hne, ← List.get?_eq_getElem?]
          · intro m hm
            by_cases hmbs : m < st.block_size
            · unfold blockByte
              have hdm := aligned_div_mod q m hbs hmbs
              rw [show st1.block_size = st.block_size from e5, hdm.1, hdm.2]
              have hchain : (bl ++ (nb : Int) :: nbl1).get? q = some (nb : Int) := by
                rw [hqeq, List.get?_eq_getElem?,
                  List.getElem?_append_right (Nat.le_refl _)]
                simp
              rw [hchain]
              simp only [Option.some_bind]
              have hnb2 : st1.blocks.get? nb = some newblk := by
                have h12 := e12 (nb : Int) (by omega)
                  (by show ((nb : Int)).toNat < st.num_blocks
                      rw [Int.toNat_natCast]
                      omega)
                  (by show (st.bitmap.set nb 1).get? (Int.toNat nb) = some 1
                      rw [Int.toNat_natCast, List.get?_eq_getElem?,
                        List.getElem?_set_self (by omega)])
                  (by rw [hdropnil]; exact List.not_mem_nil _)
                rw [Int.toNat_natCast] at h12
                rw [h12]
                show (st.blocks.set nb newblk).get? nb = some newblk
                rw [List.get?_eq_getElem?, List.getElem?_set_self (by omega)]
              have hpy1 : pyGet st1.blocks (nb : Int) = some newblk := by
                rw [pyGet_natCast]
                exact hnb2
              rw [hpy1]
              simp only [Option.some_bind]
              rw [hnewblk]
              rw [List.get?_eq_getElem?,
                List.getElem?_append_left (by rw [hchlen]; exact hmbs),
                List.getElem?_take_of_lt hmbs, ← List.get?_eq_getElem?]
            · have h13 := e13 (m - st.block_size)
                (by rw [hrestlen]; simp only [List.length_cons] at hm ⊢; omega)
              have h13b : blockByte st1 ((bl ++ [(nb : Int)]) ++ nbl1)
                  ((q + 1) * st.block_size + (m - st.block_size)) =
                  ((d :: ds).drop ((d :: ds).take st.block_size).length).get?
                    (m - st.block_size) := h13
              rw [show (q + 1) * st.block_size + (m - st.block_size) =
                  q * st.block_size + m from by omega] at h13b
              rw [show ((bl ++ [(nb : Int)]) ++ nbl1) = bl ++ (nb : Int) :: nbl1 from by
                simp [List.append_assoc]] at h13b
              rw [h13b]
              rw [List.get?_eq_getElem?, List.getElem?_drop, hchlen,
                ← List.get?_eq_getElem?]
              congr 1
              omega
        · -- q < bl.length : overwrite the existing block, then recurse
          rcases hbq : bl.get? q with _ | b
          · rw [List.get?_eq_getElem?, List.getElem?_eq_none_iff] at hbq
            omega
          have hbmem : b ∈ bl := List.get?_mem hbq
          rcases hblv b hbmem with ⟨hb0, hblt, hbbit⟩
          have hbne : b ≠ -1 := by
            intro hc
            rw [hc] at hb0
            omega
          rcases hblkval : st.blocks.get? b.toNat with _ | blk
          · rw [List.get?_eq_getElem?, List.getElem?_eq_none_iff] at hblkval
            omega
          have hpyblk : pyGet st.blocks b = some blk := by
            rw [pyGet_nonneg _ hb0]
            exact hblkval
          have hstep := writeStep_aligned_hit st fdo q d ds b blk hbs
            (by rw [hdb, List.length_append, List.length_replicate]; omega)
            (by rw [hdb]; rw [layout_get_lt bl k q hqlt]; exact hbq) hbne hpyblk
          set newblk := (d :: ds).take st.block_size ++
            blk.drop ((d :: ds).take st.block_size).length with hnewblk
          set st2 : BlockStorage := { st with blocks := st.blocks.set b.toNat newblk }
            with hst2
          have hpyset : pySet st.blocks b newblk = st.blocks.set b.toNat newblk :=
            pySet_of_pyIdx _ (pyIdx_nonneg hb0 (by omega))
          have hbindrop : b ∈ bl.drop q := by
            have hd := List.drop_eq_getElem_cons hqlt
            rw [hd]
            rw [List.get?_eq_getElem?] at hbq
            rcases List.getElem?_eq_some_iff.mp hbq with ⟨hh, hhe⟩
            rw [hhe]
            exact List.mem_cons_self _ _
          have hbnotdrop : b ∉ bl.drop (q + 1) := nodup_get_not_mem_drop hnd hbq
          rcases ih ((d :: ds).drop ((d :: ds).take st.block_size).length) st2 fdo
            bl k (q + 1)
            (by rw [hrestlen]; omega)
            hbs
            hbm
            (by show (st.blocks.set b.toNat newblk).length = st.num_blocks
                rw [List.length_set, hbk])
            hdb
            hblv
            hnd
            hqlt
            (by show q + 1 + (((d :: ds).drop ((d :: ds).take st.block_size).length).length +
                  st.block_size - 1) / st.block_size ≤ bl.length + k
                rw [hrestlen]
                omega)
            (by show q + 1 + (((d :: ds).drop ((d :: ds).take st.block_size).length).length +
                  st.block_size - 1) / st.block_size ≤
                  bl.length + st.bitmap.count 0
                rw [hrestlen]
                omega)
            with ⟨st1, fdo1, nbl1, e1, e2, e3, e4, e5, e6, e7, e8, e9, e10, e11, e12, e13⟩
          refine ⟨st1, fdo1, nbl1, ?_, ?_, ?_, ?_, ?_, ?_, ?_, ?_, ?_, ?_, ?_, ?_, ?_⟩
          · have e1b : writeLoop st2 fdo ((q + 1) * st.block_size)
                ((d :: ds).drop st.block_size) =
                (st1, fdo1, (q + 1) * st.block_size +
                  ((d :: ds).drop st.block_size).length, none) := by
              rw [show (d :: ds).drop st.block_size =
                  (d :: ds).drop ((d :: ds).take st.block_size).length from by
                rw [hchlen]]
              exact e1
            rw [writeLoop_cons, hstep]
            dsimp only
            rw [hpyset, ← hst2, hchlen]
            rw [show q * st.block_size + st.block_size = (q + 1) * st.block_size from
              by ring]
            rw [e1b]
            have hofs : (q + 1) * st.block_size + ((d :: ds).drop st.block_size).length =
                q * st.block_size + (d :: ds).length := by
              rw [List.length_drop]
              omega
            rw [hofs]
          · exact e2
          · have he3 : bl.length + nbl1.length = max bl.length ((q + 1) +
                (((d :: ds).drop ((d :: ds).take st.block_size).length).length +
                  st.block_size - 1) / st.block_size) := e3
            have hTT : (((d :: ds).drop ((d :: ds).take st.block_size).length).length +
                st.block_size - 1) / st.block_size =
                (((d :: ds).length - st.block_size) + st.block_size - 1) /
                  st.block_size := by
              rw [hrestlen]
            omega
          · exact e4
          · exact e5
          · exact e6
          · exact e7
          · exact e8.trans (List.length_set _ _ _)
          · exact e9
          · exact e10
          · exact e11
          · intro x hx0 hxlt hxbit hxdrop
            have hd := List.drop_eq_getElem_cons hqlt
            have hxne : x ≠ b := by
              intro hc
              subst hc
              exact hxdrop hbindrop
            have hxnotdrop : x ∉ bl.drop (q + 1) := by
              intro hc
              apply hxdrop
              rw [hd]
              exact List.mem_cons_of_mem _ hc
            have hnetn : b.toNat ≠ x.toNat := by
              intro hc
              exact hxne (by omega)
            have h12 := e12 x hx0 hxlt
              (by show st.bitmap.get? x.toNat = some 1; exact hxbit) hxnotdrop
            rw [h12]
            show (st.blocks.set b.toNat newblk).get? x.toNat = st.blocks.get? x.toNat
            rw [List.get?_eq_getElem?, List.getElem?_set_ne hnetn, ← List.get?_eq_getElem?]
          · intro m hm
            by_cases hmbs : m < st.block_size
            · unfold blockByte
              have hdm := aligned_div_mod q m hbs hmbs
              rw [show st1.block_size = st.block_size from e5, hdm.1, hdm.2]
              have hchain : (bl ++ nbl1).get? q = some b := by
                rw [List.get?_eq_getElem?, List.getElem?_append_left hqlt,
                  ← List.get?_eq_getElem?]
                exact hbq
              rw [hchain]
              simp only [Option.some_bind]
              have hb2full : st1.blocks.get? b.toNat = some newblk := by
                have h12 := e12 b hb0 hblt
                  (by show st.bitmap.get? b.toNat = some 1; exact hbbit) hbnotdrop
                rw [h12]
                show (st.blocks.set b.toNat newblk).get? b.toNat = some newblk
                rw [List.get?_eq_getElem?, List.getElem?_set_self (by omega)]
              have hpy1 : pyGet st1.blocks b = some newblk := by
                rw [pyGet_nonneg _ hb0]
                exact hb2full
              rw [hpy1]
              simp only [Option.some_bind]
              rw [hnewblk]
              rw [List.get?_eq_getElem?,
                List.getElem?_append_left (by rw [hchlen]; exact hmbs),
                List.getElem?_take_of_lt hmbs, ← List.get?_eq_getElem?]
            · have h13 := e13 (m - st.block_size)
                (by rw [hrestlen]; simp only [List.length_cons] at hm ⊢; omega)
              have h13b : blockByte st1 (bl ++ nbl1)
                  ((q + 1) * st.block_size + (m - st.block_size)) =
                  ((d :: ds).drop ((d :: ds).take st.block_size).length).get?
                    (m - st.block_size) := h13
              rw [show (q + 1) * st.block_size + (m - st.block_size) =
                  q * st.block_size + m from by omega] at h13b
              rw [h13b]
              rw [List.get?_eq_getElem?, List.getElem?_drop, hchlen,
                ← List.get?_eq_getElem?]
              congr 1
              omega

/-! ### C2: write-then-read round trip on a fresh file -/

/-- C2: for every byte sequence `data` that fits the ten direct slots and
the free blocks of a fresh file system (`ceil(|data|/block_size) ≤ 10` and
`≤ num_blocks`), creating a file, opening it (handle 0, cursor 0), writing
`data`, seeking back to 0 and reading `|data|` bytes succeeds and returns
exactly `data` — covering data shorter than, equal to, and longer than one
block (`FileSystem.write` lines 119-136, `FileSystem.read` lines 98-117 of
`main.py`). -/
theorem C2_roundtrip (nb bs mf : Nat) (data : List Nat)
    (hbs : bs ≠ 0) (hmf : 0 < mf)
    (hcap10 : (data.length + bs - 1) / bs ≤ 10)
    (hcapnb : (data.length + bs - 1) / bs ≤ nb) :
    ((FileSystem.write ((FileSystem.openFile
        ((FileSystem.create (FileSystem.init nb bs mf) nmA).1) nmA).1) 0 data).2 =
      Except.ok ()) ∧
    (FileSystem.read ((FileSystem.seek ((FileSystem.write ((FileSystem.openFile
        ((FileSystem.create (FileSystem.init nb bs mf) nmA).1) nmA).1) 0 data).1)
        0 0).1) 0 data.length).2 = Except.ok data := by
  obtain ⟨m, rfl⟩ : ∃ m, mf = m + 1 := ⟨mf - 1, by omega⟩
  have hopen : (FileSystem.openFile ((FileSystem.create
      (FileSystem.init nb bs (m + 1)) nmA).1) nmA).1 =
      { block_storage := BlockStorage.init nb bs
        max_files := m + 1
        file_descriptors :=
          some (FileDescriptor.init fileTypeRegular 10) :: List.replicate m none
        directory := [(nmA, 0)]
        open_files := [(0, 0, 0)]
        next_fd := 1 } := rfl
  rcases writeLoop_aligned_spec data.length data (BlockStorage.init nb bs)
      (FileDescriptor.init fileTypeRegular 10) [] 10 0 (Nat.le_refl _) hbs
      (by simp [BlockStorage.init]) (by simp [BlockStorage.init]) rfl
      (by intro b hb; exact absurd hb (List.not_mem_nil b)) List.nodup_nil
      (Nat.zero_le _)
      (by show 0 + (data.length + bs - 1) / bs ≤ List.length ([] : List Int) + 10
          simp only [List.length_nil]
          omega)
      (by show 0 + (data.length + bs - 1) / bs ≤
            List.length ([] : List Int) + (List.replicate nb 0).count 0
          rw [List.count_replicate_self]
          simp only [List.length_nil]
          omega)
    with ⟨st1, fdo1, nbl, e1, e2, e3, e4, e5, e6, e7, e8, e9, e10, e11, e12, e13⟩
  have e1b : writeLoop (BlockStorage.init nb bs)
      (FileDescriptor.init fileTypeRegular 10) 0 data =
      (st1, fdo1, data.length, none) := by
    have h := e1
    rw [Nat.zero_mul] at h
    rw [Nat.zero_add] at h
    exact h
  have hsz : fdo1.size = 0 := e4
  have e13b : ∀ mm, mm < data.length → blockByte st1 nbl mm = data.get? mm := by
    intro mm hmm
    have h := e13 mm hmm
    rw [List.nil_append] at h
    rw [Nat.zero_mul, Nat.zero_add] at h
    exact h
  have hwrite : FileSystem.write
      { block_storage := BlockStorage.init nb bs
        max_files := m + 1
        file_descriptors :=
          some (FileDescriptor.init fileTypeRegular 10) :: List.replicate m none
        directory := [(nmA, 0)]
        open_files := [(0, 0, 0)]
        next_fd := 1 } 0 data =
      ({ block_storage := st1
         max_files := m + 1
         file_descriptors :=
           some { fdo1 with size := data.length } :: List.replicate m none
         directory := [(nmA, 0)]
         open_files := [(0, 0, data.length)]
         next_fd := 1 }, Except.ok ()) := by
    unfold FileSystem.write
    dsimp only
    simp only [show ofLookup ([(0, 0, 0)] : List (Nat × Nat × Nat)) 0 = some (0, 0)
        from rfl,
      show (some (FileDescriptor.init fileTypeRegular 10) ::
          List.replicate m (none : Option FileDescriptor)).get? 0 =
          some (some (FileDescriptor.init fileTypeRegular 10)) from rfl,
      e1b]
    simp only [hsz, Nat.zero_max]
    rfl
  have hseek : FileSystem.seek
      { block_storage := st1
        max_files := m + 1
        file_descriptors :=
          some { fdo1 with size := data.length } :: List.replicate m none
        directory := [(nmA, 0)]
        open_files := [(0, 0, data.length)]
        next_fd := 1 } 0 0 =
      ({ block_storage := st1
         max_files := m + 1
         file_descriptors :=
           some { fdo1 with size := data.length } :: List.replicate m none
         directory := [(nmA, 0)]
         open_files := [(0, 0, 0)]
         next_fd := 1 }, Except.ok ()) := rfl
  have hbs1 : st1.block_size ≠ 0 := by
    rw [e5]
    exact hbs
  have hne : ∀ b ∈ nbl, b ≠ -1 := by
    intro b hb hc
    rcases e9 b (by simpa using hb) with ⟨h0, _, _⟩
    rw [hc] at h0
    omega
  have hchain : FileDescriptor.get_blocks { fdo1 with size := data.length } = nbl := by
    unfold FileDescriptor.get_blocks
    dsimp only
    rw [e2, List.nil_append]
    exact get_blocks_layout nbl _ hne
  have hsome : ∀ mm, mm < data.length → (blockByte st1 nbl (0 + mm)).isSome := by
    intro mm hmm
    rw [Nat.zero_add, e13b mm hmm, List.get?_eq_getElem?,
      List.getElem?_eq_getElem hmm]
    rfl
  rcases readLoop_spec data.length st1 nbl 0 hbs1 hsome with ⟨l, hl1, hl2, hl3⟩
  have hldata : l = data := by
    apply List.ext_get?
    intro i
    by_cases hi : i < data.length
    · rw [hl3 i hi, Nat.zero_add]
      exact e13b i hi
    · have h1 : l.get? i = none := by
        rw [List.get?_eq_getElem?]
        exact List.getElem?_eq_none_iff.mpr (by rw [hl2]; omega)
      have h2 : data.get? i = none := by
        rw [List.get?_eq_getElem?]
        exact List.getElem?_eq_none_iff.mpr (by omega)
      rw [h1, h2]
  have hl1b : readLoop st1 nbl 0 data.length = .ok (l, data.length) := by
    rw [hl1, Nat.zero_add]
  have hread : (FileSystem.read
      { block_storage := st1
        max_files := m + 1
        file_descriptors :=
          some { fdo1 with size := data.length } :: List.replicate m none
        directory := [(nmA, 0)]
        open_files := [(0, 0, 0)]
        next_fd := 1 } 0 data.length).2 = Except.ok data := by
    unfold FileSystem.read
    dsimp only
    simp only [show ofLookup ([(0, 0, 0)] : List (Nat × Nat × Nat)) 0 = some (0, 0)
        from rfl,
      show (some { fdo1 with size := data.length } ::
          List.replicate m (none : Option FileDescriptor)).get? 0 =
          some (some { fdo1 with size := data.length }) from rfl]
    rw [if_neg (show ¬ (0 + data.length > data.length) from by omega)]
    simp only [hchain, hl1b]
    rw [hldata]
  refine ⟨?_, ?_⟩
  · rw [hopen, hwrite]
  · rw [hopen, hwrite]
    dsimp only
    rw [hseek]
    dsimp only
    exact hread

/-- C2 witness: a 6-byte write with block size 4 (spanning two blocks) on a
fresh 3-block file system round-trips through write, seek and read. -/
theorem C2_witness :
    ((4 : Nat) ≠ 0) ∧ ((0 : Nat) < 2) ∧
    (((FileSystem.write ((FileSystem.openFile
        ((FileSystem.create (FileSystem.init 3 4 2) nmA).1) nmA).1) 0
        [1, 2, 3, 4, 5, 6]).2 = Except.ok ()) ∧
      (FileSystem.read ((FileSystem.seek ((FileSystem.write ((FileSystem.openFile
        ((FileSystem.create (FileSystem.init 3 4 2) nmA).1) nmA).1) 0
        [1, 2, 3, 4, 5, 6]).1) 0 0).1) 0
        (List.length [1, 2, 3, 4, 5, 6])).2 = Except.ok [1, 2, 3, 4, 5, 6]) :=
  ⟨by decide, by decide,
    C2_roundtrip 3 4 2 [1, 2, 3, 4, 5, 6] (by decide) (by decide) (by decide)
      (by decide)⟩

/-! ### C1: where a write places its chunk inside a block -/

theorem writeStep_hit_leading (st : BlockStorage) (fdo : FileDescriptor) (p d : Nat)
    (ds : List Nat) (b : Int) (blk : List Nat)
    (hbs : st.block_size ≠ 0)
    (hlt : p / st.block_size < fdo.direct_blocks.length)
    (hhit : fdo.direct_blocks.get? (p / st.block_size) = some b) (hbne : b ≠ -1)
    (hblk : pyGet st.blocks b = some blk)
    (hfit : (d :: ds).length ≤ st.block_size - p % st.block_size) :
    writeStep st fdo p d ds =
      .next { st with
                blocks := pySet st.blocks b
                  ((d :: ds) ++ blk.drop (d :: ds).length) }
        fdo (p + (d :: ds).length) [] := by
  have hcond : ¬(p / st.block_size ≥ fdo.direct_blocks.length ∨
      fdo.direct_blocks.get? (p / st.block_size) = some (-1)) := by
    push_neg
    refine ⟨hlt, ?_⟩
    rw [hhit]
    simp [hbne]
  have htake : (d :: ds).take (st.block_size - p % st.block_size) = d :: ds :=
    List.take_of_length_le hfit
  have hlen2 : (d :: ds).length ≤ st.block_size := by
    have := Nat.mod_lt p (Nat.pos_of_ne_zero hbs)
    omega
  unfold writeStep
  rw [if_neg hbs]
  simp only [if_neg hcond]
  rw [htake, hhit]
  dsimp only
  rw [write_block_ok (d :: ds) hlen2 hblk, List.drop_length]

/-- C1 (amended): a write through a handle whose cursor `p` points inside an
already-allocated block copies its chunk to the LEADING bytes of that block
— `write_block` (lines 20-23 of `main.py`) ignores the in-block offset
`p mod block_size` computed by the write loop — while the cursor still
advances to `p + |data|` and the size becomes `max size (p + |data|)`.  The
frozen claim's placement at in-block offset `p mod block_size` (and the
preservation of the block's leading bytes) is refuted by
`C1_counterexample`. -/
theorem C1_single_chunk_leading (s : FileSystem) (fd i p : Nat) (data : List Nat)
    (fdo : FileDescriptor) (b : Int) (blk : List Nat)
    (hof : ofLookup s.open_files fd = some (i, p))
    (hslot : s.file_descriptors.get? i = some (some fdo))
    (hbs : s.block_storage.block_size ≠ 0)
    (hhit : fdo.direct_blocks.get? (p / s.block_storage.block_size) = some b)
    (hbne : b ≠ -1)
    (hlt : p / s.block_storage.block_size < fdo.direct_blocks.length)
    (hblk : pyGet s.block_storage.blocks b = some blk)
    (hnil : data ≠ [])
    (hfit : data.length ≤
      s.block_storage.block_size - p % s.block_storage.block_size) :
    FileSystem.write s fd data =
      ({ s with
           block_storage := { s.block_storage with
             blocks := pySet s.block_storage.blocks b
               (data ++ blk.drop data.length) }
           file_descriptors := s.file_descriptors.set i
             (some { fdo with size := max fdo.size (p + data.length) })
           open_files := ofSet s.open_files fd (i, p + data.length) },
       Except.ok ()) := by
  rcases data with _ | ⟨d, ds⟩
  · exact absurd rfl hnil
  · have hstep := writeStep_hit_leading s.block_storage fdo p d ds b blk hbs hlt
      hhit hbne hblk hfit
    have hloop : writeLoop s.block_storage fdo p (d :: ds) =
        ({ s.block_storage with
             blocks := pySet s.block_storage.blocks b
               ((d :: ds) ++ blk.drop (d :: ds).length) },
         fdo, p + (d :: ds).length, none) := by
      rw [writeLoop_cons, hstep]
      dsimp only
      exact writeLoop_nil _ _ _
    unfold FileSystem.write
    simp only [hof, hslot, hloop]

/-- The concrete file system of the C1 scenario: block size 4; after
create, open (handle 0), a 2-byte write of `[65, 66]` and a seek to
offset 1 the single data block holds `[65, 66, 0, 0]` and the cursor
is at byte 1. -/
def c1State : FileSystem :=
  (FileSystem.seek ((FileSystem.write ((FileSystem.openFile ((FileSystem.create
    (FileSystem.init 8 4 4) nmA).1) nmA).1) 0 [65, 66]).1) 0 1).1

/-- The descriptor held in slot 0 of `c1State`. -/
def c1Fdo : FileDescriptor :=
  { file_type := fileTypeRegular
    hard_links := 1
    size := 2
    direct_blocks := (0 : Int) :: List.replicate 9 (-1)
    indirect_block := -1 }

/-- C1 counterexample: with block size 4, after writing `[65, 66]` and
seeking to offset 1, writing `[67]` and reading the file from offset 0
returns `[67, 66]` — the new byte landed at in-block offset 0, clobbering
the first byte — and not `[65, 67]` as the frozen claim (placement at
`p mod block_size` = offset 1 with other bytes unchanged) asserts. -/
theorem C1_counterexample :
    ((FileSystem.read ((FileSystem.seek ((FileSystem.write c1State 0 [67]).1)
        0 0).1) 0 2).2 = Except.ok [67, 66]) ∧
    ((FileSystem.read ((FileSystem.seek ((FileSystem.write c1State 0 [67]).1)
        0 0).1) 0 2).2 ≠ Except.ok [65, 67]) := by decide

/-- C1 witness: `C1_single_chunk_leading` applied to the `c1State`
scenario: the 1-byte write at cursor 1 rewrites block 0 to
`[67] ++ [66, 0, 0]` and moves the cursor to 2. -/
theorem C1_witness :
    (ofLookup c1State.open_files 0 = some (0, 1)) ∧
    ((1 : Nat) / c1State.block_storage.block_size < c1Fdo.direct_blocks.length) ∧
    FileSystem.write c1State 0 [67] =
      ({ c1State with
           block_storage := { c1State.block_storage with
             blocks := pySet c1State.block_storage.blocks 0
               ([67] ++ [65, 66, 0, 0].drop (List.length [67])) }
           file_descriptors := c1State.file_descriptors.set 0
             (some { c1Fdo with size := max c1Fdo.size (1 + List.length [67]) })
           open_files := ofSet c1State.open_files 0 (0, 1 + List.length [67]) },
       Except.ok ()) :=
  ⟨by decide, by decide,
    C1_single_chunk_leading c1State 0 0 1 [67] c1Fdo 0 [65, 66, 0, 0]
      (by decide) (by decide) (by decide) (by decide) (by decide) (by decide)
      (by decide) (by decide) (by decide)⟩

/-! ### C8: the three branches of truncate -/

theorem truncGrowLoop_spec :
    ∀ (t : Nat) (st : BlockStorage) (fdo : FileDescriptor) (bl : List Int) (k : Nat),
      fdo.direct_blocks = bl ++ List.replicate k (-1) →
      (∀ b ∈ bl, b ≠ -1) →
      t ≤ k →
      t ≤ st.bitmap.count 0 →
      ∃ st1 fresh,
        truncGrowLoop t st fdo =
          (st1, { fdo with direct_blocks :=
            (bl ++ fresh) ++ List.replicate (k - t) (-1) }, none) ∧
        fresh.length = t ∧
        (∀ b ∈ fresh, 0 ≤ b ∧ b.toNat < st.bitmap.length ∧
          st.bitmap.get? b.toNat = some 0 ∧ st1.bitmap.get? b.toNat = some 1) ∧
        (∀ b ∈ fresh, b ≠ -1) ∧
        st1.blocks = st.blocks ∧ st1.block_size = st.block_size ∧
        st1.num_blocks = st.num_blocks ∧ st1.bitmap.length = st.bitmap.length ∧
        (∀ j, (∀ b ∈ fresh, b.toNat ≠ j) →
          st1.bitmap.get? j = st.bitmap.get? j) := by
  intro t
  induction t with
  | zero =>
    intro st fdo bl k hdb hbne _ _
    refine ⟨st, [], ?_, rfl, ?_, ?_, rfl, rfl, rfl, rfl, ?_⟩
    · show (st, fdo, none) = _
      have h0 : (bl ++ ([] : List Int)) ++ List.replicate (k - 0) (-1) =
          fdo.direct_blocks := by
        rw [List.append_nil, Nat.sub_zero, hdb]
      rw [h0]
    · intro b hb
      cases hb
    · intro b hb
      cases hb
    · intro j _
      rfl
  | succ t ih =>
    intro st fdo bl k hdb hbne hk hcount
    obtain ⟨k0, rfl⟩ : ∃ k0, k = k0 + 1 := ⟨k - 1, by omega⟩
    have hcount0 : 0 < st.bitmap.count 0 := by omega
    rcases firstFree_of_count_pos hcount0 with ⟨nb, hff, hnblt, hnb0⟩
    have halloc : st.allocate_block =
        .ok ({ st with bitmap := st.bitmap.set nb 1 }, nb) := by
      unfold BlockStorage.allocate_block
      rw [hff]
    have hadd : fdo.add_block (nb : Int) =
        .ok { fdo with direct_blocks :=
          fdo.direct_blocks.set bl.length (nb : Int) } := by
      unfold FileDescriptor.add_block
      rw [hdb, findIdx_layout bl k0 hbne, ← hdb]
    have hsetlay : fdo.direct_blocks.set bl.length (nb : Int) =
        (bl ++ [(nb : Int)]) ++ List.replicate k0 (-1) := by
      rw [hdb]
      exact layout_set_eq bl k0 (nb : Int)
    have hbne2 : ∀ b ∈ bl ++ [(nb : Int)], b ≠ -1 := by
      intro b hb
      rcases List.mem_append.mp hb with h | h
      · exact hbne b h
      · have hbnb : b = (nb : Int) := by simpa using h
        subst hbnb
        omega
    have hcount2 : (st.bitmap.set nb 1).count 0 + 1 = st.bitmap.count 0 :=
      count_zero_set_one st.bitmap nb hnb0
    rcases ih { st with bitmap := st.bitmap.set nb 1 }
        { fdo with direct_blocks := fdo.direct_blocks.set bl.length (nb : Int) }
        (bl ++ [(nb : Int)]) k0
        (by show fdo.direct_blocks.set bl.length (nb : Int) = _; exact hsetlay)
        hbne2 (by omega)
        (by show t ≤ (st.bitmap.set nb 1).count 0; omega)
      with ⟨st1, fresh1, e1, e2, e3, e3b, e4, e5, e6, e7, e8⟩
    have hfresh1nb : ∀ b ∈ fresh1, b.toNat ≠ nb := by
      intro b hb hc
      rcases e3 b hb with ⟨_, _, hbit0, _⟩
      rw [hc] at hbit0
      have hone : (st.bitmap.set nb 1).get? nb = some 1 := by
        rw [List.get?_eq_getElem?, List.getElem?_set_self (by omega)]
      rw [hone] at hbit0
      cases hbit0
    refine ⟨st1, (nb : Int) :: fresh1, ?_, ?_, ?_, ?_, ?_, ?_, ?_, ?_, ?_⟩
    · show truncGrowLoop (t + 1) st fdo = _
      simp only [truncGrowLoop, halloc, hadd]
      rw [e1]
      have hlist : ((bl ++ [(nb : Int)]) ++ fresh1) ++ List.replicate (k0 - t) (-1) =
          (bl ++ (nb : Int) :: fresh1) ++
            List.replicate (k0 + 1 - (t + 1)) (-1) := by
        rw [show k0 + 1 - (t + 1) = k0 - t from by omega]
        simp [List.append_assoc]
      rw [hlist]
    · simp [e2]
    · intro b hb
      rcases List.mem_cons.mp hb with hbnb | hmem
      · subst hbnb
        refine ⟨by omega, by rw [Int.toNat_natCast]; omega,
          by rw [Int.toNat_natCast]; exact hnb0, ?_⟩
        rw [Int.toNat_natCast]
        have h8 := e8 nb (fun b hbm hc => hfresh1nb b hbm hc)
        rw [h8]
        show (st.bitmap.set nb 1).get? nb = some 1
        rw [List.get?_eq_getElem?, List.getElem?_set_self (by omega)]
      · rcases e3 b hmem with ⟨h0, hlt2, hbit0, hbit1⟩
        have hne : nb ≠ b.toNat := fun hc => hfresh1nb b hmem hc.symm
        have hlt3 : b.toNat < st.bitmap.length := by
          rw [show ({ st with bitmap := st.bitmap.set nb 1 } :
            BlockStorage).bitmap.length = st.bitmap.length from List.length_set _ _ _]
            at hlt2
          exact hlt2
        refine ⟨h0, hlt3, ?_, hbit1⟩
        have : (st.bitmap.set nb 1).get? b.toNat = st.bitmap.get? b.toNat := by
          rw [List.get?_eq_getElem?, List.getElem?_set_ne hne, ← List.get?_eq_getElem?]
        rw [← this]
        exact hbit0
    · intro b hb
      rcases List.mem_cons.mp hb with hbnb | hmem
      · subst hbnb
        omega
      · exact e3b b hmem
    · exact e4
    · exact e5
    · exact e6
    · exact e7.trans (List.length_set _ _ _)
    · intro j hj
      have hjnb : nb ≠ j := fun hc =>
        hj (nb : Int) (List.mem_cons_self _ _) (by rw [Int.toNat_natCast]; exact hc)
      have h8 := e8 j (fun b hbm => hj b (List.mem_cons_of_mem _ hbm))
      rw [h8]
      show (st.bitmap.set nb 1).get? j = st.bitmap.get? j
      rw [List.get?_eq_getElem?, List.getElem?_set_ne hjnb, ← List.get?_eq_getElem?]

/-- C8: `truncate(name, new_size)` on an existing file (lines 158-176 of
`main.py`), with `nblk = ceil(new_size / block_size)`: when `new_size`
equals the current size nothing changes at all; when shrinking, every block
of the file beyond the first `nblk` is freed back to the store (its bit is
cleared), other bitmap entries are untouched, the slot list is cut to
`nblk` entries and the size becomes `new_size`; when growing (given free
slots and free blocks for the difference), exactly
`nblk - current_block_count` fresh blocks — previously free, afterwards
marked used — are appended to the slot list, no data block content changes,
and the size becomes `new_size`. -/
theorem C8_truncate_semantics (s : FileSystem) (name : String) (new_size i nblk : Nat)
    (fdo : FileDescriptor)
    (hdir : dirLookup s.directory name = some i)
    (hslot : s.file_descriptors.get? i = some (some fdo))
    (hbs : s.block_storage.block_size ≠ 0)
    (hnblk : nblk =
      (new_size + s.block_storage.block_size - 1) / s.block_storage.block_size)
    (hbin : BitsBinary s.block_storage)
    (hlenbb : s.block_storage.blocks.length = s.block_storage.bitmap.length)
    (hval : ∀ b ∈ fdo.get_blocks, 0 ≤ b ∧ b.toNat < s.block_storage.bitmap.length) :
    (new_size = fdo.size →
      FileSystem.truncate s name new_size = (s, Except.ok ())) ∧
    (new_size < fdo.size →
      FileSystem.truncate s name new_size =
        ({ s with
             block_storage :=
               (freeBlocksLoop s.block_storage (fdo.get_blocks.drop nblk)).1
             file_descriptors := s.file_descriptors.set i
               (some { fdo with
                         direct_blocks := fdo.direct_blocks.take nblk
                         size := new_size }) },
         Except.ok ()) ∧
      (∀ b ∈ fdo.get_blocks.drop nblk,
        (freeBlocksLoop s.block_storage
          (fdo.get_blocks.drop nblk)).1.bitmap.get? b.toNat = some 0) ∧
      (∀ j : Nat, (∀ b ∈ fdo.get_blocks.drop nblk, b.toNat ≠ j) →
        (freeBlocksLoop s.block_storage
          (fdo.get_blocks.drop nblk)).1.bitmap.get? j =
          s.block_storage.bitmap.get? j)) ∧
    (fdo.size < new_size → ∀ (bl : List Int) (k : Nat),
      fdo.direct_blocks = bl ++ List.replicate k (-1) →
      (∀ b ∈ bl, b ≠ -1) →
      nblk - bl.length ≤ k →
      nblk - bl.length ≤ s.block_storage.bitmap.count 0 →
      ∃ (st1 : BlockStorage) (fresh : List Int),
        FileSystem.truncate s name new_size =
          ({ s with
               block_storage := st1
               file_descriptors := s.file_descriptors.set i
                 (some { fdo with
                           direct_blocks := (bl ++ fresh) ++
                             List.replicate (k - (nblk - bl.length)) (-1)
                           size := new_size }) },
           Except.ok ()) ∧
        fresh.length = nblk - bl.length ∧
        (∀ b ∈ fresh, 0 ≤ b ∧ s.block_storage.bitmap.get? b.toNat = some 0 ∧
          st1.bitmap.get? b.toNat = some 1) ∧
        st1.blocks = s.block_storage.blocks ∧
        (∀ j : Nat, (∀ b ∈ fresh, b.toNat ≠ j) →
          st1.bitmap.get? j = s.block_storage.bitmap.get? j)) := by
  subst hnblk
  refine ⟨?_, ?_, ?_⟩
  · intro heq
    unfold FileSystem.truncate
    simp only [hdir, hslot]
    rw [if_neg (by omega), if_neg (by omega)]
  · intro hlt
    rcases freeBlocksLoop_spec
        (fdo.get_blocks.drop ((new_size + s.block_storage.block_size - 1) /
          s.block_storage.block_size)) s.block_storage hbin hlenbb
        (fun b hb => hval b (List.mem_of_mem_drop hb))
      with ⟨h1, h2, h3, h4, h5, h6, h7, h8⟩
    refine ⟨?_, h7, fun j hj => (h8 j hj).1⟩
    unfold FileSystem.truncate
    simp only [hdir, hslot]
    rw [if_neg (by omega), if_pos hlt, if_neg hbs]
    rcases hfb : freeBlocksLoop s.block_storage
        (fdo.get_blocks.drop ((new_size + s.block_storage.block_size - 1) /
          s.block_storage.block_size)) with ⟨st1, oe⟩
    rw [hfb] at h1
    dsimp only at h1
    subst h1
    simp only [hfb]
  · intro hgt bl k hdb hbne hk hcount
    have hcur : fdo.get_blocks = bl := by
      unfold FileDescriptor.get_blocks
      rw [hdb]
      exact get_blocks_layout bl k hbne
    rcases truncGrowLoop_spec
        ((new_size + s.block_storage.block_size - 1) / s.block_storage.block_size -
          bl.length) s.block_storage fdo bl k hdb hbne hk hcount
      with ⟨st1, fresh, e1, e2, e3, e3b, e4, e5, e6, e7, e8⟩
    refine ⟨st1, fresh, ?_, e2, ?_, e4, e8⟩
    · unfold FileSystem.truncate
      simp only [hdir, hslot]
      rw [if_pos hgt, if_neg hbs]
      rw [hcur]
      simp only [e1]
    · intro b hb
      rcases e3 b hb with ⟨h0, _, hbit0, hbit1⟩
      exact ⟨h0, hbit0, hbit1⟩

/-- The concrete file system of the C8 scenario: block size 4, a file with
six bytes written, occupying blocks 0 and 1. -/
def c8State : FileSystem :=
  (FileSystem.write ((FileSystem.openFile ((FileSystem.create
    (FileSystem.init 8 4 4) nmA).1) nmA).1) 0 [1, 2, 3, 4, 5, 6]).1

/-- The descriptor held in slot 0 of `c8State`. -/
def c8Fdo : FileDescriptor :=
  { file_type := fileTypeRegular
    hard_links := 1
    size := 6
    direct_blocks := (0 : Int) :: (1 : Int) :: List.replicate 8 (-1)
    indirect_block := -1 }

/-- C8 witness: `C8_truncate_semantics` applied to the six-byte two-block
file of `c8State` and `truncate` to size 1: the call succeeds and block 1
(beyond `ceil(1/4) = 1` kept block) is freed in the bitmap. -/
theorem C8_witness :
    (dirLookup c8State.directory nmA = some 0) ∧
    ((1 : Nat) < c8Fdo.size) ∧
    ((FileSystem.truncate c8State nmA 1).2 = Except.ok ()) ∧
    ((FileSystem.truncate c8State nmA 1).1.block_storage.bitmap =
      [1, 0, 0, 0, 0, 0, 0, 0]) := by
  have h := C8_truncate_semantics c8State nmA 1 0 1 c8Fdo (by decide) (by decide)
    (by decide) (by decide) (by decide) (by decide) (by decide)
  have hshr := h.2.1 (by decide)
  refine ⟨by decide, by decide, ?_, ?_⟩
  · rw [hshr.1]
  · rw [hshr.1]
    decide

/-! ### C6: orphaned descriptors are never reclaimed -/

/-- The block list of the descriptor in slot `j`, or `[]` when the slot is
empty or out of range. -/
def slotBlocks (s : FileSystem) (j : Nat) : List Int :=
  match s.file_descriptors.get? j with
  | some (some d) => d.get_blocks
  | _ => []

/-- Well-formedness of a file-system state, preserved by every operation
and established by `FileSystem.init`-based setups: positive block size,
bitmap and block table of the declared length, binary bitmap, every
referenced block valid and marked used, no block listed twice in one
descriptor, and no block shared between two descriptors. -/
def FSInv (s : FileSystem) : Prop :=
  s.block_storage.block_size ≠ 0 ∧
  s.block_storage.bitmap.length = s.block_storage.num_blocks ∧
  s.block_storage.blocks.length = s.block_storage.num_blocks ∧
  BitsBinary s.block_storage ∧
  (∀ j, j < s.file_descriptors.length →
    (∀ b ∈ slotBlocks s j, 0 ≤ b ∧ b.toNat < s.block_storage.bitmap.length ∧
      s.block_storage.bitmap.get? b.toNat = some 1) ∧
    (slotBlocks s j).Nodup) ∧
  (∀ j, j < s.file_descriptors.length → ∀ j', j' < s.file_descriptors.length →
    j ≠ j' → ∀ b ∈ slotBlocks s j, b ∉ slotBlocks s j')

instance (s : FileSystem) : Decidable (FSInv s) := by
  unfold FSInv
  have hd : ∀ j j' : Nat,
      Decidable (j ≠ j' → ∀ b ∈ slotBlocks s j, b ∉ slotBlocks s j') :=
    fun j j' => by infer_instance
  infer_instance

/-- Slot `idx` holds descriptor `d` and nothing references it: no directory
entry and no open handle.  This is the state of an orphan after its last
handle is closed. -/
def Orphaned (s : FileSystem) (idx : Nat) (d : FileDescriptor) : Prop :=
  s.file_descriptors.get? idx = some (some d) ∧
  (∀ p ∈ s.directory, p.2 ≠ idx) ∧
  (∀ e ∈ s.open_files, e.2.1 ≠ idx)

instance (s : FileSystem) (idx : Nat) (d : FileDescriptor) :
    Decidable (Orphaned s idx d) := by
  unfold Orphaned
  infer_instance

theorem slotBlocks_eq {s : FileSystem} {j : Nat} {d : FileDescriptor}
    (h : s.file_descriptors.get? j = some (some d)) :
    slotBlocks s j = d.get_blocks := by
  unfold slotBlocks
  rw [h]

theorem get?_some_lt {α : Type} {l : List α} {j : Nat} {x : α}
    (h : l.get? j = some x) : j < l.length := by
  rw [List.get?_eq_getElem?] at h
  exact (List.getElem?_eq_some_iff.mp h).1

theorem dirLookup_mem {dir : List (String × Nat)} {name : String} {i : Nat}
    (h : dirLookup dir name = some i) : ∃ p ∈ dir, p.2 = i := by
  unfold dirLookup at h
  rcases hf : dir.find? (fun p => p.1 = name) with _ | p <;> rw [hf] at h
  · cases h
  · simp only [Option.map_some'] at h
    injection h with h
    exact ⟨p, List.mem_of_find?_eq_some hf, h⟩

theorem ofLookup_mem {of : List (Nat × Nat × Nat)} {h : Nat} {v : Nat × Nat}
    (hl : ofLookup of h = some v) : ∃ e ∈ of, e.2 = v := by
  unfold ofLookup at hl
  rcases hf : of.find? (fun e => e.1 = h) with _ | e <;> rw [hf] at hl
  · cases hl
  · simp only [Option.map_some'] at hl
    injection hl with hl
    exact ⟨e, List.mem_of_find?_eq_some hf, hl⟩

theorem ofSet_mem {of : List (Nat × Nat × Nat)} {h : Nat} {v : Nat × Nat}
    {e : Nat × Nat × Nat} (he : e ∈ ofSet of h v) : e ∈ of ∨ e.2 = v := by
  unfold ofSet at he
  by_cases hany : of.any (fun e => e.1 = h)
  · rw [if_pos hany] at he
    rcases List.mem_map.mp he with ⟨e0, he0, heq⟩
    by_cases h0 : e0.1 = h
    · rw [if_pos h0] at heq
      right
      rw [← heq]
    · rw [if_neg h0] at heq
      left
      rw [← heq]
      exact he0
  · rw [if_neg hany] at he
    rcases List.mem_append.mp he with h1 | h1
    · exact Or.inl h1
    · right
      have : e = (h, v) := by simpa using h1
      rw [this]

theorem findIdx_isNone_aux :
    ∀ (l : List (Option FileDescriptor)) (start j : Nat),
      List.findIdx? (fun o => o.isNone) l start = some j →
      start ≤ j ∧ l.get? (j - start) = some none := by
  intro l
  induction l with
  | nil =>
    intro start j h
    simp [List.findIdx?] at h
  | cons a rest ih =>
    intro start j h
    rw [List.findIdx?_cons] at h
    by_cases ha : a.isNone
    · rw [if_pos ha] at h
      injection h with h
      subst h
      refine ⟨Nat.le_refl _, ?_⟩
      rw [Nat.sub_self]
      rcases a with _ | a
      · rfl
      · simp at ha
    · rw [if_neg ha] at h
      rcases ih (start + 1) j h with ⟨h1, h2⟩
      refine ⟨by omega, ?_⟩
      rw [show j - start = (j - (start + 1)) + 1 from by omega]
      exact h2

/-- Relation between a storage/descriptor pair before and after any prefix
of a write or grow loop: sizes preserved, used bits only grow, binary
bitmaps stay binary, and every slot entry is an old entry or a freshly
allocated block (free before, used after); finally, validity plus
distinctness of the referenced blocks is preserved. -/
def WS (st : BlockStorage) (fdo : FileDescriptor) (st1 : BlockStorage)
    (fdo1 : FileDescriptor) : Prop :=
  st1.block_size = st.block_size ∧
  st1.num_blocks = st.num_blocks ∧
  st1.bitmap.length = st.bitmap.length ∧
  st1.blocks.length = st.blocks.length ∧
  (∀ j, st.bitmap.get? j = some 1 → st1.bitmap.get? j = some 1) ∧
  (BitsBinary st → BitsBinary st1) ∧
  (∀ b ∈ fdo1.direct_blocks, b ∈ fdo.direct_blocks ∨
    (0 ≤ b ∧ st.bitmap.get? b.toNat = some 0 ∧ st1.bitmap.get? b.toNat = some 1)) ∧
  ((∀ b ∈ fdo.get_blocks, 0 ≤ b ∧ b.toNat < st.bitmap.length ∧
      st.bitmap.get? b.toNat = some 1) ∧ fdo.get_blocks.Nodup →
    (∀ b ∈ fdo1.get_blocks, 0 ≤ b ∧ b.toNat < st1.bitmap.length ∧
      st1.bitmap.get? b.toNat = some 1) ∧ fdo1.get_blocks.Nodup)

theorem WS_refl (st : BlockStorage) (fdo : FileDescriptor) : WS st fdo st fdo :=
  ⟨rfl, rfl, rfl, rfl, fun _ h => h, id, fun _ hb => Or.inl hb, id⟩

theorem WS_trans {st st1 st2 : BlockStorage} {fdo fdo1 fdo2 : FileDescriptor}
    (hbin : BitsBinary st) (h1 : WS st fdo st1 fdo1) (h2 : WS st1 fdo1 st2 fdo2) :
    WS st fdo st2 fdo2 := by
  obtain ⟨a1, a2, a3, a4, a5, a6, a7, a8⟩ := h1
  obtain ⟨b1, b2, b3, b4, b5, b6, b7, b8⟩ := h2
  refine ⟨b1.trans a1, b2.trans a2, b3.trans a3, b4.trans a4,
    fun j hj => b5 j (a5 j hj), fun h => b6 (a6 h), ?_, fun h => b8 (a8 h)⟩
  intro b hb
  rcases b7 b hb with hold | ⟨h0, hz, ho⟩
  · rcases a7 b hold with h | ⟨h0, hz, ho⟩
    · exact Or.inl h
    · exact Or.inr ⟨h0, hz, b5 _ ho⟩
  · right
    refine ⟨h0, ?_, ho⟩
    have hlt : b.toNat < st1.bitmap.length := get?_some_lt hz
    rw [a3] at hlt
    rcases hbin b.toNat hlt with h0' | h1'
    · exact h0'
    · exact absurd ((a5 _ h1').symm.trans hz) (by decide)

theorem WS_congr_storage {st stA stB : BlockStorage} {fdo fdoA : FileDescriptor}
    (h : WS st fdo stA fdoA) (hbm : stB.bitmap = stA.bitmap)
    (hbs : stB.block_size = stA.block_size) (hnm : stB.num_blocks = stA.num_blocks)
    (hbk : stB.blocks.length = stA.blocks.length) :
    WS st fdo stB fdoA := by
  obtain ⟨a1, a2, a3, a4, a5, a6, a7, a8⟩ := h
  refine ⟨hbs.trans a1, hnm.trans a2, by rw [hbm]; exact a3, hbk.trans a4,
    fun j hj => by rw [hbm]; exact a5 j hj,
    fun hb => by
      intro j hj
      rw [hbm] at hj ⊢
      exact a6 hb j hj, ?_, ?_⟩
  · intro b hb
    rcases a7 b hb with h | ⟨h0, hz, ho⟩
    · exact Or.inl h
    · exact Or.inr ⟨h0, hz, by rw [hbm]; exact ho⟩
  · intro hpre
    rcases a8 hpre with ⟨hmarked, hnd⟩
    refine ⟨?_, hnd⟩
    intro b hb
    rcases hmarked b hb with ⟨h0, hlt, hbit⟩
    exact ⟨h0, by rw [hbm]; exact hlt, by rw [hbm]; exact hbit⟩

theorem bits_set_one {l : List Nat} {nb : Nat}
    (h : ∀ j, j < l.length → l.get? j = some 0 ∨ l.get? j = some 1) :
    ∀ j, j < (l.set nb 1).length →
      (l.set nb 1).get? j = some 0 ∨ (l.set nb 1).get? j = some 1 := by
  intro j hj
  rw [List.length_set] at hj
  by_cases hjn : nb = j
  · subst hjn
    right
    rw [List.get?_eq_getElem?, List.getElem?_set_self hj]
  · rw [List.get?_eq_getElem?, List.getElem?_set_ne hjn, ← List.get?_eq_getElem?]
    exact h j hj

theorem alloc_inv {st stA : BlockStorage} {nb : Nat}
    (h : st.allocate_block = .ok (stA, nb)) :
    stA = { st with bitmap := st.bitmap.set nb 1 } ∧ nb < st.bitmap.length ∧
      st.bitmap.get? nb = some 0 := by
  unfold BlockStorage.allocate_block at h
  rcases hf : firstFree st.bitmap with _ | i <;> rw [hf] at h
  · cases h
  · injection h with h
    injection h with h1 h2
    subst h2
    rcases firstFree_spec _ _ hf with ⟨hlt, h0⟩
    exact ⟨h1.symm, hlt, h0⟩

theorem findIdx_sentinel_aux :
    ∀ (l : List Int) (start j : Nat),
      List.findIdx? (fun b => b = -1) l start = some j →
      start ≤ j ∧ l.get? (j - start) = some (-1) := by
  intro l
  induction l with
  | nil =>
    intro start j h
    simp [List.findIdx?] at h
  | cons a rest ih =>
    intro start j h
    rw [List.findIdx?_cons] at h
    by_cases ha : a = (-1 : Int)
    · rw [if_pos (by simpa using ha)] at h
      injection h with h
      subst h
      refine ⟨Nat.le_refl _, ?_⟩
      rw [Nat.sub_self, ha]
      rfl
    · rw [if_neg (by simpa using ha)] at h
      rcases ih (start + 1) j h with ⟨h1, h2⟩
      refine ⟨by omega, ?_⟩
      rw [show j - start = (j - (start + 1)) + 1 from by omega]
      exact h2

theorem pySet_length {α : Type} (l : List α) (i : Int) (a : α) :
    (pySet l i a).length = l.length := by
  unfold pySet
  split <;> simp

theorem write_block_shape {st : BlockStorage} {bi : Int} {bd : List Nat}
    {st2 : BlockStorage} (h : st.write_block bi bd = .ok st2) :
    st2.bitmap = st.bitmap ∧ st2.block_size = st.block_size ∧
      st2.num_blocks = st.num_blocks ∧ st2.blocks.length = st.blocks.length := by
  unfold BlockStorage.write_block at h
  split at h
  · cases h
  · split at h
    · cases h
    · injection h with h
      subst h
      exact ⟨rfl, rfl, rfl, pySet_length _ _ _⟩

theorem filter_set_sentinel {db : List Int} {j : Nat} {x : Int}
    (hj : db.get? j = some (-1)) (hx : x ≠ -1) :
    (db.set j x).filter (fun b => b ≠ -1) =
      (db.take j).filter (fun b => b ≠ -1) ++
        x :: (db.drop (j + 1)).filter (fun b => b ≠ -1) ∧
    db.filter (fun b => b ≠ -1) =
      (db.take j).filter (fun b => b ≠ -1) ++
        (db.drop (j + 1)).filter (fun b => b ≠ -1) := by
  have hjlt : j < db.length := get?_some_lt hj
  have hjv : db.get ⟨j, hjlt⟩ = -1 := by
    have := List.get?_eq_get hjlt
    rw [this] at hj
    injection hj
  have hdb : db = db.take j ++ -1 :: db.drop (j + 1) := by
    conv_lhs => rw [← List.take_append_drop j db]
    congr 1
    rw [List.drop_eq_getElem_cons hjlt]
    congr 1
  have hset : db.set j x = db.take j ++ x :: db.drop (j + 1) := by
    conv_lhs => rw [hdb]
    rw [List.set_append]
    rw [if_neg (by simp [List.length_take])]
    congr 1
    rw [show j - (db.take j).length = 0 from by simp [List.length_take]; omega]
    rfl
  constructor
  · rw [hset, List.filter_append, List.filter_cons]
    simp [hx]
  · conv_lhs => rw [hdb]
    rw [List.filter_append, List.filter_cons]
    simp

theorem mono_set_one {l : List Nat} {nb : Nat} (hlt : nb < l.length) :
    ∀ j, l.get? j = some 1 → (l.set nb 1).get? j = some 1 := by
  intro j hj
  by_cases hn : nb = j
  · subst hn
    rw [List.get?_eq_getElem?, List.getElem?_set_self hlt]
  · rw [List.get?_eq_getElem?, List.getElem?_set_ne hn, ← List.get?_eq_getElem?]
    exact hj

theorem WS_alloc_only {st stA : BlockStorage} {fdo : FileDescriptor} {nb : Nat}
    (halloc : st.allocate_block = .ok (stA, nb)) : WS st fdo stA fdo := by
  obtain ⟨hA, hlt, h0⟩ := alloc_inv halloc
  subst hA
  refine ⟨rfl, rfl, List.length_set _ _ _, rfl, mono_set_one hlt, ?_,
    fun _ hb => Or.inl hb, ?_⟩
  · intro hb
    intro j hj
    exact bits_set_one hb j hj
  · intro ⟨hmarked, hnd⟩
    refine ⟨?_, hnd⟩
    intro b hb
    rcases hmarked b hb with ⟨hb0, hblt, hbit⟩
    refine ⟨hb0, ?_, mono_set_one hlt _ hbit⟩
    show b.toNat < (st.bitmap.set nb 1).length
    rw [List.length_set]
    exact hblt

theorem WS_alloc {st stA : BlockStorage} {fdo fdoA : FileDescriptor} {nb : Nat}
    (halloc : st.allocate_block = .ok (stA, nb))
    (hadd : fdo.add_block (nb : Int) = .ok fdoA) : WS st fdo stA fdoA := by
  obtain ⟨hA, hlt, h0⟩ := alloc_inv halloc
  subst hA
  rcases add_block_ok hadd with ⟨j, hfind, rfl⟩
  have hj := findIdx_sentinel_aux fdo.direct_blocks 0 j hfind
  have hslot : fdo.direct_blocks.get? j = some (-1) := by
    have := hj.2
    rwa [Nat.sub_zero] at this
  have hnbne : (nb : Int) ≠ -1 := by omega
  obtain ⟨hnew, hold⟩ := filter_set_sentinel hslot hnbne
  have hgbA : ({ fdo with direct_blocks :=
      fdo.direct_blocks.set j (nb : Int) } : FileDescriptor).get_blocks =
      (fdo.direct_blocks.take j).filter (fun b => b ≠ -1) ++
        (nb : Int) :: (fdo.direct_blocks.drop (j + 1)).filter (fun b => b ≠ -1) := by
    unfold FileDescriptor.get_blocks
    exact hnew
  have hgb : fdo.get_blocks =
      (fdo.direct_blocks.take j).filter (fun b => b ≠ -1) ++
        (fdo.direct_blocks.drop (j + 1)).filter (fun b => b ≠ -1) := by
    unfold FileDescriptor.get_blocks
    exact hold
  refine ⟨rfl, rfl, List.length_set _ _ _, rfl, mono_set_one hlt, ?_, ?_, ?_⟩
  · intro hb
    intro j2 hj2
    exact bits_set_one hb j2 hj2
  · intro b hb
    rcases List.mem_or_eq_of_mem_set hb with hmem | hbnb
    · exact Or.inl hmem
    · subst hbnb
      right
      refine ⟨by omega, ?_, ?_⟩
      · rw [Int.toNat_natCast]
        exact h0
      · rw [Int.toNat_natCast]
        show (st.bitmap.set nb 1).get? nb = some 1
        rw [List.get?_eq_getElem?, List.getElem?_set_self hlt]
  · intro ⟨hmarked, hnd⟩
    rw [hgb] at hnd
    have hnbnotgb : (nb : Int) ∉ fdo.get_blocks := by
      intro hmem
      rcases hmarked _ hmem with ⟨_, _, hbit⟩
      rw [Int.toNat_natCast] at hbit
      exact absurd (hbit.symm.trans h0) (by decide)
    rw [hgb] at hnbnotgb
    constructor
    · intro b hb
      rw [hgbA] at hb
      have hbold : b ∈ fdo.get_blocks ∨ b = (nb : Int) := by
        rcases List.mem_append.mp hb with h1 | h1
        · exact Or.inl (by rw [hgb]; exact List.mem_append_left _ h1)
        · rcases List.mem_cons.mp h1 with h2 | h2
          · exact Or.inr h2
          · exact Or.inl (by rw [hgb]; exact List.mem_append_right _ h2)
      rcases hbold with hmem | hbnb
      · rcases hmarked b hmem with ⟨hb0, hblt, hbit⟩
        refine ⟨hb0, ?_, mono_set_one hlt _ hbit⟩
        show b.toNat < (st.bitmap.set nb 1).length
        rw [List.length_set]
        exact hblt
      · subst hbnb
        refine ⟨by omega, ?_, ?_⟩
        · rw [Int.toNat_natCast]
          show nb < (st.bitmap.set nb 1).length
          rw [List.length_set]
          exact hlt
        · rw [Int.toNat_natCast]
          show (st.bitmap.set nb 1).get? nb = some 1
          rw [List.get?_eq_getElem?, List.getElem?_set_self hlt]
    · rw [hgbA]
      rw [List.nodup_append] at hnd ⊢
      obtain ⟨hA1, hB1, hAB⟩ := hnd
      refine ⟨hA1, ?_, ?_⟩
      · rw [List.nodup_cons]
        exact ⟨fun hmem => hnbnotgb (List.mem_append_right _ hmem), hB1⟩
      · intro a ha hmem
        rcases List.mem_cons.mp hmem with h2 | h2
        · subst h2
          exact hnbnotgb (List.mem_append_left _ ha)
        · exact hAB ha h2

theorem allocTriple_WS {st : BlockStorage} {fdo : FileDescriptor} {c : Prop}
    [Decidable c] {stA : BlockStorage} {fdoA : FileDescriptor} {oe : Option Err}
    (heq : (if c then
              match st.allocate_block with
              | .error e => (st, fdo, some e)
              | .ok (st1, nb) =>
                match fdo.add_block (nb : Int) with
                | .error e => (st1, fdo, some e)
                | .ok fdo1 => (st1, fdo1, none)
            else (st, fdo, none)) = (stA, fdoA, oe)) :
    WS st fdo stA fdoA := by
  split at heq
  · split at heq
    · injection heq with h1 h2
      injection h2 with h2 h3
      rw [← h1, ← h2]
      exact WS_refl st fdo
    next st1 nb hok =>
      split at heq
      · injection heq with h1 h2
        injection h2 with h2 h3
        rw [← h1, ← h2]
        exact WS_alloc_only hok
      next fdoB hadd =>
        injection heq with h1 h2
        injection h2 with h2 h3
        rw [← h1, ← h2]
        exact WS_alloc hok hadd
  · injection heq with h1 h2
    injection h2 with h2 h3
    rw [← h1, ← h2]
    exact WS_refl st fdo

theorem writeStep_inv {st : BlockStorage} {fdo : FileDescriptor} {cur d : Nat}
    {ds : List Nat} :
    (∀ st1 fdo1 e, writeStep st fdo cur d ds = .halt st1 fdo1 e →
      WS st fdo st1 fdo1) ∧
    (∀ st1 fdo1 cur1 rest, writeStep st fdo cur d ds = .next st1 fdo1 cur1 rest →
      WS st fdo st1 fdo1) := by
  constructor
  · intro st1 fdo1 e h
    unfold writeStep at h
    split at h
    · injection h with h1 h2 h3
      rw [← h1, ← h2]
      exact WS_refl st fdo
    · simp only at h
      split at h
      next stA fdoA oe heq =>
        injection h with h1 h2 h3
        rw [← h1, ← h2]
        exact allocTriple_WS heq
      next stA fdoA heq =>
        split at h
        · injection h with h1 h2 h3
          rw [← h1, ← h2]
          exact allocTriple_WS heq
        · split at h
          · injection h with h1 h2 h3
            rw [← h1, ← h2]
            exact allocTriple_WS heq
          · cases h
  · intro st1 fdo1 cur1 rest h
    unfold writeStep at h
    split at h
    · cases h
    · simp only at h
      split at h
      next stA fdoA oe heq => cases h
      next stA fdoA heq =>
        split at h
        · cases h
        · split at h
          · cases h
          next st2 hwb =>
            injection h with h1 h2 h3 h4
            rw [← h1, ← h2]
            obtain ⟨hbm2, hbs2, hnm2, hbk2⟩ := write_block_shape hwb
            exact WS_congr_storage (allocTriple_WS heq) hbm2 hbs2 hnm2 hbk2

theorem writeLoopGo_inv :
    ∀ (fuel : Nat) (data : List Nat) (st : BlockStorage) (fdo : FileDescriptor)
      (cur : Nat), BitsBinary st →
      WS st fdo (writeLoopGo st fdo cur fuel data).1
        (writeLoopGo st fdo cur fuel data).2.1 := by
  intro fuel
  induction fuel with
  | zero =>
    intro data st fdo cur _
    match data with
    | [] => exact WS_refl st fdo
    | d :: ds => exact WS_refl st fdo
  | succ fuel ih =>
    intro data st fdo cur hbin
    match data with
    | [] => exact WS_refl st fdo
    | d :: ds =>
      rw [writeLoopGo]
      rcases hstep : writeStep st fdo cur d ds with ⟨st1, fdo1, e⟩ |
        ⟨st1, fdo1, cur1, rest⟩ <;> simp only [hstep]
      · exact writeStep_inv.1 _ _ _ hstep
      · have h1 : WS st fdo st1 fdo1 := writeStep_inv.2 _ _ _ _ hstep
        exact WS_trans hbin h1 (ih rest st1 fdo1 cur1 (h1.2.2.2.2.2.1 hbin))

theorem writeLoop_inv (st : BlockStorage) (fdo : FileDescriptor) (cur : Nat)
    (data : List Nat) (hbin : BitsBinary st) :
    WS st fdo (writeLoop st fdo cur data).1 (writeLoop st fdo cur data).2.1 :=
  writeLoopGo_inv data.length data st fdo cur hbin

theorem truncGrowLoop_inv :
    ∀ (t : Nat) (st : BlockStorage) (fdo : FileDescriptor), BitsBinary st →
      WS st fdo (truncGrowLoop t st fdo).1 (truncGrowLoop t st fdo).2.1 := by
  intro t
  induction t with
  | zero =>
    intro st fdo _
    exact WS_refl st fdo
  | succ t ih =>
    intro st fdo hbin
    rw [truncGrowLoop]
    rcases halloc : st.allocate_block with e | ⟨stA, nb⟩ <;> simp only [halloc]
    · exact WS_refl st fdo
    · rcases hadd : fdo.add_block (nb : Int) with e | fdoA <;> simp only [hadd]
      · exact WS_alloc_only halloc
      · have h1 : WS st fdo stA fdoA := WS_alloc halloc hadd
        exact WS_trans hbin h1 (ih stA fdoA (h1.2.2.2.2.2.1 hbin))

theorem slotBlocks_set_self {s s' : FileSystem} {t : Nat} {d2 : FileDescriptor}
    (hti : t < s.file_descriptors.length)
    (hfd : s'.file_descriptors = s.file_descriptors.set t (some d2)) :
    slotBlocks s' t = d2.get_blocks := by
  unfold slotBlocks
  rw [hfd, List.get?_eq_getElem?, List.getElem?_set_self hti]

theorem slotBlocks_set_ne {s s' : FileSystem} {t j : Nat} {v : Option FileDescriptor}
    (hfd : s'.file_descriptors = s.file_descriptors.set t v) (hjt : j ≠ t) :
    slotBlocks s' j = slotBlocks s j := by
  unfold slotBlocks
  rw [hfd, List.get?_eq_getElem?, List.getElem?_set_ne (fun hc => hjt hc.symm),
    ← List.get?_eq_getElem?]

theorem FSInv_congr {s s' : FileSystem} (hinv : FSInv s)
    (hst : s'.block_storage = s.block_storage)
    (hfd : s'.file_descriptors = s.file_descriptors) : FSInv s' := by
  obtain ⟨i1, i2, i3, i4, i5, i6⟩ := hinv
  have hsb : ∀ j, slotBlocks s' j = slotBlocks s j := by
    intro j
    unfold slotBlocks
    rw [hfd]
  refine ⟨by rw [hst]; exact i1, by rw [hst]; exact i2, by rw [hst]; exact i3,
    by rw [hst]; exact i4, ?_, ?_⟩
  · intro j hj
    rw [hfd] at hj
    rw [hsb j, hst]
    exact i5 j hj
  · intro j hj j' hj' hne b hb
    rw [hfd] at hj hj'
    rw [hsb j] at hb
    rw [hsb j']
    exact i6 j hj j' hj' hne b hb

theorem FSInv_update {s s' : FileSystem} {t : Nat} {d1 d2 : FileDescriptor}
    (hinv : FSInv s)
    (hslot : s.file_descriptors.get? t = some (some d1))
    (hfd : s'.file_descriptors = s.file_descriptors.set t (some d2))
    (hbs : s'.block_storage.block_size = s.block_storage.block_size)
    (hnm : s'.block_storage.num_blocks = s.block_storage.num_blocks)
    (hbm : s'.block_storage.bitmap.length = s.block_storage.bitmap.length)
    (hbk : s'.block_storage.blocks.length = s.block_storage.blocks.length)
    (hbin : BitsBinary s'.block_storage)
    (hmono : ∀ j, s.block_storage.bitmap.get? j = some 1 →
      s'.block_storage.bitmap.get? j = some 1)
    (hd2 : (∀ b ∈ d2.get_blocks, 0 ≤ b ∧ b.toNat < s'.block_storage.bitmap.length ∧
        s'.block_storage.bitmap.get? b.toNat = some 1) ∧ d2.get_blocks.Nodup)
    (hfresh : ∀ b ∈ d2.get_blocks, b ∈ d1.get_blocks ∨
      s.block_storage.bitmap.get? b.toNat = some 0) :
    FSInv s' := by
  obtain ⟨i1, i2, i3, i4, i5, i6⟩ := hinv
  have htlt : t < s.file_descriptors.length := get?_some_lt hslot
  have hlen' : s'.file_descriptors.length = s.file_descriptors.length := by
    rw [hfd, List.length_set]
  have hsbt : slotBlocks s' t = d2.get_blocks := slotBlocks_set_self htlt hfd
  have hsb1 : slotBlocks s t = d1.get_blocks := slotBlocks_eq hslot
  refine ⟨by rw [hbs]; exact i1, by rw [hbm, hnm]; exact i2,
    by rw [hbk, hnm]; exact i3, hbin, ?_, ?_⟩
  · intro j hj
    rw [hlen'] at hj
    by_cases hjt : j = t
    · subst hjt
      rw [hsbt]
      exact hd2
    · rw [slotBlocks_set_ne hfd hjt]
      rcases i5 j hj with ⟨hm, hnd⟩
      refine ⟨?_, hnd⟩
      intro b hb
      rcases hm b hb with ⟨h0, hlt2, hbit⟩
      exact ⟨h0, by rw [hbm]; exact hlt2, hmono _ hbit⟩
  · intro j hj j' hj' hne b hb
    rw [hlen'] at hj hj'
    by_cases hjt : j = t
    · subst hjt
      rw [hsbt] at hb
      have hj't : j' ≠ j := fun hc => hne hc.symm
      rw [slotBlocks_set_ne hfd hj't]
      rcases hfresh b hb with hold | hzero
      · rw [← hsb1] at hold
        exact i6 j htlt j' hj' hne b hold
      · intro hmem
        rcases (i5 j' hj').1 b hmem with ⟨_, _, hbit⟩
        exact absurd (hbit.symm.trans hzero) (by decide)
    · rw [slotBlocks_set_ne hfd hjt] at hb
      by_cases hj't : j' = t
      · subst hj't
        rw [hsbt]
        intro hmem
        rcases hfresh b hmem with hold | hzero
        · rw [← hsb1] at hold
          exact i6 j hj j' htlt hne b hb hold
        · rcases (i5 j hj).1 b hb with ⟨_, _, hbit⟩
          exact absurd (hbit.symm.trans hzero) (by decide)
      · rw [slotBlocks_set_ne hfd hj't]
        exact i6 j hj j' hj' hne b hb

theorem FSInv_update_empty {s s' : FileSystem} {t : Nat} {d2 : FileDescriptor}
    (hinv : FSInv s) (hti : t < s.file_descriptors.length)
    (hfd : s'.file_descriptors = s.file_descriptors.set t (some d2))
    (hst : s'.block_storage = s.block_storage)
    (hnil : d2.get_blocks = []) : FSInv s' := by
  obtain ⟨i1, i2, i3, i4, i5, i6⟩ := hinv
  have hlen' : s'.file_descriptors.length = s.file_descriptors.length := by
    rw [hfd, List.length_set]
  have hsbt : slotBlocks s' t = d2.get_blocks := slotBlocks_set_self hti hfd
  refine ⟨by rw [hst]; exact i1, by rw [hst]; exact i2, by rw [hst]; exact i3,
    by rw [hst]; exact i4, ?_, ?_⟩
  · intro j hj
    rw [hlen'] at hj
    by_cases hjt : j = t
    · subst hjt
      rw [hsbt, hnil]
      exact ⟨fun b hb => absurd hb (List.not_mem_nil b), List.nodup_nil⟩
    · rw [slotBlocks_set_ne hfd hjt, hst]
      exact i5 j hj
  · intro j hj j' hj' hne b hb
    rw [hlen'] at hj hj'
    by_cases hjt : j = t
    · subst hjt
      rw [hsbt, hnil] at hb
      exact absurd hb (List.not_mem_nil b)
    · rw [slotBlocks_set_ne hfd hjt] at hb
      by_cases hj't : j' = t
      · subst hj't
        rw [hsbt, hnil]
        exact List.not_mem_nil b
      · rw [slotBlocks_set_ne hfd hj't]
        exact i6 j hj j' hj' hne b hb

theorem init_get_blocks (ft : String) (n : Nat) :
    (FileDescriptor.init ft n).get_blocks = [] := by
  unfold FileDescriptor.init FileDescriptor.get_blocks
  exact List.filter_replicate_of_neg (by simp)

theorem create_shape (s : FileSystem) (name : String) :
    (s.create name).1 = s ∨
    ∃ i, s.file_descriptors.get? i = some none ∧
      (s.create name).1 = { s with
        file_descriptors :=
          s.file_descriptors.set i (some (FileDescriptor.init fileTypeRegular 10))
        directory := s.directory ++ [(name, i)] } := by
  unfold FileSystem.create
  by_cases hdl : (dirLookup s.directory name).isSome
  · rw [if_pos hdl]
    exact Or.inl rfl
  · rw [if_neg hdl]
    rcases hfi : s.file_descriptors.findIdx? (fun o => o.isNone) with _ | i <;>
      simp only [hfi]
    · exact Or.inl trivial
    · right
      refine ⟨i, ?_, rfl⟩
      have h := (findIdx_isNone_aux s.file_descriptors 0 i hfi).2
      rwa [Nat.sub_zero] at h

theorem openFile_shape (s : FileSystem) (name : String) :
    (s.openFile name).1 = s ∨
    ∃ i, (∃ p ∈ s.directory, p.2 = i) ∧
      (s.openFile name).1 = { s with
        open_files := ofSet s.open_files s.next_fd (i, 0)
        next_fd := s.next_fd + 1 } := by
  unfold FileSystem.openFile
  rcases hdl : dirLookup s.directory name with _ | i <;> try dsimp only
  · exact Or.inl rfl
  · exact Or.inr ⟨i, dirLookup_mem hdl, rfl⟩

theorem seek_shape (s : FileSystem) (fd off : Nat) :
    (s.seek fd off).1 = s ∨
    ∃ i v, (∃ e ∈ s.open_files, e.2.1 = i) ∧
      (s.seek fd off).1 = { s with open_files := ofSet s.open_files fd (i, v) } := by
  unfold FileSystem.seek
  rcases hol : ofLookup s.open_files fd with _ | ⟨i, off0⟩ <;> try dsimp only
  · exact Or.inl rfl
  · right
    refine ⟨i, off, ?_, rfl⟩
    rcases ofLookup_mem hol with ⟨e, he, heq⟩
    exact ⟨e, he, by rw [heq]⟩

theorem read_shape (s : FileSystem) (fd sz : Nat) :
    (s.read fd sz).1 = s ∨
    ∃ i v, (∃ e ∈ s.open_files, e.2.1 = i) ∧
      (s.read fd sz).1 = { s with open_files := ofSet s.open_files fd (i, v) } := by
  unfold FileSystem.read
  rcases hol : ofLookup s.open_files fd with _ | ⟨i, off⟩ <;> try dsimp only
  · exact Or.inl rfl
  · rcases hsl : s.file_descriptors.get? i with _ | od <;> try dsimp only
    · exact Or.inl rfl
    · rcases od with _ | fdo <;> try dsimp only
      · exact Or.inl rfl
      · have hmem : ∃ e ∈ s.open_files, e.2.1 = i := by
          rcases ofLookup_mem hol with ⟨e, he, heq⟩
          exact ⟨e, he, by rw [heq]⟩
        split
        · exact Or.inl rfl
        next l co _ =>
          exact Or.inr ⟨i, co, hmem, rfl⟩

theorem write_shape (s : FileSystem) (fd : Nat) (data : List Nat) :
    (s.write fd data).1 = s ∨
    ∃ i off fdo, (∃ e ∈ s.open_files, e.2.1 = i) ∧
      s.file_descriptors.get? i = some (some fdo) ∧
      ((s.write fd data).1 = { s with
          block_storage := (writeLoop s.block_storage fdo off data).1
          file_descriptors := s.file_descriptors.set i
            (some (writeLoop s.block_storage fdo off data).2.1) } ∨
       (s.write fd data).1 = { s with
          block_storage := (writeLoop s.block_storage fdo off data).1
          file_descriptors := s.file_descriptors.set i
            (some { (writeLoop s.block_storage fdo off data).2.1 with
                      size := max (writeLoop s.block_storage fdo off data).2.1.size
                        (writeLoop s.block_storage fdo off data).2.2.1 })
          open_files := ofSet s.open_files fd
            (i, (writeLoop s.block_storage fdo off data).2.2.1) }) := by
  unfold FileSystem.write
  rcases hol : ofLookup s.open_files fd with _ | ⟨i, off⟩ <;> try dsimp only
  · exact Or.inl rfl
  · rcases hsl : s.file_descriptors.get? i with _ | od <;> try dsimp only
    · exact Or.inl rfl
    · rcases od with _ | fdo <;> try dsimp only
      · exact Or.inl rfl
      · right
        have hmem : ∃ e ∈ s.open_files, e.2.1 = i := by
          rcases ofLookup_mem hol with ⟨e, he, heq⟩
          exact ⟨e, he, by rw [heq]⟩
        refine ⟨i, off, fdo, hmem, hsl, ?_⟩
        rcases hwl : writeLoop s.block_storage fdo off data with ⟨st1, fdo1, cur1, oe⟩
        rcases oe with _ | e <;> try dsimp only
        · right
          rfl
        · left
          rfl

theorem link_shape (s : FileSystem) (n1 n2 : String) :
    (s.link n1 n2).1 = s ∨
    ∃ i fdo, (∃ p ∈ s.directory, p.2 = i) ∧
      s.file_descriptors.get? i = some (some fdo) ∧
      (s.link n1 n2).1 = { s with
        file_descriptors := s.file_descriptors.set i
          (some { fdo with hard_links := fdo.hard_links + 1 })
        directory := s.directory ++ [(n2, i)] } := by
  unfold FileSystem.link
  rcases hdl : dirLookup s.directory n1 with _ | i <;> try dsimp only
  · exact Or.inl rfl
  · by_cases h2 : (dirLookup s.directory n2).isSome
    · rw [if_pos h2]
      exact Or.inl rfl
    · rw [if_neg h2]
      rcases hsl : s.file_descriptors.get? i with _ | od <;> try dsimp only
      · exact Or.inl rfl
      · rcases od with _ | fdo <;> try dsimp only
        · exact Or.inl rfl
        · exact Or.inr ⟨i, fdo, dirLookup_mem hdl, hsl, rfl⟩

theorem truncate_shape (s : FileSystem) (name : String) (size : Nat) :
    (s.truncate name size).1 = s ∨
    ∃ i fdo, (∃ p ∈ s.directory, p.2 = i) ∧
      s.file_descriptors.get? i = some (some fdo) ∧
      ((s.truncate name size).1 = { s with
          block_storage := (truncGrowLoop
            ((size + s.block_storage.block_size - 1) / s.block_storage.block_size -
              fdo.get_blocks.length) s.block_storage fdo).1
          file_descriptors := s.file_descriptors.set i
            (some (truncGrowLoop
              ((size + s.block_storage.block_size - 1) / s.block_storage.block_size -
                fdo.get_blocks.length) s.block_storage fdo).2.1) } ∨
       (s.truncate name size).1 = { s with
          block_storage := (truncGrowLoop
            ((size + s.block_storage.block_size - 1) / s.block_storage.block_size -
              fdo.get_blocks.length) s.block_storage fdo).1
          file_descriptors := s.file_descriptors.set i
            (some { (truncGrowLoop
              ((size + s.block_storage.block_size - 1) / s.block_storage.block_size -
                fdo.get_blocks.length) s.block_storage fdo).2.1 with size := size }) } ∨
       ((freeBlocksLoop s.block_storage (fdo.get_blocks.drop
          ((size + s.block_storage.block_size - 1) / s.block_storage.block_size))).2 ≠
            none ∧
        (s.truncate name size).1 = { s with
          block_storage := (freeBlocksLoop s.block_storage (fdo.get_blocks.drop
            ((size + s.block_storage.block_size - 1) /
              s.block_storage.block_size))).1 }) ∨
       (s.truncate name size).1 = { s with
          block_storage := (freeBlocksLoop s.block_storage (fdo.get_blocks.drop
            ((size + s.block_storage.block_size - 1) /
              s.block_storage.block_size))).1
          file_descriptors := s.file_descriptors.set i
            (some { fdo with
                      direct_blocks := fdo.direct_blocks.take
                        ((size + s.block_storage.block_size - 1) /
                          s.block_storage.block_size)
                      size := size }) }) := by
  unfold FileSystem.truncate
  rcases hdl : dirLookup s.directory name with _ | i <;> try dsimp only
  · exact Or.inl rfl
  · rcases hsl : s.file_descriptors.get? i with _ | od <;> try dsimp only
    · exact Or.inl rfl
    · rcases od with _ | fdo <;> try dsimp only
      · exact Or.inl rfl
      · by_cases hgt : size > fdo.size
        · rw [if_pos hgt]
          by_cases hbs0 : s.block_storage.block_size = 0
          · rw [if_pos hbs0]
            exact Or.inl rfl
          · rw [if_neg hbs0]
            right
            refine ⟨i, fdo, dirLookup_mem hdl, hsl, ?_⟩
            dsimp only
            rcases hg : truncGrowLoop
                ((size + s.block_storage.block_size - 1) / s.block_storage.block_size -
                  fdo.get_blocks.length) s.block_storage fdo with ⟨st1, fdo1, oe⟩
            rcases oe with _ | e <;> try dsimp only
            · right
              left
              rfl
            · left
              rfl
        · rw [if_neg hgt]
          by_cases hlt : size < fdo.size
          · rw [if_pos hlt]
            by_cases hbs0 : s.block_storage.block_size = 0
            · rw [if_pos hbs0]
              exact Or.inl rfl
            · rw [if_neg hbs0]
              right
              refine ⟨i, fdo, dirLookup_mem hdl, hsl, ?_⟩
              dsimp only
              rcases hf : freeBlocksLoop s.block_storage (fdo.get_blocks.drop
                  ((size + s.block_storage.block_size - 1) /
                    s.block_storage.block_size)) with ⟨st1, oe⟩
              rcases oe with _ | e <;> try dsimp only
              · right
                right
                right
                rfl
              · right
                right
                left
                exact ⟨by simp, rfl⟩
          · rw [if_neg hlt]
            exact Or.inl rfl

theorem mem_get_blocks {fdo : FileDescriptor} {b : Int} :
    b ∈ fdo.get_blocks ↔ b ∈ fdo.direct_blocks ∧ b ≠ -1 := by
  unfold FileDescriptor.get_blocks
  simp [List.mem_filter]

theorem orphan_slot_set {s : FileSystem} {idx i : Nat} {d : FileDescriptor}
    (o1 : s.file_descriptors.get? idx = some (some d)) (hine : i ≠ idx)
    (v : Option FileDescriptor) :
    (s.file_descriptors.set i v).get? idx = some (some d) := by
  rw [List.get?_eq_getElem?, List.getElem?_set_ne hine, ← List.get?_eq_getElem?]
  exact o1

theorem slotBlocks_set_none {s s' : FileSystem} {t : Nat}
    (hti : t < s.file_descriptors.length)
    (hfd : s'.file_descriptors = s.file_descriptors.set t none) :
    slotBlocks s' t = [] := by
  unfold slotBlocks
  rw [hfd, List.get?_eq_getElem?, List.getElem?_set_self hti]

theorem get_blocks_take_sub {fdo : FileDescriptor} {keep sz : Nat} :
    ∀ b ∈ ({ fdo with
        direct_blocks := fdo.direct_blocks.take keep
        size := sz } : FileDescriptor).get_blocks,
      b ∈ fdo.get_blocks.take keep := by
  intro b hb
  have hpfx : (fdo.direct_blocks.take keep).filter (fun x => x ≠ -1) <+:
      fdo.direct_blocks.filter (fun x => x ≠ -1) :=
    (List.take_prefix keep fdo.direct_blocks).filter _
  have hPlen : ((fdo.direct_blocks.take keep).filter (fun x => x ≠ -1)).length ≤
      keep :=
    le_trans (List.length_filter_le _ _) (by simp [List.length_take])
  have hPeq : (fdo.direct_blocks.take keep).filter (fun x => x ≠ -1) =
      (fdo.direct_blocks.filter (fun x => x ≠ -1)).take
        ((fdo.direct_blocks.take keep).filter (fun x => x ≠ -1)).length :=
    List.prefix_iff_eq_take.mp hpfx
  have hb2 : b ∈ (fdo.direct_blocks.filter (fun x => x ≠ -1)).take
      ((fdo.direct_blocks.take keep).filter (fun x => x ≠ -1)).length := by
    rw [← hPeq]
    exact hb
  have hb3 : b ∈ ((fdo.direct_blocks.filter (fun x => x ≠ -1)).take keep).take
      ((fdo.direct_blocks.take keep).filter (fun x => x ≠ -1)).length := by
    rw [List.take_take, Nat.min_eq_left hPlen]
    exact hb2
  exact List.mem_of_mem_take hb3

theorem get_blocks_take_nodup {fdo : FileDescriptor} {keep sz : Nat}
    (hnd : fdo.get_blocks.Nodup) :
    ({ fdo with
        direct_blocks := fdo.direct_blocks.take keep
        size := sz } : FileDescriptor).get_blocks.Nodup := by
  have hpfx : (fdo.direct_blocks.take keep).filter (fun x => x ≠ -1) <+:
      fdo.direct_blocks.filter (fun x => x ≠ -1) :=
    (List.take_prefix keep fdo.direct_blocks).filter _
  exact List.Nodup.sublist hpfx.sublist hnd

theorem FSInv_free_none {s s' : FileSystem} {i : Nat} {fdo : FileDescriptor}
    (hinv : FSInv s)
    (hslot : s.file_descriptors.get? i = some (some fdo))
    (hfd : s'.file_descriptors = s.file_descriptors.set i none)
    (hst : s'.block_storage = (freeBlocksLoop s.block_storage fdo.get_blocks).1) :
    FSInv s' := by
  obtain ⟨i1, i2, i3, i4, i5, i6⟩ := hinv
  have hilt : i < s.file_descriptors.length := get?_some_lt hslot
  have hsbi : slotBlocks s i = fdo.get_blocks := slotBlocks_eq hslot
  have hpre := i5 i hilt
  rw [hsbi] at hpre
  have hval : ∀ b ∈ fdo.get_blocks, 0 ≤ b ∧
      b.toNat < s.block_storage.bitmap.length :=
    fun b hb => ⟨(hpre.1 b hb).1, (hpre.1 b hb).2.1⟩
  have hlenbb : s.block_storage.blocks.length = s.block_storage.bitmap.length := by
    rw [i3, i2]
  obtain ⟨h1, h2, h3, h4, h5, h6, h7, h8⟩ :=
    freeBlocksLoop_spec fdo.get_blocks s.block_storage i4 hlenbb hval
  have hlen' : s'.file_descriptors.length = s.file_descriptors.length := by
    rw [hfd, List.length_set]
  refine ⟨?_, ?_, ?_, ?_, ?_, ?_⟩
  · rw [hst, h4]
    exact i1
  · rw [hst, h2, h5]
    exact i2
  · rw [hst, h3, h5]
    exact i3
  · rw [hst]
    exact h6
  · intro j hj
    rw [hlen'] at hj
    by_cases hji : j = i
    · subst hji
      rw [slotBlocks_set_none hilt hfd]
      exact ⟨fun b hb => absurd hb (List.not_mem_nil b), List.nodup_nil⟩
    · rw [slotBlocks_set_ne hfd hji]
      rcases i5 j hj with ⟨hm, hnd⟩
      refine ⟨?_, hnd⟩
      intro b hb
      rcases hm b hb with ⟨h0, hlt2, hbit⟩
      have hnotin : ∀ bb ∈ fdo.get_blocks, bb.toNat ≠ b.toNat := by
        intro bb hbb hc
        have hbbne : b ∉ slotBlocks s i := i6 j hj i hilt hji b hb
        rw [hsbi] at hbbne
        have hbb0 : 0 ≤ bb := (hpre.1 bb hbb).1
        have : bb = b := by omega
        rw [this] at hbb
        exact hbbne hbb
      refine ⟨h0, by rw [hst, h2]; exact hlt2, ?_⟩
      rw [hst, (h8 b.toNat hnotin).1]
      exact hbit
  · intro j hj j' hj' hne b hb
    rw [hlen'] at hj hj'
    by_cases hji : j = i
    · subst hji
      rw [slotBlocks_set_none hilt hfd] at hb
      exact absurd hb (List.not_mem_nil b)
    · rw [slotBlocks_set_ne hfd hji] at hb
      by_cases hj'i : j' = i
      · subst hj'i
        rw [slotBlocks_set_none hilt hfd]
        exact List.not_mem_nil b
      · rw [slotBlocks_set_ne hfd hj'i]
        exact i6 j hj j' hj' hne b hb

theorem FSInv_shrink {s s' : FileSystem} {i keep sz : Nat} {fdo : FileDescriptor}
    (hinv : FSInv s)
    (hslot : s.file_descriptors.get? i = some (some fdo))
    (hfd : s'.file_descriptors = s.file_descriptors.set i
      (some { fdo with
                direct_blocks := fdo.direct_blocks.take keep
                size := sz }))
    (hst : s'.block_storage =
      (freeBlocksLoop s.block_storage (fdo.get_blocks.drop keep)).1) :
    FSInv s' := by
  obtain ⟨i1, i2, i3, i4, i5, i6⟩ := hinv
  have hilt : i < s.file_descriptors.length := get?_some_lt hslot
  have hsbi : slotBlocks s i = fdo.get_blocks := slotBlocks_eq hslot
  have hpre := i5 i hilt
  rw [hsbi] at hpre
  have hval : ∀ b ∈ fdo.get_blocks.drop keep, 0 ≤ b ∧
      b.toNat < s.block_storage.bitmap.length :=
    fun b hb => ⟨(hpre.1 b (List.mem_of_mem_drop hb)).1,
      (hpre.1 b (List.mem_of_mem_drop hb)).2.1⟩
  have hlenbb : s.block_storage.blocks.length = s.block_storage.bitmap.length := by
    rw [i3, i2]
  obtain ⟨h1, h2, h3, h4, h5, h6, h7, h8⟩ :=
    freeBlocksLoop_spec (fdo.get_blocks.drop keep) s.block_storage i4 hlenbb hval
  have hlen' : s'.file_descriptors.length = s.file_descriptors.length := by
    rw [hfd, List.length_set]
  have hkeepdisj : ∀ b ∈ fdo.get_blocks.take keep,
      ∀ bb ∈ fdo.get_blocks.drop keep, bb.toNat ≠ b.toNat := by
    intro b hb bb hbb hc
    have hdisj := List.disjoint_take_drop hpre.2
      (Nat.le_refl keep)
    have hb0 : 0 ≤ b := (hpre.1 b (List.mem_of_mem_take hb)).1
    have hbb0 : 0 ≤ bb := (hpre.1 bb (List.mem_of_mem_drop hbb)).1
    have hbbb : bb = b := by omega
    rw [hbbb] at hbb
    exact hdisj hb hbb
  refine ⟨?_, ?_, ?_, ?_, ?_, ?_⟩
  · rw [hst, h4]
    exact i1
  · rw [hst, h2, h5]
    exact i2
  · rw [hst, h3, h5]
    exact i3
  · rw [hst]
    exact h6
  · intro j hj
    rw [hlen'] at hj
    by_cases hji : j = i
    · subst hji
      rw [slotBlocks_set_self hilt hfd]
      constructor
      · intro b hb
        have hbtake : b ∈ fdo.get_blocks.take keep := get_blocks_take_sub b hb
        have hbfull : b ∈ fdo.get_blocks := List.mem_of_mem_take hbtake
        rcases hpre.1 b hbfull with ⟨h0, hlt2, hbit⟩
        refine ⟨h0, by rw [hst, h2]; exact hlt2, ?_⟩
        rw [hst, (h8 b.toNat (fun bb hbb => hkeepdisj b hbtake bb hbb)).1]
        exact hbit
      · exact get_blocks_take_nodup hpre.2
    · rw [slotBlocks_set_ne hfd hji]
      rcases i5 j hj with ⟨hm, hnd⟩
      refine ⟨?_, hnd⟩
      intro b hb
      rcases hm b hb with ⟨h0, hlt2, hbit⟩
      have hnotin : ∀ bb ∈ fdo.get_blocks.drop keep, bb.toNat ≠ b.toNat := by
        intro bb hbb hc
        have hbne : b ∉ slotBlocks s i := i6 j hj i hilt hji b hb
        rw [hsbi] at hbne
        have hbb0 : 0 ≤ bb := (hpre.1 bb (List.mem_of_mem_drop hbb)).1
        have hbbb : bb = b := by omega
        rw [hbbb] at hbb
        exact hbne (List.mem_of_mem_drop hbb)
      refine ⟨h0, by rw [hst, h2]; exact hlt2, ?_⟩
      rw [hst, (h8 b.toNat hnotin).1]
      exact hbit
  · intro j hj j' hj' hne b hb
    rw [hlen'] at hj hj'
    by_cases hji : j = i
    · subst hji
      rw [slotBlocks_set_self hilt hfd] at hb
      have hbfull : b ∈ fdo.get_blocks :=
        List.mem_of_mem_take (get_blocks_take_sub b hb)
      have hj'i : j' ≠ j := fun hc => hne hc.symm
      rw [slotBlocks_set_ne hfd hj'i]
      rw [← hsbi] at hbfull
      exact i6 j hilt j' hj' hne b hbfull
    · rw [slotBlocks_set_ne hfd hji] at hb
      by_cases hj'i : j' = i
      · subst hj'i
        rw [slotBlocks_set_self hilt hfd]
        intro hmem
        have hbfull : b ∈ fdo.get_blocks :=
          List.mem_of_mem_take (get_blocks_take_sub b hmem)
        rw [← hsbi] at hbfull
        exact i6 j hj j' hilt hne b hb hbfull
      · rw [slotBlocks_set_ne hfd hj'i]
        exact i6 j hj j' hj' hne b hb

theorem FSInv_after_WS {s s' : FileSystem} {i : Nat} {fdo fdo1 d2 : FileDescriptor}
    {stB : BlockStorage}
    (hinv : FSInv s)
    (hslot : s.file_descriptors.get? i = some (some fdo))
    (hws : WS s.block_storage fdo stB fdo1)
    (hfd : s'.file_descriptors = s.file_descriptors.set i (some d2))
    (hd2 : d2.direct_blocks = fdo1.direct_blocks)
    (hst : s'.block_storage = stB) :
    FSInv s' := by
  obtain ⟨w1, w2, w3, w4, w5, w6, w7, w8⟩ := hws
  have hbin := hinv.2.2.2.1
  have hilt := get?_some_lt hslot
  have hpre := hinv.2.2.2.2.1 i hilt
  rw [slotBlocks_eq hslot] at hpre
  have hpost := w8 hpre
  have hgb : d2.get_blocks = fdo1.get_blocks := by
    unfold FileDescriptor.get_blocks
    rw [hd2]
  refine FSInv_update hinv hslot hfd (by rw [hst]; exact w1) (by rw [hst]; exact w2)
    (by rw [hst]; exact w3) (by rw [hst]; exact w4) (by rw [hst]; exact w6 hbin)
    (fun j hj => by rw [hst]; exact w5 j hj) ?_ ?_
  · rw [hgb, hst]
    exact hpost
  · intro b hb
    rw [hgb] at hb
    rcases mem_get_blocks.mp hb with ⟨hbd, hbne⟩
    rcases w7 b hbd with hold | ⟨h0, hz, _⟩
    · exact Or.inl (mem_get_blocks.mpr ⟨hold, hbne⟩)
    · exact Or.inr hz

theorem stepFS_preserves (s : FileSystem) (idx : Nat) (d : FileDescriptor) (op : Op)
    (hinv : FSInv s) (horph : Orphaned s idx d) :
    FSInv (stepFS s op) ∧ Orphaned (stepFS s op) idx d := by
  obtain ⟨o1, o2, o3⟩ := horph
  have hbin : BitsBinary s.block_storage := hinv.2.2.2.1
  cases op with
  | stat name => exact ⟨hinv, o1, o2, o3⟩
  | ls => exact ⟨hinv, o1, o2, o3⟩
  | create name =>
    show FSInv (s.create name).1 ∧ Orphaned (s.create name).1 idx d
    rcases create_shape s name with heq | ⟨i, hislot, heq⟩
    · rw [heq]
      exact ⟨hinv, o1, o2, o3⟩
    · have hine : i ≠ idx := by
        intro hc
        rw [hc] at hislot
        exact absurd (o1.symm.trans hislot) (by simp)
      rw [heq]
      refine ⟨FSInv_update_empty hinv (get?_some_lt hislot) rfl rfl
        (init_get_blocks _ _), ?_, ?_, o3⟩
      · exact orphan_slot_set o1 hine _
      · intro p hp
        rcases List.mem_append.mp hp with h | h
        · exact o2 p h
        · have hpv : p = (name, i) := by simpa using h
          rw [hpv]
          exact hine
  | openF name =>
    show FSInv (s.openFile name).1 ∧ Orphaned (s.openFile name).1 idx d
    rcases openFile_shape s name with heq | ⟨i, ⟨p0, hp0, hp0i⟩, heq⟩
    · rw [heq]
      exact ⟨hinv, o1, o2, o3⟩
    · have hine : i ≠ idx := fun hc => o2 p0 hp0 (hp0i.trans hc)
      rw [heq]
      refine ⟨FSInv_congr hinv rfl rfl, o1, o2, ?_⟩
      intro e he
      rcases ofSet_mem he with h | h
      · exact o3 e h
      · rw [h]
        exact hine
  | close fd =>
    show FSInv (s.close fd) ∧ Orphaned (s.close fd) idx d
    refine ⟨FSInv_congr hinv rfl rfl, o1, o2, ?_⟩
    intro e he
    exact o3 e (List.mem_of_mem_filter he)
  | seek fd off =>
    show FSInv (s.seek fd off).1 ∧ Orphaned (s.seek fd off).1 idx d
    rcases seek_shape s fd off with heq | ⟨i, v, ⟨e0, he0, he0i⟩, heq⟩
    · rw [heq]
      exact ⟨hinv, o1, o2, o3⟩
    · have hine : i ≠ idx := fun hc => o3 e0 he0 (he0i.trans hc)
      rw [heq]
      refine ⟨FSInv_congr hinv rfl rfl, o1, o2, ?_⟩
      intro e he
      rcases ofSet_mem he with h | h
      · exact o3 e h
      · rw [h]
        exact hine
  | read fd sz =>
    show FSInv (s.read fd sz).1 ∧ Orphaned (s.read fd sz).1 idx d
    rcases read_shape s fd sz with heq | ⟨i, v, ⟨e0, he0, he0i⟩, heq⟩
    · rw [heq]
      exact ⟨hinv, o1, o2, o3⟩
    · have hine : i ≠ idx := fun hc => o3 e0 he0 (he0i.trans hc)
      rw [heq]
      refine ⟨FSInv_congr hinv rfl rfl, o1, o2, ?_⟩
      intro e he
      rcases ofSet_mem he with h | h
      · exact o3 e h
      · rw [h]
        exact hine
  | write fd data =>
    show FSInv (s.write fd data).1 ∧ Orphaned (s.write fd data).1 idx d
    rcases write_shape s fd data with heq | ⟨i, off, fdo, ⟨e0, he0, he0i⟩, hslot, hcase⟩
    · rw [heq]
      exact ⟨hinv, o1, o2, o3⟩
    · have hine : i ≠ idx := fun hc => o3 e0 he0 (he0i.trans hc)
      have hws := writeLoop_inv s.block_storage fdo off data hbin
      rcases hcase with heq | heq <;> rw [heq]
      · refine ⟨FSInv_after_WS hinv hslot hws rfl rfl rfl, ?_, o2, o3⟩
        exact orphan_slot_set o1 hine _
      · refine ⟨FSInv_after_WS hinv hslot hws rfl rfl rfl, ?_, o2, ?_⟩
        · exact orphan_slot_set o1 hine _
        · intro e he
          rcases ofSet_mem he with h | h
          · exact o3 e h
          · rw [h]
            exact hine
  | link n1 n2 =>
    show FSInv (s.link n1 n2).1 ∧ Orphaned (s.link n1 n2).1 idx d
    rcases link_shape s n1 n2 with heq | ⟨i, fdo, ⟨p0, hp0, hp0i⟩, hslot, heq⟩
    · rw [heq]
      exact ⟨hinv, o1, o2, o3⟩
    · have hine : i ≠ idx := fun hc => o2 p0 hp0 (hp0i.trans hc)
      rw [heq]
      refine ⟨FSInv_after_WS hinv hslot (WS_refl s.block_storage fdo) rfl rfl rfl,
        ?_, ?_, o3⟩
      · exact orphan_slot_set o1 hine _
      · intro p hp
        rcases List.mem_append.mp hp with h | h
        · exact o2 p h
        · have hpv : p = (n2, i) := by simpa using h
          rw [hpv]
          exact hine
  | truncate name sz =>
    show FSInv (s.truncate name sz).1 ∧ Orphaned (s.truncate name sz).1 idx d
    rcases truncate_shape s name sz with heq |
      ⟨i, fdo, ⟨p0, hp0, hp0i⟩, hslot, hcase⟩
    · rw [heq]
      exact ⟨hinv, o1, o2, o3⟩
    · have hine : i ≠ idx := fun hc => o2 p0 hp0 (hp0i.trans hc)
      have hgws := truncGrowLoop_inv
        ((sz + s.block_storage.block_size - 1) / s.block_storage.block_size -
          fdo.get_blocks.length) s.block_storage fdo hbin
      rcases hcase with heq | heq | ⟨hfe, heq⟩ | heq
      · rw [heq]
        refine ⟨FSInv_after_WS hinv hslot hgws rfl rfl rfl, ?_, o2, o3⟩
        exact orphan_slot_set o1 hine _
      · rw [heq]
        refine ⟨FSInv_after_WS hinv hslot hgws rfl rfl rfl, ?_, o2, o3⟩
        exact orphan_slot_set o1 hine _
      · exfalso
        apply hfe
        have hilt := get?_some_lt hslot
        have hpre := hinv.2.2.2.2.1 i hilt
        rw [slotBlocks_eq hslot] at hpre
        exact (freeBlocksLoop_spec _ s.block_storage hbin
          (by rw [hinv.2.2.1, hinv.2.1])
          (fun b hb => ⟨(hpre.1 b (List.mem_of_mem_drop hb)).1,
            (hpre.1 b (List.mem_of_mem_drop hb)).2.1⟩)).1
      · rw [heq]
        refine ⟨FSInv_shrink hinv hslot rfl rfl, ?_, o2, o3⟩
        exact orphan_slot_set o1 hine _
  | unlink name =>
    show FSInv (s.unlink name).1 ∧ Orphaned (s.unlink name).1 idx d
    unfold FileSystem.unlink
    rcases hdl : dirLookup s.directory name with _ | i <;> try dsimp only
    · exact ⟨hinv, o1, o2, o3⟩
    · have hine : i ≠ idx := by
        rcases dirLookup_mem hdl with ⟨p0, hp0, hp0i⟩
        exact fun hc => o2 p0 hp0 (hp0i.trans hc)
      have hdirsub : ∀ p ∈ dirRemove s.directory name, p.2 ≠ idx :=
        fun p hp => o2 p (List.mem_of_mem_filter hp)
      rcases hsl : s.file_descriptors.get? i with _ | od <;> try dsimp only
      · exact ⟨FSInv_congr hinv rfl rfl, o1, hdirsub, o3⟩
      · rcases od with _ | fdo <;> try dsimp only
        · exact ⟨FSInv_congr hinv rfl rfl, o1, hdirsub, o3⟩
        · by_cases hcond : ({ fdo with hard_links := fdo.hard_links - 1 } :
              FileDescriptor).hard_links = 0 ∧
              ¬ s.open_files.any (fun e => e.2.1 = i)
          · rw [if_pos hcond]
            have hilt := get?_some_lt hsl
            have hpre := hinv.2.2.2.2.1 i hilt
            rw [slotBlocks_eq hsl] at hpre
            have hspec := freeBlocksLoop_spec
              ({ fdo with hard_links := fdo.hard_links - 1 } :
                FileDescriptor).get_blocks s.block_storage hbin
              (by rw [hinv.2.2.1, hinv.2.1])
              (fun b hb => ⟨(hpre.1 b hb).1, (hpre.1 b hb).2.1⟩)
            rcases hfb : freeBlocksLoop s.block_storage
                ({ fdo with hard_links := fdo.hard_links - 1 } :
                  FileDescriptor).get_blocks with ⟨st1, oe⟩
            rw [hfb] at hspec
            rcases oe with _ | e
            · dsimp only
              refine ⟨?_, orphan_slot_set o1 hine _, hdirsub, o3⟩
              refine FSInv_free_none hinv hsl rfl ?_
              show st1 = (freeBlocksLoop s.block_storage
                ({ fdo with hard_links := fdo.hard_links - 1 } :
                  FileDescriptor).get_blocks).1
              rw [hfb]
            · exact absurd hspec.1 (by simp)
          · rw [if_neg hcond]
            refine ⟨FSInv_after_WS hinv hsl (WS_refl s.block_storage fdo) rfl rfl
              rfl, orphan_slot_set o1 hine _, hdirsub, o3⟩

theorem runFS_preserves (s : FileSystem) (idx : Nat) (d : FileDescriptor)
    (ops : List Op) (hinv : FSInv s) (horph : Orphaned s idx d) :
    FSInv (runFS s ops) ∧ Orphaned (runFS s ops) idx d := by
  induction ops generalizing s with
  | nil => exact ⟨hinv, horph⟩
  | cons op rest ih =>
    have h := stepFS_preserves s idx d op hinv horph
    exact ih (stepFS s op) h.1 h.2

/-- C6: an orphaned descriptor — slot `idx` still holds `d` with no
directory entry and no open handle referencing it, as after the last
handle of an unlinked-while-open file is closed — is never reclaimed by
any later sequence of API operations on a well-formed state: `close`
(lines 87-89 of `main.py`) only deletes the handle-table entry, and after
any `ops` the slot still holds exactly `d`, every one of `d`'s blocks is
still marked used in the bitmap, and the descriptor is still orphaned
(nothing ever re-checks reclaim eligibility). -/
theorem C6_orphan_never_reclaimed (s : FileSystem) (idx : Nat) (d : FileDescriptor)
    (ops : List Op) (hinv : FSInv s) (horph : Orphaned s idx d) :
    (∀ (s0 : FileSystem) (fd : Nat), FileSystem.close s0 fd =
      { s0 with open_files := ofRemove s0.open_files fd }) ∧
    (runFS s ops).file_descriptors.get? idx = some (some d) ∧
    (∀ b ∈ d.get_blocks,
      (runFS s ops).block_storage.bitmap.get? b.toNat = some 1) ∧
    Orphaned (runFS s ops) idx d := by
  obtain ⟨hinv1, horph1⟩ := runFS_preserves s idx d ops hinv horph
  refine ⟨fun s0 fd => rfl, horph1.1, ?_, horph1⟩
  have hilt := get?_some_lt horph1.1
  have h5 := hinv1.2.2.2.2.1 idx hilt
  rw [slotBlocks_eq horph1.1] at h5
  intro b hb
  exact (h5.1 b hb).2.2

/-- The concrete orphan state of the C6 scenario: create a file, open it,
write two bytes (allocating block 0), unlink it while the handle is open
(deferring reclamation), then close the last handle.  Slot 0 now holds a
descriptor with zero hard links that nothing references. -/
def c6State : FileSystem :=
  FileSystem.close ((FileSystem.unlink ((FileSystem.write ((FileSystem.openFile
    ((FileSystem.create (FileSystem.init 8 4 4) nmA).1) nmA).1) 0 [7, 8]).1)
    nmA).1) 0

/-- The orphaned descriptor held in slot 0 of `c6State`. -/
def c6Fdo : FileDescriptor :=
  { file_type := fileTypeRegular
    hard_links := 0
    size := 2
    direct_blocks := (0 : Int) :: List.replicate 9 (-1)
    indirect_block := -1 }

/-- A later workload touching every mutating part of the system: a second
file is created, opened, written across two blocks, shrunk and unlinked. -/
def c6Ops : List Op :=
  [.create nmB, .openF nmB, .write 1 [9, 9, 9, 9, 9], .truncate nmB 1,
    .unlink nmB]

/-- C6 witness: `C6_orphan_never_reclaimed` applied to the concrete orphan
of `c6State` and the workload `c6Ops`: afterwards slot 0 still holds the
orphan unchanged and its block 0 is still marked used. -/
theorem C6_witness :
    FSInv c6State ∧ Orphaned c6State 0 c6Fdo ∧
    (runFS c6State c6Ops).file_descriptors.get? 0 = some (some c6Fdo) ∧
    (∀ b ∈ c6Fdo.get_blocks,
      (runFS c6State c6Ops).block_storage.bitmap.get? b.toNat = some 1) := by
  have h := C6_orphan_never_reclaimed c6State 0 c6Fdo c6Ops (by decide) (by decide)
  exact ⟨by decide, by decide, h.2.1, h.2.2.1⟩

end SPZ4
